import Mathlib

/-!
# GoOse content extractor (`extractor.go`): scoring, top-node selection and clean-up

A shallow embedding of the content-scoring engine of `extractor.go` and the
properties of it that the specification states.

Modelling conventions.

* Go `int` is `Int`: the sums of the extractor are sums of word counts, far below
  `2 ^ 63`, and are computed without wrapping.  A score read from an attribute goes
  through `strconv.Atoi`, which reports a range error outside the range of `int`.
* Go `float64` is `ℚ` in `isHighLinkDensity`, in the boost of `calculateBestNode` and in
  `getSiblingsContent`, whose operands are word counts: every float operation is read
  as the exact operation on rationals, and the sections on binary64 rounding show,
  place by place, that rounding every operation to binary64 gives the same results.
  In `isNodescoreThresholdMet`, whose operands are scores read from attributes, every
  float operation is rounded to binary64 (`f64`).
* An `*html.Node` is a position (`Path`) in the document tree.  The fields of the
  nodes that the extractor writes are kept beside the tree, keyed by position: the
  attributes (`Document.Attr`) and whether `RemoveChild` unlinked the node
  (`Document.Detached`).  An unlinked subtree stays in place, so that positions
  stay valid the way pointers do in Go.  The document is threaded through every
  function that mutates it.
* A run-time panic (`Get(0)` on an empty selection) is `Except.error`.
* `stopWordsCount` belongs to another file of the package: it is the parameter `sw`.
-/

namespace Goose

/-! ## `strconv` -/

/-- The decimal digit character of `d` (`d < 10`). -/
def digitChar (d : Nat) : Char :=
  match d with
  | 0 => '0' | 1 => '1' | 2 => '2' | 3 => '3' | 4 => '4'
  | 5 => '5' | 6 => '6' | 7 => '7' | 8 => '8' | _ => '9'

/-- The value of a decimal digit character, `none` for any other character. -/
def digitVal (c : Char) : Option Nat :=
  if c = '0' then some 0 else if c = '1' then some 1 else if c = '2' then some 2
  else if c = '3' then some 3 else if c = '4' then some 4 else if c = '5' then some 5
  else if c = '6' then some 6 else if c = '7' then some 7 else if c = '8' then some 8
  else if c = '9' then some 9 else none

/-- Decimal digits of `n`, most significant first, pushed in front of `acc`. -/
def natDigits : Nat → Nat → List Char → List Char
  | 0, _, acc => acc
  | fuel + 1, n, acc =>
    if n / 10 = 0 then digitChar (n % 10) :: acc
    else natDigits fuel (n / 10) (digitChar (n % 10) :: acc)

/-- Go `strconv.Itoa`. -/
def Itoa (n : Int) : String :=
  if n < 0 then String.mk ('-' :: natDigits (n.natAbs + 1) n.natAbs [])
  else String.mk (natDigits (n.natAbs + 1) n.natAbs [])

/-- The error of a `strconv` conversion: `strconv.ErrSyntax` or `strconv.ErrRange`. -/
inductive NumError where
  | ErrSyntax
  | ErrRange
deriving DecidableEq, Repr

/-- The loop of `strconv.ParseUint(s, 10, 64)` over the characters that are left, with the
current value `n`: the value and the error.  A character that is no digit gives
`(0, ErrSyntax)`; when `n * 10` or `n * 10 + d` leaves the range of `uint64` the result is
`(maxVal, ErrRange)` at once, whatever comes after.  (The source tests `n1 < n || n1 > maxVal`
on wrapping numbers; on `Nat` both say `n1 > maxVal`.  It reads bytes; a character outside
ASCII has no digit among its bytes.) -/
def parseUintLoop : List Char → Nat → Nat × Option NumError
  | [], n => (n, none)
  | c :: rest, n =>
    let maxUint64 : Nat := 2 ^ 64 - 1
    let cutoff : Nat := maxUint64 / 10 + 1
    let maxVal : Nat := 2 ^ 64 - 1
    match digitVal c with
    | none => (0, some NumError.ErrSyntax)
    | some d =>
      if n ≥ cutoff then (maxVal, some NumError.ErrRange)
      else
        let n1 := n * 10 + d
        if n1 > maxVal then (maxVal, some NumError.ErrRange)
        else parseUintLoop rest n1

/-- Go `strconv.ParseUint(s, 10, 64)`. -/
def ParseUint (s : List Char) : Nat × Option NumError :=
  if s = [] then (0, some NumError.ErrSyntax) else parseUintLoop s 0

/-- Go `strconv.ParseInt(s, 10, 0)` with `int` of 64 bits: a leading sign is picked off; a
syntax error gives the value 0; a value outside the range of `int` gives `ErrRange` and the
nearest bound of the range. -/
def ParseInt (s : List Char) : Int × Option NumError :=
  match s with
  | [] => (0, some NumError.ErrSyntax)
  | c :: cs =>
    let neg : Bool := decide (c = '-')
    let s1 := if c = '+' ∨ c = '-' then cs else c :: cs
    let r := ParseUint s1
    let un := r.1
    if r.2 = some NumError.ErrSyntax then (0, some NumError.ErrSyntax)
    else
      let cutoff : Nat := 2 ^ 63
      if neg = false ∧ un ≥ cutoff then (((cutoff - 1 : Nat) : Int), some NumError.ErrRange)
      else if neg = true ∧ un > cutoff then (-(cutoff : Int), some NumError.ErrRange)
      else (if neg then -(un : Int) else (un : Int), none)

/-- Go `strconv.Atoi`: the value and whether `err == nil`.  (The short path of `Atoi` for
strings of less than 19 bytes gives what `ParseInt` gives.) -/
def Atoi (s : String) : Int × Bool :=
  let r := ParseInt s.data
  (r.1, decide (r.2 = none))

/-! ## `html.Node` and the document -/

/-- The node types of `html.Node` that occur in a parsed document. -/
inductive NodeType where
  | TextNode
  | DocumentNode
  | ElementNode
  | CommentNode
  | DoctypeNode
deriving DecidableEq, Repr

/-- Go `html.Attribute` (the namespace is not used by the extractor). -/
structure Attribute where
  Key : String
  Val : String
deriving DecidableEq, Repr

/-- The part of Go `html.Node` that the extractor never writes: the type, `Data`
(the tag of an element, the text of a text node) and the children. -/
inductive Node where
  | mk (Typ : NodeType) (Data : String) (Children : List Node)

namespace Node

/-- Field `Type` of `html.Node`. -/
def Typ : Node → NodeType
  | mk t _ _ => t

/-- Field `Data` of `html.Node`. -/
def Data : Node → String
  | mk _ d _ => d

/-- The child nodes in document order. -/
def Children : Node → List Node
  | mk _ _ cs => cs

/-- The atom name `DataAtom.String()`.  It is the tag for an element with a known
tag (every tag the extractor compares it with is known). -/
def atomString (n : Node) : String :=
  if n.Typ = NodeType.ElementNode then n.Data else ""

end Node

/-- A position in the document: the child indices on the way down from the root.
It plays the part of the pointer `*html.Node`. -/
abbrev Path := List Nat

/-- A parsed document with the mutable fields of its nodes: `Attr p` is the field
`Attr` of the node at `p`, and `Detached p` says that `RemoveChild` unlinked the
node at `p` from its parent. -/
structure Document where
  root : Node
  Attr : Path → List Attribute
  Detached : Path → Bool

namespace Node

/-- The node at position `p` below `n`. -/
def get? : Node → Path → Option Node
  | n, [] => some n
  | mk _ _ cs, i :: rest =>
    match cs[i]? with
    | none => none
    | some c => get? c rest

mutual
/-- The text of the node `n` at position `p`, goquery `getNodeText`: the data of a
text node, else the texts of the linked children one after the other. -/
def text (det : Path → Bool) : Node → Path → String
  | mk t d cs, p => if t = NodeType.TextNode then d else textList det cs p 0
/-- The texts of the linked nodes of a child list whose first member has index `i`
under the node at `p`, concatenated. -/
def textList (det : Path → Bool) : List Node → Path → Nat → String
  | [], _, _ => ""
  | c :: cs, p, i =>
    (if det (p ++ [i]) then "" else text det c (p ++ [i])) ++ textList det cs p (i + 1)
end

mutual
/-- The proper descendants of the node at position `p` that are reachable through
linked children, in document order (pre-order), each with its position. -/
def descendants (det : Path → Bool) : Node → Path → List (Path × Node)
  | mk _ _ cs, p => descendantsList det cs p 0
/-- The reachable nodes of the subtrees of a child list whose first member has
index `i` under the node at `p`. -/
def descendantsList (det : Path → Bool) : List Node → Path → Nat → List (Path × Node)
  | [], _, _ => []
  | c :: cs, p, i =>
    (if det (p ++ [i]) then [] else (p ++ [i], c) :: descendants det c (p ++ [i]))
      ++ descendantsList det cs p (i + 1)
end

/-- The linked children of a child list whose first member has index `i` under the
node at `p`, with their positions. -/
def linkedChildren (det : Path → Bool) : List Node → Path → Nat → List (Path × Node)
  | [], _, _ => []
  | c :: cs, p, i =>
    (if det (p ++ [i]) then [] else [(p ++ [i], c)]) ++ linkedChildren det cs p (i + 1)

end Node

/-! ## Scores kept in attributes (`extractor.go`, lines 307-341 and 538-556)

The functions of this section work on the field `Attr` of one node, the node
`selection.Get(0)` of the source. -/

/-- The value of goquery `Attr(attrName)` on a node with the attributes `attrs`:
the first attribute with this key, and whether there is one. -/
def attrOf (attrs : List Attribute) (attrName : String) : String × Bool :=
  match attrs.find? (fun a => a.Key = attrName) with
  | some a => (a.Val, true)
  | none => ("", false)

/-- The first loop of `setAttr` (lines 541-546): whether some attribute has the key
`attr`, in which case the function returns.  The assignment `a.Val = value` writes
to the loop variable `a`, a copy of the slice element, so `node.Attr` is left as it
was. -/
def setAttrFound (attr : String) : List Attribute → Bool
  | [] => false
  | a :: rest => if a.Key = attr then true else setAttrFound attr rest

/-- The body of `setAttr` on the attributes of `node := selection.Get(0)`: the new
`node.Attr`. -/
def setAttrNode (nodeAttr : List Attribute) (attr value : String) : List Attribute :=
  if setAttrFound attr nodeAttr then nodeAttr
  else { Key := attr, Val := value } :: nodeAttr

/-- The body of `getNodeGravityScore` on the attributes of the first node. -/
def getNodeGravityScoreNode (nodeAttr : List Attribute) : Int :=
  let (grvScoreString, present) := attrOf nodeAttr "gravityScore"
  if ¬ present then 0
  else
    let (grvScore, ok) := Atoi grvScoreString
    if ¬ ok then 0 else grvScore

/-- The body of `updateScore` on the attributes of the first node. -/
def updateScoreNode (nodeAttr : List Attribute) (addToScore : Int) : List Attribute :=
  let scoreString := (attrOf nodeAttr "gravityScore").1
  let currentScore : Int := if scoreString ≠ "" then (Atoi scoreString).1 else 0
  let newScore := currentScore + addToScore
  setAttrNode nodeAttr "gravityScore" (Itoa newScore)

/-- The body of `updateNodeCount` on the attributes of the first node. -/
def updateNodeCountNode (nodeAttr : List Attribute) (addToCount : Int) : List Attribute :=
  let scoreString := (attrOf nodeAttr "gravityNodes").1
  let currentScore : Int := if scoreString ≠ "" then (Atoi scoreString).1 else 0
  let newScore := currentScore + addToCount
  setAttrNode nodeAttr "gravityNodes" (Itoa newScore)

/-! ## goquery selections -/

/-- A run-time panic of the Go program. -/
inductive Panic where
  | indexOutOfRange
  | nilPointer
deriving DecidableEq, Repr

/-- A reference to a node: a node of the document, or a node made by
`getSiblingsContent` with `new(html.Node)` (type `TextNode`, `Data` the given text,
`DataAtom` `atom.P`), which belongs to no tree. -/
inductive NodeRef where
  | inDoc (path : Path)
  | synthesized (text : String)
deriving DecidableEq, Repr

/-- Go `goquery.Selection`: its field `Nodes`. -/
abbrev Selection := List NodeRef

/-- The `html.Node` a reference points to. -/
def nodeOf (doc : Document) : NodeRef → Option Node
  | .inDoc p => doc.root.get? p
  | .synthesized t => some (Node.mk NodeType.TextNode t [])

/-- The atom name `DataAtom.String()` of the node a reference points to. -/
def atomOf (doc : Document) : NodeRef → String
  | .inDoc p =>
    match doc.root.get? p with
    | none => ""
    | some n => n.atomString
  | .synthesized _ => "p"

/-- The field `Attr` of the node a reference points to. -/
def attrsOf (doc : Document) : NodeRef → List Attribute
  | .inDoc p => doc.Attr p
  | .synthesized _ => []

/-- The text of the node a reference points to. -/
def textOf (doc : Document) : NodeRef → String
  | .inDoc p =>
    match doc.root.get? p with
    | none => ""
    | some n => n.text doc.Detached p
  | .synthesized t => t

/-- goquery `appendWithoutDuplicates`. -/
def appendWithoutDuplicates (target nodes : List NodeRef) : List NodeRef :=
  nodes.foldl (fun acc n => if n ∈ acc then acc else acc ++ [n]) target

/-- goquery `mapNodes`: the results of `f` on the nodes, without duplicates. -/
def mapNodes (nodes : List NodeRef) (f : NodeRef → List NodeRef) : List NodeRef :=
  nodes.foldl (fun result n => appendWithoutDuplicates result (f n)) []

/-- The elements with tag `tag` among the reachable proper descendants of one
node, in document order. -/
def findNode (doc : Document) (tag : String) : NodeRef → List NodeRef
  | .inDoc p =>
    match doc.root.get? p with
    | none => []
    | some n =>
      ((n.descendants doc.Detached p).filter
        (fun d => d.2.Typ = NodeType.ElementNode ∧ d.2.Data = tag)).map
        (fun d => NodeRef.inDoc d.1)
  | .synthesized _ => []

/-- goquery `Find` with a tag selector. -/
def Find (doc : Document) (s : Selection) (tag : String) : Selection :=
  mapNodes s (findNode doc tag)

/-- goquery `Text`: the texts of the nodes of the selection, concatenated. -/
def Text (doc : Document) (s : Selection) : String :=
  String.join (s.map (textOf doc))

/-- The parent of one node when it is an element (goquery `getParentNodes`). -/
def parentNode (doc : Document) : NodeRef → List NodeRef
  | .inDoc p =>
    match doc.root.get? p, doc.root.get? p.dropLast with
    | some _, some parent =>
      if p ≠ [] ∧ doc.Detached p = false ∧ parent.Typ = NodeType.ElementNode then
        [NodeRef.inDoc p.dropLast]
      else []
    | _, _ => []
  | .synthesized _ => []

/-- goquery `Parent`. -/
def Parent (doc : Document) (s : Selection) : Selection :=
  mapNodes s (parentNode doc)

/-- The element children of one node (goquery `getChildrenNodes`). -/
def childrenNode (doc : Document) : NodeRef → List NodeRef
  | .inDoc p =>
    match doc.root.get? p with
    | none => []
    | some n =>
      ((Node.linkedChildren doc.Detached n.Children p 0).filter
        (fun c => c.2.Typ = NodeType.ElementNode)).map (fun c => NodeRef.inDoc c.1)
  | .synthesized _ => []

/-- goquery `Children`. -/
def Children (doc : Document) (s : Selection) : Selection :=
  mapNodes s (childrenNode doc)

/-- The element siblings of one node, itself left out, in document order (goquery
`getSiblingNodes` with `siblingAll`). -/
def siblingsNode (doc : Document) : NodeRef → List NodeRef
  | .inDoc p =>
    match doc.root.get? p with
    | none => []
    | some _ =>
      if p = [] ∨ doc.Detached p = true then []
      else (childrenNode doc (NodeRef.inDoc p.dropLast)).filter (fun r => r ≠ NodeRef.inDoc p)
  | .synthesized _ => []

/-- goquery `Siblings`. -/
def Siblings (doc : Document) (s : Selection) : Selection :=
  mapNodes s (siblingsNode doc)

/-- The index of a node among the children of its parent. -/
def siblingIndex : NodeRef → Nat
  | .inDoc p => p.getLast?.getD 0
  | .synthesized _ => 0

/-- The nearest element sibling before one node (goquery `getSiblingNodes` with
`siblingPrev`). -/
def prevNode (doc : Document) : NodeRef → List NodeRef
  | .inDoc p =>
    match doc.root.get? p with
    | none => []
    | some _ =>
      if p = [] ∨ doc.Detached p = true then []
      else
        match ((childrenNode doc (NodeRef.inDoc p.dropLast)).filter
          (fun r => siblingIndex r < siblingIndex (NodeRef.inDoc p))).getLast? with
        | none => []
        | some r => [r]
  | .synthesized _ => []

/-- goquery `Prev`. -/
def Prev (doc : Document) (s : Selection) : Selection :=
  mapNodes s (prevNode doc)

/-- goquery `Get(0)`: the first node; a panic on an empty selection. -/
def Get0 (s : Selection) : Except Panic NodeRef :=
  match s with
  | [] => .error Panic.indexOutOfRange
  | r :: _ => .ok r

/-- goquery `Attr(attrName)` on a selection: the attribute of its first node. -/
def Attr (doc : Document) (s : Selection) (attrName : String) : String × Bool :=
  match s with
  | [] => ("", false)
  | r :: _ => attrOf (attrsOf doc r) attrName

/-- Assignment `node.Attr = attrs` for the node `r`.  A node made by
`getSiblingsContent` is in no tree, so the document is not changed by it. -/
def withAttr (doc : Document) (r : NodeRef) (attrs : List Attribute) : Document :=
  match r with
  | .inDoc p => { doc with Attr := fun q => if q = p then attrs else doc.Attr q }
  | .synthesized _ => doc

/-! ## `strings` -/

/-- Go `strings.Split(s, sep)` for a separator of one character, on characters. -/
def splitChars (sep : Char) : List Char → List (List Char)
  | [] => [[]]
  | c :: cs =>
    if c = sep then [] :: splitChars sep cs
    else
      match splitChars sep cs with
      | [] => [[c]]
      | w :: ws => (c :: w) :: ws

/-- Go `strings.Split(s, " ")`. -/
def stringsSplit (s : String) (sep : Char) : List String :=
  (splitChars sep s.data).map String.mk

/-- Go `strings.Join(sb, "")`. -/
def stringsJoin (sb : List String) : String :=
  String.join sb

/-! ## Rounding to `float64` -/

/-- Rounding of a rational to the nearest integer, a tie to the even one. -/
def roundHalfEven (q : ℚ) : Int :=
  if q - ⌊q⌋ < 1 / 2 then ⌊q⌋
  else if 1 / 2 < q - ⌊q⌋ then ⌊q⌋ + 1
  else if ⌊q⌋ % 2 = 0 then ⌊q⌋ else ⌊q⌋ + 1

/-- The binary64 number nearest to `x`, a tie going to the even significand (exponent range not
bounded: the values met here are far from overflow and underflow). -/
def f64 (x : ℚ) : ℚ :=
  if x = 0 then 0
  else (roundHalfEven (x / 2 ^ (Int.log 2 |x| - 52)) : ℚ) * 2 ^ (Int.log 2 |x| - 52)

/-! ## The extractor (`extractor.go`, lines 228-556) -/

/-- Conversion `int(x)` of a `float64`: truncation toward zero. -/
def truncToInt (x : ℚ) : Int :=
  if 0 ≤ x then ⌊x⌋ else ⌈x⌉

/-- The function `setAttr`. -/
def setAttr (doc : Document) (selection : Selection) (attr value : String) :
    Except Panic Document :=
  match Get0 selection with
  | .error e => .error e
  | .ok node => .ok (withAttr doc node (setAttrNode (attrsOf doc node) attr value))

/-- The function `getNodeGravityScore`. -/
def getNodeGravityScore (doc : Document) (node : Selection) : Int :=
  let (grvScoreString, present) := Attr doc node "gravityScore"
  if ¬ present then 0
  else
    let (grvScore, ok) := Atoi grvScoreString
    if ¬ ok then 0 else grvScore

/-- The function `getScore`. -/
def getScore (doc : Document) (node : Selection) : Int :=
  getNodeGravityScore doc node

/-- The function `updateScore`. -/
def updateScore (doc : Document) (node : Selection) (addToScore : Int) :
    Except Panic Document :=
  let scoreString := (Attr doc node "gravityScore").1
  let currentScore : Int := if scoreString ≠ "" then (Atoi scoreString).1 else 0
  let newScore := currentScore + addToScore
  setAttr doc node "gravityScore" (Itoa newScore)

/-- The function `updateNodeCount`. -/
def updateNodeCount (doc : Document) (node : Selection) (addToCount : Int) :
    Except Panic Document :=
  let scoreString := (Attr doc node "gravityNodes").1
  let currentScore : Int := if scoreString ≠ "" then (Atoi scoreString).1 else 0
  let newScore := currentScore + addToCount
  setAttr doc node "gravityNodes" (Itoa newScore)

/-- The function `isHighLinkDensity`. -/
def isHighLinkDensity (doc : Document) (node : Selection) : Bool :=
  let links := Find doc node "a"
  if links.length = 0 then false
  else
    let text := Text doc node
    let words := stringsSplit text ' '
    let nwords := words.length
    let sb := links.map (fun s => Text doc [s])
    let linkText := stringsJoin sb
    let linkWords := stringsSplit linkText ' '
    let nlinkWords := linkWords.length
    let nlinks := links.length
    let linkDivisor : ℚ := (nlinkWords : ℚ) / (nwords : ℚ)
    let score : ℚ := linkDivisor * (nlinks : ℚ)
    if score > 1 then true else false

/-- The callback of `EachWithBreak` in `isBoostable` (lines 351-368), run over the
siblings that are left, with the current `stepsAway`; the result is the final
`flag`. -/
def isBoostableLoop (sw : String → Int) (doc : Document) : List NodeRef → Nat → Bool
  | [], _ => false
  | s :: rest, stepsAway =>
    let para := "p"
    let minimumStopwordCount : Int := 5
    let maxStepsawayFromNode := 3
    let currentNodeTag := atomOf doc s
    if currentNodeTag = para then
      if stepsAway ≥ maxStepsawayFromNode then false
      else
        let paraText := Text doc [s]
        if sw paraText > minimumStopwordCount then true
        else isBoostableLoop sw doc rest (stepsAway + 1)
    else isBoostableLoop sw doc rest stepsAway

/-- The function `isBoostable`. -/
def isBoostable (sw : String → Int) (doc : Document) (node : Selection) : Bool :=
  let nodes := Siblings doc node
  isBoostableLoop sw doc nodes 0

/-- The function `nodesToCheck`; the document node is the root of the tree. -/
def nodesToCheck (doc : Document) : List Selection :=
  let tags := ["p", "pre", "td"]
  tags.flatMap (fun tag => (Find doc [NodeRef.inDoc []] tag).map (fun s => [s]))

/-- The values of the local variables of one round of the scoring loop of
`calculateBestNode`: the record of that round. -/
structure Round where
  node : Selection
  boostScore : ℚ
  upScore : Int
  parentNode : Selection
  parentParentNode : Selection

/-- The variables of `calculateBestNode` that its scoring loop changes, and the
document, whose attributes it writes.  `rounds` is not in the source: it is the
history of the loop, the record of every round so far. -/
structure ScoreState where
  doc : Document
  startingBoost : ℚ
  cnt : Int
  i : Int
  parentNodes : List Selection
  rounds : List Round

/-- The value `boostScore` of one round of the scoring loop (lines 251-268) and
the `startingBoost` it leaves. -/
def boostOf (boostable : Bool) (nodesNumber negativeScoring : Int) (bottomNegativeScoring : ℚ)
    (startingBoost : ℚ) (cnt i : Int) : ℚ × ℚ :=
  let boosted : Bool := boostable && decide (cnt ≥ 0)
  let boostScore : ℚ := if boosted then (1 / startingBoost) * 50 else 0
  let startingBoost := if boosted then startingBoost + 1 else startingBoost
  if nodesNumber > 15 ∧ ((nodesNumber - i : Int) : ℚ) ≤ bottomNegativeScoring then
    let booster : ℚ := bottomNegativeScoring - ((nodesNumber - i : Int) : ℚ)
    let boostScore : ℚ := -(booster ^ 2)
    let negScore : ℚ := |boostScore| + (negativeScoring : ℚ)
    if negScore > 40 then (5, startingBoost) else (boostScore, startingBoost)
  else (boostScore, startingBoost)

/-- One round of the scoring loop of `calculateBestNode` (lines 250-289).  A
selection returned by `Parent()` is a new pointer, never a member of the set
`parentNodes`, so it is always added. -/
def scoreStep (sw : String → Int) (nodesNumber negativeScoring : Int)
    (bottomNegativeScoring : ℚ) (st : ScoreState) (node : Selection) : Except Panic ScoreState :=
  let b := boostOf (isBoostable sw st.doc node) nodesNumber negativeScoring
    bottomNegativeScoring st.startingBoost st.cnt st.i
  let boostScore := b.1
  let textNode := Text st.doc node
  let ws := sw textNode
  let upScore := ws + truncToInt boostScore
  let parentNode := Parent st.doc node
  match updateScore st.doc parentNode upScore with
  | .error e => .error e
  | .ok doc1 =>
    match updateNodeCount doc1 parentNode 1 with
    | .error e => .error e
    | .ok doc2 =>
      let parentParentNode := Parent doc2 parentNode
      match updateNodeCount doc2 parentParentNode 1 with
      | .error e => .error e
      | .ok doc3 =>
        match updateScore doc3 parentParentNode (upScore.tdiv 2) with
        | .error e => .error e
        | .ok doc4 =>
          .ok { doc := doc4, startingBoost := b.2, cnt := st.cnt + 1, i := st.i + 1,
                parentNodes := st.parentNodes ++ [parentNode, parentParentNode],
                rounds := st.rounds ++ [
                  { node := node, boostScore := boostScore, upScore := upScore,
                    parentNode := parentNode, parentParentNode := parentParentNode }] }

/-- The scoring loop of `calculateBestNode` over `nodesWithText`. -/
def scoreLoop (sw : String → Int) (nodesNumber negativeScoring : Int)
    (bottomNegativeScoring : ℚ) : ScoreState → List Selection → Except Panic ScoreState
  | st, [] => .ok st
  | st, node :: rest =>
    match scoreStep sw nodesNumber negativeScoring bottomNegativeScoring st node with
    | .error e => .error e
    | .ok st => scoreLoop sw nodesNumber negativeScoring bottomNegativeScoring st rest

/-- The last loop of `calculateBestNode` (lines 293-303) over the nodes that are
left, with the current `topNode` and `topNodeScore`. -/
def topNodeLoop (doc : Document) : List Selection → Option Selection → Int → Option Selection
  | [], topNode, _ => topNode
  | e :: rest, topNode, topNodeScore =>
    let score := getScore doc e
    let topNode1 := if score ≥ topNodeScore then some e else topNode
    let topNodeScore1 := if score ≥ topNodeScore then score else topNodeScore
    let topNode2 := if topNode1 = none then some e else topNode1
    topNodeLoop doc rest topNode2 topNodeScore1

/-- The filter of `calculateBestNode` (lines 238-245): the sequence `nodesWithText`. -/
def nodesWithText (sw : String → Int) (doc : Document) : List Selection :=
  (nodesToCheck doc).filter (fun node =>
    let textNode := Text doc node
    let ws := sw textNode
    let highLinkDensity := isHighLinkDensity doc node
    decide (ws > 2) && !highLinkDensity)

/-- The scoring pass of `calculateBestNode` (lines 229-289): the document with the
scores written, and the members of `parentNodes` in the order they were added. -/
def scoringPass (sw : String → Int) (doc : Document) : Except Panic ScoreState :=
  let nodesWithText := nodesWithText sw doc
  let nodesNumber : Int := nodesWithText.length
  let negativeScoring : Int := 0
  let bottomNegativeScoring : ℚ := (nodesNumber : ℚ) * (1 / 4)
  scoreLoop sw nodesNumber negativeScoring bottomNegativeScoring
    { doc := doc, startingBoost := 1, cnt := 0, i := 0, parentNodes := [], rounds := [] }
    nodesWithText

/-- The function `calculateBestNode`: the document as it leaves it and the top
node (`none` for `nil`).  `parentNodes.List()` gives the members of the set in an
order that is not specified; `listOrder` is that order. -/
def calculateBestNode (sw : String → Int) (listOrder : List Selection → List Selection)
    (doc : Document) : Except Panic (Document × Option Selection) :=
  match scoringPass sw doc with
  | .error e => .error e
  | .ok st =>
    let topNodeScore : Int := 0
    let parentNodesArray := listOrder st.parentNodes
    .ok (st.doc, topNodeLoop st.doc parentNodesArray none topNodeScore)

/-- The effect of `node.Parent.RemoveChild(node)` for `node := s.Get(0)`: a panic
when the selection is empty or the node has no parent. -/
def removeFromParent (doc : Document) (s : Selection) : Except Panic Document :=
  match s with
  | [] => .error Panic.indexOutOfRange
  | .inDoc p :: _ =>
    if p = [] ∨ doc.Detached p = true then .error Panic.nilPointer
    else .ok { doc with Detached := fun q => if q = p then true else doc.Detached q }
  | .synthesized _ :: _ => .error Panic.nilPointer

/-- The first loop of `isTableAndNoParaExist` (lines 415-422) over the paragraphs
that are left. -/
def removeShortParagraphs (doc : Document) : List NodeRef → Except Panic Document
  | [] => .ok doc
  | s :: rest =>
    let txt := Text doc [s]
    if txt.utf8ByteSize < 25 then
      match removeFromParent doc [s] with
      | .error e => .error e
      | .ok doc => removeShortParagraphs doc rest
    else removeShortParagraphs doc rest

/-- The function `isTableAndNoParaExist`: the document as it leaves it, and its
result. -/
def isTableAndNoParaExist (doc : Document) (selection : Selection) :
    Except Panic (Document × Bool) :=
  let subParagraph := Find doc selection "p"
  match removeShortParagraphs doc subParagraph with
  | .error e => .error e
  | .ok doc =>
    let subParagraph2 := Find doc selection "p"
    if subParagraph2.length = 0 then
      match Get0 selection with
      | .error e => .error e
      | .ok n => .ok (doc, decide (atomOf doc n ≠ "td"))
    else .ok (doc, false)

/-- The function `isNodescoreThresholdMet`.  Its operands are scores read from attributes, which
can be any `int`, so the `float64` operations are rounded here: the two conversions
`float64(...)`, the constant `0.08` and the product. -/
def isNodescoreThresholdMet (doc : Document) (node e : Selection) : Except Panic Bool :=
  let topNodeScore := getNodeGravityScore doc node
  let currentNodeScore := getNodeGravityScore doc e
  let threasholdScore : ℚ := f64 (f64 (topNodeScore : ℚ) * f64 (8 / 100))
  if f64 (currentNodeScore : ℚ) < threasholdScore then
    match Get0 e with
    | .error err => .error err
    | .ok n => .ok (decide (atomOf doc n = "td"))
  else .ok true

/-- The function `getSiblingsScore`. -/
def getSiblingsScore (sw : String → Int) (doc : Document) (topNode : Selection) : Int :=
  let base : Int := 100000
  let nodesToCheck := Find doc topNode "p"
  let counted := nodesToCheck.filter (fun s =>
    let textNode := Text doc [s]
    let ws := sw textNode
    let highLinkDensity := isHighLinkDensity doc [s]
    decide (ws > 2) && !highLinkDensity)
  let paragraphNumber : Int := counted.length
  let paragraphScore : Int := (counted.map (fun s => sw (Text doc [s]))).sum
  if paragraphNumber > 0 then paragraphScore.tdiv paragraphNumber else base

/-- The function `getSiblingsContent`. -/
def getSiblingsContent (sw : String → Int) (doc : Document) (currentSibling : Selection)
    (baselinescoreSiblingsPara : ℚ) : Except Panic (List Selection) :=
  match Get0 currentSibling with
  | .error e => .error e
  | .ok n =>
    if atomOf doc n = "p" ∧ (Text doc currentSibling).utf8ByteSize > 0 then .ok [currentSibling]
    else
      let potentialParagraphs := Find doc currentSibling "p"
      .ok (potentialParagraphs.filterMap (fun s =>
        let text := Text doc [s]
        if text.utf8ByteSize > 0 then
          let paragraphScore := sw text
          let siblingBaselineScore : ℚ := 3 / 10
          let highLinkDensity := isHighLinkDensity doc [s]
          let score := siblingBaselineScore * baselinescoreSiblingsPara
          if score < (paragraphScore : ℚ) ∧ highLinkDensity = false then
            some [NodeRef.synthesized text]
          else none
        else none))

/-- The loop of `walkSiblings` (lines 497-501).  Every round moves each node of
`currentSibling` to a sibling of smaller index, so `fuel` rounds are enough when
`fuel` bounds the indices. -/
def walkSiblingsLoop (doc : Document) : Nat → Selection → List Selection
  | 0, _ => []
  | fuel + 1, currentSibling =>
    if currentSibling.length ≠ 0 then
      currentSibling :: walkSiblingsLoop doc fuel (Prev doc currentSibling)
    else []

/-- The function `walkSiblings`. -/
def walkSiblings (doc : Document) (node : Selection) : List Selection :=
  let currentSibling := Prev doc node
  walkSiblingsLoop doc ((node.map siblingIndex).sum + 1) currentSibling

/-- The inner loop of `addSiblings` (lines 510-517): every `p` is put in front of
`topNode.Nodes`. -/
def prependAll : List Selection → Selection → Except Panic Selection
  | [], topNode => .ok topNode
  | p :: ps, topNode =>
    match Get0 p with
    | .error e => .error e
    | .ok n => prependAll ps (n :: topNode)

/-- The outer loop of `addSiblings` (lines 508-518). -/
def addSiblingsLoop (sw : String → Int) (doc : Document) (baselinescoreSiblingsPara : Int) :
    List Selection → Selection → Except Panic Selection
  | [], topNode => .ok topNode
  | currentNode :: rest, topNode =>
    match getSiblingsContent sw doc currentNode (baselinescoreSiblingsPara : ℚ) with
    | .error e => .error e
    | .ok ps =>
      match prependAll ps topNode with
      | .error e => .error e
      | .ok topNode => addSiblingsLoop sw doc baselinescoreSiblingsPara rest topNode

/-- The function `addSiblings`: the selection `topNode` with its new field `Nodes`. -/
def addSiblings (sw : String → Int) (doc : Document) (topNode : Selection) :
    Except Panic Selection :=
  let baselinescoreSiblingsPara := getSiblingsScore sw doc topNode
  let results := walkSiblings doc topNode
  addSiblingsLoop sw doc baselinescoreSiblingsPara results topNode

/-- The callback of `children.Each` in `postCleanup` (lines 525-534), run over the
children that are left. -/
def postCleanupLoop (doc : Document) (node : Selection) : List NodeRef → Except Panic Document
  | [] => .ok doc
  | s :: rest =>
    let sTag := atomOf doc s
    if sTag ≠ "p" then
      if isHighLinkDensity doc [s] then
        match removeFromParent doc [s] with
        | .error e => .error e
        | .ok doc => postCleanupLoop doc node rest
      else
        match isTableAndNoParaExist doc [s] with
        | .error e => .error e
        | .ok (doc, true) =>
          match removeFromParent doc [s] with
          | .error e => .error e
          | .ok doc => postCleanupLoop doc node rest
        | .ok (doc, false) =>
          match isNodescoreThresholdMet doc node [s] with
          | .error e => .error e
          | .ok false =>
            match removeFromParent doc [s] with
            | .error e => .error e
            | .ok doc => postCleanupLoop doc node rest
          | .ok true => postCleanupLoop doc node rest
    else postCleanupLoop doc node rest

/-- The function `postCleanup`: the document as it leaves it and the selection it
returns. -/
def postCleanup (sw : String → Int) (doc : Document) (targetNode : Selection) :
    Except Panic (Document × Selection) :=
  match addSiblings sw doc targetNode with
  | .error e => .error e
  | .ok node =>
    let children := Children doc node
    match postCleanupLoop doc node children with
    | .error e => .error e
    | .ok doc => .ok (doc, node)

/-! ## Concrete documents -/

/-- An element node. -/
def elem (tag : String) (children : List Node) : Node :=
  Node.mk NodeType.ElementNode tag children

/-- A text node. -/
def txt (data : String) : Node :=
  Node.mk NodeType.TextNode data []

/-- A parsed document: the document node with the elements `html`, `head` and
`body` around `content`, no attribute and every node linked. -/
def page (content : List Node) : Document :=
  { root := Node.mk NodeType.DocumentNode "" [elem "html" [elem "head" [], elem "body" content]],
    Attr := fun _ => [],
    Detached := fun _ => false }

/-- A stop-word provider for the examples: the number of occurrences of the letter
`e` in the text. -/
def demoStopWords (text : String) : Int :=
  (text.data.count 'e' : Nat)

/-- One wrapper `div` with three paragraphs of the given texts. -/
def threeParagraphs (t1 t2 t3 : String) : Document :=
  page [elem "div" [elem "p" [txt t1], elem "p" [txt t2], elem "p" [txt t3]]]

/-! ## Notions used in the statements -/

/-- Two documents with the same tree and the same unlinked nodes: they differ in
attributes only. -/
def SameTree (d d' : Document) : Prop :=
  d'.root = d.root ∧ d'.Detached = d.Detached

/-- The score `getScore` reads from the node `r`. -/
def scoreOf (doc : Document) (r : NodeRef) : Int :=
  getNodeGravityScoreNode (attrsOf doc r)

/-- The characters of a text after its sign, when it starts with `+` or `-`. -/
def afterSign (s : String) : List Char :=
  match s.data with
  | [] => []
  | c :: cs => if c = '+' ∨ c = '-' then cs else c :: cs

/-- The score `getNodeGravityScore` reads back from the attribute that `updateScore` writes for
the sum `a`: the sum itself when it lies in the range of `int`.  (A Go `int` always does; beyond
the range, where only the sums of the model can lie, `Atoi` reports a range error and the score
reads as 0.) -/
def readBack (a : Int) : Int :=
  if -2 ^ 63 ≤ a ∧ a < 2 ^ 63 then a else 0

/-- Whether the node `r` has an attribute `gravityScore`. -/
def hasScore (doc : Document) (r : NodeRef) : Bool :=
  (attrOf (attrsOf doc r) "gravityScore").2

/-- The rounds of a run of the scoring pass, none when it panics. -/
def roundsOf (r : Except Panic ScoreState) : List Round :=
  match r with
  | .ok st => st.rounds
  | .error _ => []

/-- The calls of `updateScore` of a round: the node and the amount, in the order
of the calls (lines 274 and 282). -/
def Round.calls (r : Round) : List (Selection × Int) :=
  [(r.parentNode, r.upScore), (r.parentParentNode, r.upScore.tdiv 2)]

/-- The state in which `calculateBestNode` enters its scoring loop. -/
def initialState (doc : Document) : ScoreState :=
  { doc := doc, startingBoost := 1, cnt := 0, i := 0, parentNodes := [], rounds := [] }

/-- The value `boostScore` that a round of the scoring loop computes for the
candidate `node` in the state `st` (lines 251-268). -/
def boostScoreOf (sw : String → Int) (nodesNumber negativeScoring : Int)
    (bottomNegativeScoring : ℚ) (st : ScoreState) (node : Selection) : ℚ :=
  (boostOf (isBoostable sw st.doc node) nodesNumber negativeScoring bottomNegativeScoring
    st.startingBoost st.cnt st.i).1

/-- The document after the four attribute updates of one round of the scoring loop
(lines 274-282) for the parent `r1`, the grandparent `r2` and the amount `up`. -/
def applyUpdates (doc : Document) (r1 r2 : NodeRef) (up : Int) : Document :=
  let d1 := withAttr doc r1 (updateScoreNode (attrsOf doc r1) up)
  let d2 := withAttr d1 r1 (updateNodeCountNode (attrsOf d1 r1) 1)
  let d3 := withAttr d2 r2 (updateNodeCountNode (attrsOf d2 r2) 1)
  withAttr d3 r2 (updateScoreNode (attrsOf d3 r2) (up.tdiv 2))

/-- The amount `upScore` of one round of the scoring loop (line 272). -/
def upScoreOf (sw : String → Int) (nodesNumber negativeScoring : Int)
    (bottomNegativeScoring : ℚ) (st : ScoreState) (node : Selection) : Int :=
  sw (Text st.doc node) +
    truncToInt (boostScoreOf sw nodesNumber negativeScoring bottomNegativeScoring st node)

/-- The rounds the scoring loop records for the candidates `l` when it starts with
`startingBoost`, `cnt` and `i`, computed on the tree of `doc` without writing any
attribute. -/
def expectedRounds (sw : String → Int) (doc : Document) (nodesNumber negativeScoring : Int)
    (bottomNegativeScoring : ℚ) : ℚ → Int → Int → List Selection → List Round
  | _, _, _, [] => []
  | startingBoost, cnt, i, node :: rest =>
    let b := boostOf (isBoostable sw doc node) nodesNumber negativeScoring
      bottomNegativeScoring startingBoost cnt i
    { node := node, boostScore := b.1, upScore := sw (Text doc node) + truncToInt b.1,
      parentNode := Parent doc node, parentParentNode := Parent doc (Parent doc node) } ::
      expectedRounds sw doc nodesNumber negativeScoring bottomNegativeScoring b.2 (cnt + 1)
        (i + 1) rest

/-- The amount of the first call of `updateScore` on the node `r` in a sequence of
calls, `0` when there is none. -/
def firstAmount : List (Selection × Int) → NodeRef → Int
  | [], _ => 0
  | (s, a) :: rest, r => if s.head? = some r then a else firstAmount rest r

/-- The node at `p` is an element `p`, `pre` or `td` of the document (linked to
the tree). -/
def IsCandidateElement (doc : Document) (p : Path) : Prop :=
  ∃ n, (p, n) ∈ doc.root.descendants doc.Detached [] ∧ n.Typ = NodeType.ElementNode ∧
    (n.Data = "p" ∨ n.Data = "pre" ∨ n.Data = "td")

/-- The number of words `isHighLinkDensity` counts in a text: the length of
`strings.Split(text, " ")`. -/
def nwordsOf (text : String) : Nat :=
  (stringsSplit text ' ').length

/-- The texts of the nodes of `links` put together, one after the other with nothing between
them: the concatenation of the texts of the links, as the specification words it. -/
def concatenatedText (doc : Document) : List NodeRef → String
  | [] => ""
  | s :: rest => Text doc [s] ++ concatenatedText doc rest

/-- A block with the three links `x y`, `z` and `w` and the text ` p q` after them: its text
`x yzw p q` has four words, the texts of its links put together, `x yzw`, have two. -/
def threeLinks : Document :=
  page [elem "div" [elem "a" [txt "x y"], elem "a" [txt "z"], elem "a" [txt "w"], txt " p q"]]

/-- A block with the two links `x y` and `z` and the text ` p q` after them: its text
`x yz p q` has four words, the texts of its links put together, `x yz`, have two. -/
def twoLinks : Document :=
  page [elem "div" [elem "a" [txt "x y"], elem "a" [txt "z"], txt " p q"]]

/-- The number of boostable candidates among the first `j` candidates. -/
def boostableBefore (sw : String → Int) (doc : Document) (j : Nat) : Nat :=
  (((nodesWithText sw doc).take j).filter (fun node => isBoostable sw doc node)).length

/-- The candidate at position `j` of `n` lies in the decaying tail: the test of
lines 259-260. -/
def inTail (n : Int) (j : Nat) : Prop :=
  n > 15 ∧ ((n - (j : Int) : Int) : ℚ) ≤ (n : ℚ) * (1 / 4)

/-- A wrapper `div` with `n` paragraphs of stop-word count 6 each, every one of
them boostable when `n ≥ 2`. -/
def paragraphs (n : Nat) : Document :=
  page [elem "div" (List.replicate n (elem "p" [txt "eeeeee"]))]

/-- A `div` with 19 paragraphs of stop-word count 3 and, after it, a `div` with one
such paragraph: 20 candidates, the last one alone below its parent. -/
def lateParagraph : Document :=
  page [elem "div" (List.replicate 19 (elem "p" [txt "eee"])), elem "div" [elem "p" [txt "eee"]]]

/-- The score `getScore` reads from `s` after a run of the scoring pass, `none` when
the run panics. -/
def finalScore (r : Except Panic ScoreState) (s : Selection) : Option Int :=
  match r with
  | .ok st => some (getScore st.doc s)
  | .error _ => none

/-! ## The `float64` computations in binary64

The functions `isHighLinkDensity`, `boostOf` and `getSiblingsContent` above read `float64` as exact
rational arithmetic.  The definitions below round every operation of these computations to the
nearest binary64 number, as the machine does; the lemmas on them show that the exact reading gives
the same results.  (The function `isNodescoreThresholdMet` rounds in its definition.) -/

/-- The value `score` of `isHighLinkDensity` (lines 404-405) as binary64 computes it. -/
def linkScoreF64 (nlinkWords nwords nlinks : ℕ) : ℚ :=
  let linkDivisor := f64 (f64 (nlinkWords : ℚ) / f64 (nwords : ℚ))
  f64 (linkDivisor * f64 (nlinks : ℚ))

/-- The value of `float64((1.0 / startingBoost) * 50)` (line 254) as binary64 computes it. -/
def boostF64 (startingBoost : ℚ) : ℚ :=
  f64 (f64 (1 / startingBoost) * 50)

/-- The tail decay of lines 248 and 260-262 as binary64 computes it: `bottomNegativeScoring`, `booster` and the
square are each rounded. -/
def tailBoostF64 (nodesNumber i : Int) : ℚ :=
  let bottomNegativeScoring := f64 (f64 (nodesNumber : ℚ) * (1 / 4))
  let booster := f64 (bottomNegativeScoring - f64 ((nodesNumber - i : Int) : ℚ))
  let boostScore : ℚ := -(f64 (booster ^ 2))
  boostScore

/-- The value `threasholdScore` of `isNodescoreThresholdMet` (line 434) as binary64 computes it:
the constant `0.08`, the conversion of the score and the product are each rounded. -/
def thresholdF64 (topNodeScore : Int) : ℚ :=
  f64 (f64 (topNodeScore : ℚ) * f64 (8 / 100))

/-- The value `score` of `getSiblingsContent` (lines 473-475) as binary64 computes it. -/
def siblingScoreF64 (baselinescoreSiblingsPara : Int) : ℚ :=
  f64 (f64 (3 / 10) * f64 (baselinescoreSiblingsPara : ℚ))

/-! ## Document order -/

/-- The node reached from `n`, which lies at position `p`, by the child indices `r`, when every
step goes to a linked child: `none` when an index is out of range or a node on the way is
unlinked. -/
def Node.reach? (det : Path → Bool) : Node → Path → Path → Option Node
  | n, _, [] => some n
  | Node.mk _ _ cs, p, i :: rest =>
    match cs[i]? with
    | none => none
    | some c => if det (p ++ [i]) then none else Node.reach? det c (p ++ [i]) rest

/-- The nodes of the document below the document node that are linked to the tree, in document
order. -/
def docOrder (doc : Document) : List NodeRef :=
  (doc.root.descendants doc.Detached []).map (fun d => NodeRef.inDoc d.1)

/-- The elements of the document with the tag `tag`, in document order. -/
def elementsByTag (doc : Document) (tag : String) : List NodeRef :=
  (docOrder doc).filter (fun r => atomOf doc r = tag)

/-- A `pre` element followed by a paragraph. -/
def preThenParagraph : Document :=
  page [elem "pre" [txt "eee"], elem "p" [txt "eee"]]

/-! ## Sibling recovery -/

/-- The element siblings that come before the node at `q`, in document order (the farthest
first). -/
def precedingSiblings (doc : Document) (q : Path) : List NodeRef :=
  (childrenNode doc (.inDoc q.dropLast)).filter
    (fun r => siblingIndex r < siblingIndex (.inDoc q))

/-- The nodes recovered from the sibling `s` as the specification words it: the sibling itself
when it is a paragraph with text; else one plain-text paragraph for each paragraph below it, in
document order, that has text, a stop-word count above 0.30 times the baseline and not-high link
density. -/
def recoveredNodes (sw : String → Int) (doc : Document) (baseline : Int) (s : NodeRef) :
    List NodeRef :=
  if atomOf doc s = "p" ∧ Text doc [s] ≠ "" then [s]
  else
    ((findNode doc "p" s).filter (fun c =>
      decide (Text doc [c] ≠ "") && decide (3 * baseline < 10 * sw (Text doc [c])) &&
        !isHighLinkDensity doc [c])).map (fun c => NodeRef.synthesized (Text doc [c]))

/-- A `div` with two short paragraphs before a `div` with one paragraph of stop-word count 3. -/
def siblingWithTwo : Document :=
  page [elem "div" [elem "p" [txt "ea"], elem "p" [txt "eb"]], elem "div" [elem "p" [txt "eee"]]]

/-- A paragraph, a `div` with one paragraph and another paragraph before a `div` with one
paragraph of stop-word count 3. -/
def threeSiblings : Document :=
  page [elem "p" [txt "one e"], elem "div" [elem "p" [txt "two e"]], elem "p" [txt "three e"],
    elem "div" [elem "p" [txt "eee"]]]

/-- The value a run returns, `none` when it panics. -/
def okValue {α : Type} (r : Except Panic α) : Option α :=
  match r with
  | .ok a => some a
  | .error _ => none

/-! ## Documents with scores -/

/-- A top node `div` with the score 100 and five children: a `div` with the score 7, a `div`
with the score 8, a `td` without score, a `div` whose attribute is not an integer and a `div`
whose attribute is an integer outside the range of `int`. -/
def thresholdExample : Document :=
  { root := (page [elem "div" [elem "div" [], elem "div" [], elem "td" [], elem "div" [],
      elem "div" []]]).root,
    Attr := fun p =>
      if p = [0, 1, 0] then [{ Key := "gravityScore", Val := "100" }]
      else if p = [0, 1, 0, 0] then [{ Key := "gravityScore", Val := "7" }]
      else if p = [0, 1, 0, 1] then [{ Key := "gravityScore", Val := "8" }]
      else if p = [0, 1, 0, 3] then [{ Key := "gravityScore", Val := "1.5" }]
      else if p = [0, 1, 0, 4] then [{ Key := "gravityScore", Val := "99999999999999999999" }]
      else [],
    Detached := fun _ => false }

/-- A top node `div` with the score `25 * 2 ^ 55` and a child `div` with the score `2 ^ 56 - 1`. -/
def largeScores : Document :=
  { root := (page [elem "div" [elem "div" []]]).root,
    Attr := fun p =>
      if p = [0, 1, 0] then [{ Key := "gravityScore", Val := "900719925474099200" }]
      else if p = [0, 1, 0, 0] then [{ Key := "gravityScore", Val := "72057594037927935" }]
      else [],
    Detached := fun _ => false }

/-! ## Well-formed trees and the examples of the table clean-up -/

mutual
/-- A text node has no children, in the whole subtree: so it is in every parsed document. -/
def Node.wellFormed : Node → Bool
  | Node.mk t _ cs => (decide (t ≠ NodeType.TextNode) || cs.isEmpty) && Node.wellFormedList cs
/-- Every node of the list is well formed. -/
def Node.wellFormedList : List Node → Bool
  | [] => true
  | c :: cs => Node.wellFormed c && Node.wellFormedList cs
end

/-- A table with one cell that holds the paragraphs with the given texts. -/
def tableWith (texts : List String) : Document :=
  page [elem "table" [elem "tbody" [elem "tr" [elem "td"
    (texts.map (fun t => elem "p" [txt t]))]]]]

/-- The document after `RemoveChild` has unlinked the nodes at the positions `S`. -/
def unlinkAll (doc : Document) (S : List Path) : Document :=
  { doc with Detached := fun x => doc.Detached x || decide (x ∈ S) }

/-- The test `len(txt) < 25` of `isTableAndNoParaExist` on the text of the node at `x`: the
length in bytes. -/
def isShort (doc : Document) (x : Path) : Bool :=
  decide ((Text doc [NodeRef.inDoc x]).utf8ByteSize < 25)

/-- The paragraph descendants of the top node that count for the baseline: those with a
stop-word count above 2 and not-high link density. -/
def baselineParagraphs (sw : String → Int) (doc : Document) (topNode : Selection) : List NodeRef :=
  (Find doc topNode "p").filter
    (fun s => decide (sw (Text doc [s]) > 2) && !isHighLinkDensity doc [s])

/-- Two `div` elements with one paragraph of stop-word count 3 each: the two wrappers tie at the
maximum score. -/
def twoWrappers : Document :=
  page [elem "div" [elem "p" [txt "eee"]], elem "div" [elem "p" [txt "eee"]]]

/-- The member of the sequence `l` that is listed last among the members with the maximum
score; `none` for the empty sequence. -/
def lastMaximum (doc : Document) (l : List Selection) : Option Selection :=
  (l.filter (fun x => l.all (fun z => decide (getScore doc z ≤ getScore doc x)))).getLast?

/-! ## Words -/

/-- The number of whitespace-separated words in a list of characters, as the specification
words it: the runs of characters other than space, tab and newline.  `inWord` says that the
character before was part of a word. -/
def whitespaceWordsFrom : Bool → List Char → Nat
  | _, [] => 0
  | inWord, c :: cs =>
    if c = ' ' ∨ c = '\t' ∨ c = '\n' then whitespaceWordsFrom false cs
    else (if inWord then 0 else 1) + whitespaceWordsFrom true cs

/-- The number of whitespace-separated words of a text. -/
def whitespaceWords (text : String) : Nat :=
  whitespaceWordsFrom false text.data

/-- A block with two links of one word each and one space after them. -/
def trailingSpace : Document :=
  page [elem "div" [elem "a" [txt "a"], elem "a" [txt "b"], txt " "]]

/-! ## The clean-up after the selection of the top node -/

/-- The function `calculateBestNode` followed by `postCleanup` on the node it returns: the
document and the selection at the end, `none` when there is no top node or a step panics. -/
def extractTopNode (sw : String → Int) (listOrder : List Selection → List Selection)
    (doc : Document) : Option (Document × Selection) :=
  match calculateBestNode sw listOrder doc with
  | .ok (d, some topNode) => okValue (postCleanup sw d topNode)
  | _ => none

/-- A top node `div` with a `div` child that holds one paragraph of 25 bytes without stop words
and with a paragraph of stop-word count 3. -/
def wrapperWithBlock : List Node :=
  [elem "div" [elem "div" [elem "p" [txt "0123456789012345678901234"]], elem "p" [txt "eee"]]]

/-- The top node of `wrapperWithBlock` alone in the body. -/
def noSiblingBeforeTop : Document :=
  page wrapperWithBlock

/-- A paragraph with text before the top node of `wrapperWithBlock`. -/
def siblingBeforeTop : Document :=
  page (elem "p" [txt "intro"] :: wrapperWithBlock)

/-- The condition under which `postCleanup` unlinks the child `s` of a node of the selection
`node`: the tag of the child is not `p`, and the child has high link density, or is a table
without paragraphs, or fails the threshold of `isNodescoreThresholdMet` against the score read
from `node`. -/
def cleanupVerdict (doc : Document) (node : Selection) (s : NodeRef) : Prop :=
  atomOf doc s ≠ "p" ∧
    (isHighLinkDensity doc [s] = true ∨
      ((∀ c ∈ Find doc [s] "p", (Text doc [c]).utf8ByteSize < 25) ∧ atomOf doc s ≠ "td") ∨
      (atomOf doc s ≠ "td" ∧
        f64 (getNodeGravityScore doc [s] : ℚ) < thresholdF64 (getNodeGravityScore doc node)))

/-- The document `siblingBeforeTop` after the scoring pass of `calculateBestNode`. -/
def scoredSiblingBeforeTop : Document :=
  match scoringPass demoStopWords siblingBeforeTop with
  | .ok st => st.doc
  | .error _ => siblingBeforeTop

/-! ## Lemmas on `strconv` -/

theorem digitVal_digitChar (d : Nat) (h : d < 10) : digitVal (digitChar d) = some d := by
  interval_cases d <;> rfl

theorem digitChar_ne_sign (d : Nat) : digitChar d ≠ '-' ∧ digitChar d ≠ '+' := by
  unfold digitChar
  split <;> decide

theorem parseUintLoop_cons (c : Char) (rest : List Char) (n d : Nat) (h : digitVal c = some d) :
    parseUintLoop (c :: rest) n =
      if n ≥ 1844674407370955162 then (18446744073709551615, some NumError.ErrRange)
      else if n * 10 + d > 18446744073709551615 then (18446744073709551615, some NumError.ErrRange)
      else parseUintLoop rest (n * 10 + d) := by
  rw [parseUintLoop]
  simp only [h]
  rfl

/-- The loop of `ParseUint` on the decimal digits of `n`: it arrives at `n` when `n` is in the
range of `uint64`, and stops with a range error when it is not. -/
theorem parseUintLoop_natDigits (fuel : Nat) :
    ∀ (n : Nat) (acc : List Char), n < fuel →
      parseUintLoop (natDigits fuel n acc) 0 =
        if n ≤ 18446744073709551615 then parseUintLoop acc n
        else (18446744073709551615, some NumError.ErrRange) := by
  induction fuel with
  | zero => intro n acc h; omega
  | succ fuel ih =>
    intro n acc h
    have hd : digitVal (digitChar (n % 10)) = some (n % 10) :=
      digitVal_digitChar _ (Nat.mod_lt _ (by norm_num))
    unfold natDigits
    split
    · rename_i h0
      have h1 : n % 10 = n := by omega
      rw [parseUintLoop_cons _ _ _ _ hd, h1]
      have h2 : n ≤ 18446744073709551615 := by omega
      simp [h2]
    · rw [ih (n / 10) _ (by omega)]
      by_cases hn : n ≤ 18446744073709551615
      · have h1 : n / 10 ≤ 18446744073709551615 := by omega
        have h2 : ¬ n / 10 ≥ 1844674407370955162 := by omega
        have h3 : n / 10 * 10 + n % 10 = n := by omega
        rw [if_pos h1, if_pos hn, parseUintLoop_cons _ _ _ _ hd, if_neg h2, h3, if_neg (by omega)]
      · rw [if_neg hn]
        by_cases h1 : n / 10 ≤ 18446744073709551615
        · rw [if_pos h1, parseUintLoop_cons _ _ _ _ hd]
          have h3 : n / 10 * 10 + n % 10 = n := by omega
          by_cases h2 : n / 10 ≥ 1844674407370955162
          · rw [if_pos h2]
          · rw [if_neg h2, h3, if_pos (by omega)]
        · rw [if_neg h1]

theorem natDigits_head (fuel : Nat) :
    ∀ (n : Nat) (acc : List Char), n < fuel →
      ∃ d rest, natDigits fuel n acc = digitChar d :: rest := by
  induction fuel with
  | zero => intro n acc h; omega
  | succ fuel ih =>
    intro n acc h
    unfold natDigits
    split
    · exact ⟨_, _, rfl⟩
    · exact ih (n / 10) _ (by omega)

/-- The function `ParseUint` on the decimal digits of `n`. -/
theorem ParseUint_natDigits (n : Nat) :
    ParseUint (natDigits (n + 1) n []) =
      if n ≤ 18446744073709551615 then (n, none)
      else (18446744073709551615, some NumError.ErrRange) := by
  obtain ⟨d, rest, hd⟩ := natDigits_head (n + 1) n [] (by omega)
  unfold ParseUint
  rw [if_neg (by rw [hd]; simp), parseUintLoop_natDigits (n + 1) n [] (by omega)]
  rfl

/-- The function `Atoi` reads back what `Itoa` wrote for a number in the range of `int`; for
any other number it reports a range error. -/
theorem ParseInt_neg (digits : List Char) :
    ParseInt ('-' :: digits) =
      if (ParseUint digits).2 = some NumError.ErrSyntax then (0, some NumError.ErrSyntax)
      else if (ParseUint digits).1 > 9223372036854775808 then
        (-9223372036854775808, some NumError.ErrRange)
      else (-((ParseUint digits).1 : Int), none) := by
  simp [ParseInt]

theorem ParseInt_digit (c : Char) (cs : List Char) (h1 : c ≠ '-') (h2 : c ≠ '+') :
    ParseInt (c :: cs) =
      if (ParseUint (c :: cs)).2 = some NumError.ErrSyntax then (0, some NumError.ErrSyntax)
      else if (ParseUint (c :: cs)).1 ≥ 9223372036854775808 then
        (9223372036854775807, some NumError.ErrRange)
      else (((ParseUint (c :: cs)).1 : Int), none) := by
  simp [ParseInt, h1, h2]

/-- The function `Atoi` reads back what `Itoa` wrote for a number in the range of `int`; for
any other number it reports a range error. -/
theorem Atoi_Itoa (n : Int) :
    Atoi (Itoa n) =
      if -9223372036854775808 ≤ n ∧ n < 9223372036854775808 then (n, true)
      else (if n < 0 then -9223372036854775808 else 9223372036854775807, false) := by
  obtain ⟨d, rest, hd⟩ := natDigits_head (n.natAbs + 1) n.natAbs [] (by omega)
  have hp := ParseUint_natDigits n.natAbs
  have hs := digitChar_ne_sign d
  unfold Itoa
  by_cases hn : n < 0
  · rw [if_pos hn]
    show ((ParseInt ('-' :: natDigits (n.natAbs + 1) n.natAbs [])).1,
      decide ((ParseInt ('-' :: natDigits (n.natAbs + 1) n.natAbs [])).2 = none)) = _
    rw [ParseInt_neg, hp]
    by_cases h1 : n.natAbs ≤ 18446744073709551615
    · rw [if_pos h1, if_neg (by simp)]
      by_cases h2 : n.natAbs > 9223372036854775808
      · rw [if_pos h2, if_neg (by omega), if_pos hn]
        rfl
      · rw [if_neg h2, if_pos (by omega)]
        have h4 : -(n.natAbs : Int) = n := by omega
        simp only [h4]
        rfl
    · rw [if_neg h1, if_neg (by simp), if_pos (by norm_num), if_neg (by omega), if_pos hn]
      rfl
  · rw [if_neg hn]
    show ((ParseInt (natDigits (n.natAbs + 1) n.natAbs [])).1,
      decide ((ParseInt (natDigits (n.natAbs + 1) n.natAbs [])).2 = none)) = _
    rw [hd] at hp ⊢
    rw [ParseInt_digit _ _ hs.1 hs.2, hp]
    by_cases h1 : n.natAbs ≤ 18446744073709551615
    · rw [if_pos h1, if_neg (by simp)]
      by_cases h2 : n.natAbs ≥ 9223372036854775808
      · rw [if_pos h2, if_neg (by omega), if_neg hn]
        rfl
      · rw [if_neg h2, if_pos (by omega)]
        have h4 : (n.natAbs : Int) = n := by omega
        simp only [h4]
        rfl
    · rw [if_neg h1, if_neg (by simp), if_pos (by norm_num), if_neg (by omega), if_neg hn]
      rfl

theorem readBack_of_range (a : Int) (h : -2 ^ 63 ≤ a ∧ a < 2 ^ 63) : readBack a = a := by
  unfold readBack
  rw [if_pos h]

theorem readBack_nonneg (a : Int) (h : 0 ≤ a) : 0 ≤ readBack a := by
  unfold readBack
  split
  · exact h
  · exact le_refl 0

theorem Itoa_ne_empty (n : Int) : Itoa n ≠ "" := by
  obtain ⟨d, rest, hd⟩ := natDigits_head (n.natAbs + 1) n.natAbs [] (by omega)
  intro h
  have h2 := congrArg String.data h
  unfold Itoa at h2
  split at h2 <;> simp [hd] at h2

theorem digitVal_eq_none (c : Char) (h : c.isDigit = false) : digitVal c = none := by
  have h0 : c ≠ '0' := fun e => by rw [e] at h; exact absurd h (by decide)
  have h1 : c ≠ '1' := fun e => by rw [e] at h; exact absurd h (by decide)
  have h2 : c ≠ '2' := fun e => by rw [e] at h; exact absurd h (by decide)
  have h3 : c ≠ '3' := fun e => by rw [e] at h; exact absurd h (by decide)
  have h4 : c ≠ '4' := fun e => by rw [e] at h; exact absurd h (by decide)
  have h5 : c ≠ '5' := fun e => by rw [e] at h; exact absurd h (by decide)
  have h6 : c ≠ '6' := fun e => by rw [e] at h; exact absurd h (by decide)
  have h7 : c ≠ '7' := fun e => by rw [e] at h; exact absurd h (by decide)
  have h8 : c ≠ '8' := fun e => by rw [e] at h; exact absurd h (by decide)
  have h9 : c ≠ '9' := fun e => by rw [e] at h; exact absurd h (by decide)
  simp [digitVal, h0, h1, h2, h3, h4, h5, h6, h7, h8, h9]

/-- The three ways the loop of `ParseUint` ends. -/
theorem parseUintLoop_cases (cs : List Char) :
    ∀ n, (parseUintLoop cs n).2 = none ∨
      parseUintLoop cs n = (0, some NumError.ErrSyntax) ∨
      parseUintLoop cs n = (18446744073709551615, some NumError.ErrRange) := by
  induction cs with
  | nil => intro n; exact Or.inl rfl
  | cons c rest ih =>
    intro n
    cases hd : digitVal c with
    | none =>
      right; left
      rw [parseUintLoop]
      simp only [hd]
    | some d =>
      rw [parseUintLoop_cons _ _ _ _ hd]
      split
      · exact Or.inr (Or.inr rfl)
      · split
        · exact Or.inr (Or.inr rfl)
        · exact ih _

/-- The loop of `ParseUint` ends with an error when a character is no digit. -/
theorem parseUintLoop_of_not_digit (cs : List Char) :
    ∀ n, (∃ c ∈ cs, digitVal c = none) → (parseUintLoop cs n).2 ≠ none := by
  induction cs with
  | nil => intro n ⟨c, hc, _⟩; simp at hc
  | cons c rest ih =>
    intro n ⟨x, hx, hxd⟩
    cases hd : digitVal c with
    | none =>
      rw [parseUintLoop]
      simp only [hd]
      simp
    | some d =>
      have hx' : x ∈ rest := by
        rcases List.mem_cons.1 hx with rfl | hx
        · rw [hd] at hxd; cases hxd
        · exact hx
      rw [parseUintLoop_cons _ _ _ _ hd]
      split
      · simp
      · split
        · simp
        · exact ih _ ⟨x, hx', hxd⟩

theorem ParseInt_eq (s : String) :
    ParseInt s.data =
      if s.data = [] then (0, some NumError.ErrSyntax)
      else if (ParseUint (afterSign s)).2 = some NumError.ErrSyntax then
        (0, some NumError.ErrSyntax)
      else if s.data.head? ≠ some '-' ∧ (ParseUint (afterSign s)).1 ≥ 9223372036854775808 then
        (9223372036854775807, some NumError.ErrRange)
      else if s.data.head? = some '-' ∧ (ParseUint (afterSign s)).1 > 9223372036854775808 then
        (-9223372036854775808, some NumError.ErrRange)
      else (if s.data.head? = some '-' then -((ParseUint (afterSign s)).1 : Int)
        else ((ParseUint (afterSign s)).1 : Int), none) := by
  unfold afterSign
  cases h : s.data with
  | nil => simp [ParseInt]
  | cons c cs =>
    by_cases hc : c = '-'
    · subst hc
      simp [ParseInt]
    · simp [ParseInt, hc]

/-- A text without digits after its sign, or with a character that is no decimal digit, is no
integer for `Atoi`. -/
theorem Atoi_of_not_digit (s : String)
    (h : afterSign s = [] ∨ ∃ c ∈ afterSign s, c.isDigit = false) : (Atoi s).2 = false := by
  have hU : ParseUint (afterSign s) = (0, some NumError.ErrSyntax) ∨
      ParseUint (afterSign s) = (18446744073709551615, some NumError.ErrRange) := by
    unfold ParseUint
    rcases h with h | ⟨c, hc, hcd⟩
    · rw [if_pos h]; exact Or.inl rfl
    · have hne : afterSign s ≠ [] := fun e => by rw [e] at hc; simp at hc
      rw [if_neg hne]
      have h1 := parseUintLoop_of_not_digit (afterSign s) 0 ⟨c, hc, digitVal_eq_none c hcd⟩
      rcases parseUintLoop_cases (afterSign s) 0 with h2 | h2 | h2
      · exact absurd h2 h1
      · exact Or.inl h2
      · exact Or.inr h2
  unfold Atoi
  rw [ParseInt_eq]
  by_cases hs : s.data = []
  · simp [hs]
  · rw [if_neg hs]
    rcases hU with hU | hU
    · simp [hU]
    · rw [hU]
      by_cases hneg : s.data.head? = some '-'
      · simp [hneg]
      · simp [hneg]

/-! ## Lemmas on the score attributes -/

theorem attrOf_nil (k : String) : attrOf [] k = ("", false) := rfl

theorem attrOf_cons_same (k v : String) (attrs : List Attribute) :
    attrOf ({ Key := k, Val := v } :: attrs) k = (v, true) := by
  simp [attrOf]

theorem attrOf_cons_ne (a : Attribute) (k : String) (attrs : List Attribute) (h : a.Key ≠ k) :
    attrOf (a :: attrs) k = attrOf attrs k := by
  simp [attrOf, h]

theorem attrOf_absent (attrs : List Attribute) (k : String) (h : (attrOf attrs k).2 = false) :
    attrOf attrs k = ("", false) := by
  unfold attrOf at h ⊢
  split <;> simp_all

theorem setAttrFound_eq (attr : String) (attrs : List Attribute) :
    setAttrFound attr attrs = (attrOf attrs attr).2 := by
  induction attrs with
  | nil => rfl
  | cons a rest ih =>
    by_cases h : a.Key = attr
    · simp [setAttrFound, attrOf, h]
    · rw [attrOf_cons_ne a attr rest h, ← ih]
      simp [setAttrFound, h]

/-- A call of `setAttr` for a key that the node has leaves the attributes as they
are. -/
theorem setAttrNode_present (attrs : List Attribute) (attr value : String)
    (h : (attrOf attrs attr).2 = true) : setAttrNode attrs attr value = attrs := by
  simp [setAttrNode, setAttrFound_eq, h]

/-- A call of `setAttr` for a key that the node lacks puts the attribute in front. -/
theorem setAttrNode_absent (attrs : List Attribute) (attr value : String)
    (h : (attrOf attrs attr).2 = false) :
    setAttrNode attrs attr value = { Key := attr, Val := value } :: attrs := by
  simp [setAttrNode, setAttrFound_eq, h]

theorem updateScoreNode_present (attrs : List Attribute) (a : Int)
    (h : (attrOf attrs "gravityScore").2 = true) : updateScoreNode attrs a = attrs := by
  unfold updateScoreNode
  exact setAttrNode_present attrs _ _ h

theorem updateScoreNode_absent (attrs : List Attribute) (a : Int)
    (h : (attrOf attrs "gravityScore").2 = false) :
    updateScoreNode attrs a = { Key := "gravityScore", Val := Itoa a } :: attrs := by
  unfold updateScoreNode
  rw [setAttrNode_absent attrs _ _ h, attrOf_absent attrs _ h]
  simp

theorem getNodeGravityScoreNode_absent (attrs : List Attribute)
    (h : (attrOf attrs "gravityScore").2 = false) : getNodeGravityScoreNode attrs = 0 := by
  unfold getNodeGravityScoreNode
  rw [attrOf_absent attrs _ h]
  simp

theorem getNodeGravityScoreNode_cons (attrs : List Attribute) (a : Int) :
    getNodeGravityScoreNode ({ Key := "gravityScore", Val := Itoa a } :: attrs) = readBack a := by
  have h63 : ((2 : Int) ^ 63) = 9223372036854775808 := by norm_num
  unfold getNodeGravityScoreNode readBack
  rw [attrOf_cons_same, h63]
  simp only [Atoi_Itoa]
  by_cases h : -9223372036854775808 ≤ a ∧ a < 9223372036854775808
  · simp [h]
  · simp [h]

theorem attrOf_updateNodeCountNode (attrs : List Attribute) (c : Int) :
    attrOf (updateNodeCountNode attrs c) "gravityScore" = attrOf attrs "gravityScore" := by
  unfold updateNodeCountNode setAttrNode
  split
  · rfl
  · exact attrOf_cons_ne _ _ _ (by simp)

theorem getNodeGravityScoreNode_updateNodeCountNode (attrs : List Attribute) (c : Int) :
    getNodeGravityScoreNode (updateNodeCountNode attrs c) = getNodeGravityScoreNode attrs := by
  unfold getNodeGravityScoreNode
  rw [attrOf_updateNodeCountNode]

theorem attrOf_updateScoreNode_present (attrs : List Attribute) (a : Int) :
    (attrOf (updateScoreNode attrs a) "gravityScore").2 = true := by
  by_cases h : (attrOf attrs "gravityScore").2 = true
  · rw [updateScoreNode_present attrs a h]; exact h
  · rw [updateScoreNode_absent attrs a (by simpa using h), attrOf_cons_same]

/-- The score a node has after `updateScore`: the score it had when the attribute
was there already, and the addend, read back, when it was not. -/
theorem getNodeGravityScoreNode_updateScoreNode (attrs : List Attribute) (a : Int) :
    getNodeGravityScoreNode (updateScoreNode attrs a) =
      if (attrOf attrs "gravityScore").2 = true then getNodeGravityScoreNode attrs
      else readBack a := by
  by_cases h : (attrOf attrs "gravityScore").2 = true
  · rw [updateScoreNode_present attrs a h, if_pos h]
  · rw [updateScoreNode_absent attrs a (by simpa using h), if_neg h, getNodeGravityScoreNode_cons]

/-- After the first call of `updateScore` on a node, further calls change nothing. -/
theorem foldl_updateScoreNode_present (rest : List Int) :
    ∀ attrs : List Attribute, (attrOf attrs "gravityScore").2 = true →
      rest.foldl updateScoreNode attrs = attrs := by
  induction rest with
  | nil => intro attrs _; rfl
  | cons a rest ih =>
    intro attrs h
    rw [List.foldl_cons, updateScoreNode_present attrs a h]
    exact ih attrs h

theorem foldl_updateNodeCountNode_present (rest : List Int) :
    ∀ attrs : List Attribute, (attrOf attrs "gravityNodes").2 = true →
      rest.foldl updateNodeCountNode attrs = attrs := by
  induction rest with
  | nil => intro attrs _; rfl
  | cons a rest ih =>
    intro attrs h
    have : updateNodeCountNode attrs a = attrs := by
      unfold updateNodeCountNode
      exact setAttrNode_present attrs _ _ h
    rw [List.foldl_cons, this]
    exact ih attrs h

/-! ## C1: accumulation of the scores -/

/-- C1 (code defect).  On a node that starts with no `gravityScore` attribute, the
calls `updateScore(node, a1)`, ..., `updateScore(node, ak)`, for a first addend `a1` in the
range of `int`, leave `getScore(node)`
equal to the first addend `a1`, whatever the later addends are, and `k` calls of
`updateNodeCount(node, 1)` leave the count attribute equal to `"1"`: `setAttr`
writes the new value to a copy of the attribute once the attribute exists.  The
claim (the sum `a1 + ... + ak`, the count `k`) holds only for `k = 1`. -/
theorem updateScore_keeps_first_addend (attrs : List Attribute) (a1 : Int) (rest : List Int)
    (h : (attrOf attrs "gravityScore").2 = false)
    (hc : (attrOf attrs "gravityNodes").2 = false)
    (ha : -2 ^ 63 ≤ a1 ∧ a1 < 2 ^ 63) :
    getNodeGravityScoreNode (rest.foldl updateScoreNode (updateScoreNode attrs a1)) = a1 ∧
    attrOf ((List.replicate rest.length (1 : Int)).foldl updateNodeCountNode
      (updateNodeCountNode attrs 1)) "gravityNodes" = ("1", true) := by
  constructor
  · rw [foldl_updateScoreNode_present rest _ (attrOf_updateScoreNode_present attrs a1),
      getNodeGravityScoreNode_updateScoreNode, if_neg (by simp [h]), readBack_of_range a1 ha]
  · have h1 : updateNodeCountNode attrs 1 = { Key := "gravityNodes", Val := "1" } :: attrs := by
      unfold updateNodeCountNode
      rw [setAttrNode_absent attrs _ _ hc, attrOf_absent attrs _ hc]
      rfl
    rw [h1, foldl_updateNodeCountNode_present _ _ (by rw [attrOf_cons_same]), attrOf_cons_same]

/-- C1 at a concrete input: on a node without attributes, `updateScore(node, 3)`
followed by `updateScore(node, 10)` gives the score 3 (the claim says 13), and two
calls of `updateNodeCount(node, 1)` give the count `"1"` (the claim says 2). -/
theorem updateScore_keeps_first_addend_witness :
    (attrOf ([] : List Attribute) "gravityScore").2 = false ∧
    (-2 ^ 63 ≤ (3 : Int) ∧ (3 : Int) < 2 ^ 63) ∧
    getNodeGravityScoreNode (updateScoreNode (updateScoreNode [] 3) 10) = 3 ∧
    attrOf (updateNodeCountNode (updateNodeCountNode [] 1) 1) "gravityNodes" = ("1", true) :=
  ⟨rfl, by decide, updateScore_keeps_first_addend [] 3 [10] rfl rfl (by decide)⟩

/-! ## Lemmas on selections -/

theorem mem_appendWithoutDuplicates (nodes : List NodeRef) :
    ∀ (target : List NodeRef) (x : NodeRef),
      x ∈ appendWithoutDuplicates target nodes ↔ x ∈ target ∨ x ∈ nodes := by
  induction nodes with
  | nil => intro target x; simp [appendWithoutDuplicates]
  | cons n rest ih =>
    intro target x
    have h := ih (if n ∈ target then target else target ++ [n]) x
    unfold appendWithoutDuplicates at h ⊢
    rw [List.foldl_cons, h]
    by_cases hn : n ∈ target
    · simp only [hn, if_true, List.mem_cons]
      constructor
      · rintro (h | h)
        · exact Or.inl h
        · exact Or.inr (Or.inr h)
      · rintro (h | h | h)
        · exact Or.inl h
        · exact Or.inl (h ▸ hn)
        · exact Or.inr h
    · simp only [hn, if_false, List.mem_append, List.mem_singleton, List.mem_cons]
      tauto

theorem mem_foldl_mapNodes (f : NodeRef → List NodeRef) (nodes : List NodeRef) :
    ∀ (acc : List NodeRef) (x : NodeRef),
      x ∈ nodes.foldl (fun result n => appendWithoutDuplicates result (f n)) acc ↔
        x ∈ acc ∨ ∃ y ∈ nodes, x ∈ f y := by
  induction nodes with
  | nil => intro acc x; simp
  | cons n rest ih =>
    intro acc x
    rw [List.foldl_cons, ih, mem_appendWithoutDuplicates]
    simp only [List.mem_cons, exists_eq_or_imp]
    tauto

theorem mem_mapNodes (f : NodeRef → List NodeRef) (nodes : List NodeRef) (x : NodeRef) :
    x ∈ mapNodes nodes f ↔ ∃ y ∈ nodes, x ∈ f y := by
  unfold mapNodes
  rw [mem_foldl_mapNodes]
  simp

theorem Parent_inDoc (doc : Document) (s : Selection) (r : NodeRef) (h : r ∈ Parent doc s) :
    ∃ p, r = NodeRef.inDoc p := by
  obtain ⟨y, _, hy⟩ := (mem_mapNodes _ _ _).1 h
  cases y with
  | synthesized t => simp [parentNode] at hy
  | inDoc q =>
    unfold parentNode at hy
    cases h1 : doc.root.get? q <;> cases h2 : doc.root.get? q.dropLast <;>
      simp [h1, h2] at hy
    exact ⟨_, hy.2⟩

/-! ## Functions that read the tree only -/

theorem SameTree.refl (d : Document) : SameTree d d := ⟨rfl, rfl⟩

theorem SameTree.trans {a b c : Document} (h1 : SameTree a b) (h2 : SameTree b c) :
    SameTree a c :=
  ⟨h2.1.trans h1.1, h2.2.trans h1.2⟩

theorem SameTree.withAttr (d : Document) (r : NodeRef) (attrs : List Attribute) :
    SameTree d (withAttr d r attrs) := by
  cases r <;> exact ⟨rfl, rfl⟩

theorem SameTree.textOf {d d' : Document} (h : SameTree d d') : textOf d' = textOf d := by
  funext r
  cases r <;> simp [Goose.textOf, h.1, h.2]

theorem SameTree.atomOf {d d' : Document} (h : SameTree d d') : atomOf d' = atomOf d := by
  funext r
  cases r <;> simp [Goose.atomOf, h.1]

theorem SameTree.findNode {d d' : Document} (h : SameTree d d') : findNode d' = findNode d := by
  funext tag r
  cases r <;> simp [Goose.findNode, h.1, h.2]

theorem SameTree.Find {d d' : Document} (h : SameTree d d') : Find d' = Find d := by
  funext s tag
  simp [Goose.Find, h.findNode]

theorem SameTree.Text {d d' : Document} (h : SameTree d d') : Text d' = Text d := by
  funext s
  simp [Goose.Text, h.textOf]

theorem SameTree.parentNode {d d' : Document} (h : SameTree d d') :
    parentNode d' = parentNode d := by
  funext r
  cases r <;> simp [Goose.parentNode, h.1, h.2]

theorem SameTree.Parent {d d' : Document} (h : SameTree d d') : Parent d' = Parent d := by
  funext s
  simp [Goose.Parent, h.parentNode]

theorem SameTree.childrenNode {d d' : Document} (h : SameTree d d') :
    childrenNode d' = childrenNode d := by
  funext r
  cases r <;> simp [Goose.childrenNode, h.1, h.2]

theorem SameTree.Children {d d' : Document} (h : SameTree d d') : Children d' = Children d := by
  funext s
  simp [Goose.Children, h.childrenNode]

theorem SameTree.siblingsNode {d d' : Document} (h : SameTree d d') :
    siblingsNode d' = siblingsNode d := by
  funext r
  cases r <;> simp [Goose.siblingsNode, h.1, h.2, h.childrenNode]

theorem SameTree.Siblings {d d' : Document} (h : SameTree d d') : Siblings d' = Siblings d := by
  funext s
  simp [Goose.Siblings, h.siblingsNode]

theorem SameTree.isHighLinkDensity {d d' : Document} (h : SameTree d d') :
    isHighLinkDensity d' = isHighLinkDensity d := by
  funext s
  simp [Goose.isHighLinkDensity, h.Find, h.Text]

theorem SameTree.isBoostableLoop {d d' : Document} (h : SameTree d d') (sw : String → Int)
    (l : List NodeRef) : ∀ k, isBoostableLoop sw d' l k = isBoostableLoop sw d l k := by
  induction l with
  | nil => intro k; rfl
  | cons s rest ih =>
    intro k
    simp only [Goose.isBoostableLoop, h.atomOf, h.Text, ih]

theorem SameTree.isBoostable {d d' : Document} (h : SameTree d d') (sw : String → Int) :
    isBoostable sw d' = isBoostable sw d := by
  funext s
  simp [Goose.isBoostable, h.Siblings, h.isBoostableLoop]

/-! ## Lemmas on the attribute updates -/

theorem updateScore_cons (doc : Document) (r : NodeRef) (l : Selection) (a : Int) :
    updateScore doc (r :: l) a = .ok (withAttr doc r (updateScoreNode (attrsOf doc r) a)) := rfl

theorem updateNodeCount_cons (doc : Document) (r : NodeRef) (l : Selection) (a : Int) :
    updateNodeCount doc (r :: l) a =
      .ok (withAttr doc r (updateNodeCountNode (attrsOf doc r) a)) := rfl

theorem updateScore_nil (doc : Document) (a : Int) :
    updateScore doc [] a = .error Panic.indexOutOfRange := rfl

theorem getScore_cons (doc : Document) (r : NodeRef) (l : Selection) :
    getScore doc (r :: l) = scoreOf doc r := rfl

theorem getScore_nil (doc : Document) : getScore doc [] = 0 := rfl

theorem attrsOf_withAttr_same (doc : Document) (p : Path) (attrs : List Attribute) :
    attrsOf (withAttr doc (NodeRef.inDoc p) attrs) (NodeRef.inDoc p) = attrs := by
  simp [attrsOf, withAttr]

theorem attrsOf_withAttr_ne (doc : Document) (r r' : NodeRef) (attrs : List Attribute)
    (h : r' ≠ r) : attrsOf (withAttr doc r attrs) r' = attrsOf doc r' := by
  cases r with
  | synthesized t => rfl
  | inDoc p =>
    cases r' with
    | synthesized t => rfl
    | inDoc q =>
      have : q ≠ p := fun e => h (by rw [e])
      simp [attrsOf, withAttr, this]

/-- The score of every node after `updateScore`: the addend on the updated node
when it had no score, else what it was. -/
theorem scoreOf_updateScore (doc : Document) (p : Path) (a : Int) (r : NodeRef) :
    scoreOf (withAttr doc (.inDoc p) (updateScoreNode (attrsOf doc (.inDoc p)) a)) r =
      if r = .inDoc p ∧ hasScore doc r = false then readBack a else scoreOf doc r := by
  by_cases h : r = .inDoc p
  · subst h
    unfold scoreOf hasScore
    rw [attrsOf_withAttr_same, getNodeGravityScoreNode_updateScoreNode]
    by_cases hs : (attrOf (attrsOf doc (.inDoc p)) "gravityScore").2 = true <;> simp [hs]
  · unfold scoreOf
    rw [attrsOf_withAttr_ne _ _ _ _ h]
    simp [h]

theorem hasScore_updateScore (doc : Document) (p : Path) (a : Int) (r : NodeRef) :
    hasScore (withAttr doc (.inDoc p) (updateScoreNode (attrsOf doc (.inDoc p)) a)) r =
      (decide (r = .inDoc p) || hasScore doc r) := by
  by_cases h : r = .inDoc p
  · subst h
    unfold hasScore
    rw [attrsOf_withAttr_same, attrOf_updateScoreNode_present]
    simp
  · unfold hasScore
    rw [attrsOf_withAttr_ne _ _ _ _ h]
    simp [h]

theorem attrOf_score_updateNodeCount (doc : Document) (r0 : NodeRef) (c : Int) (r : NodeRef) :
    attrOf (attrsOf (withAttr doc r0 (updateNodeCountNode (attrsOf doc r0) c)) r) "gravityScore" =
      attrOf (attrsOf doc r) "gravityScore" := by
  by_cases h : r = r0
  · subst h
    cases r with
    | synthesized t => rfl
    | inDoc p => rw [attrsOf_withAttr_same, attrOf_updateNodeCountNode]
  · rw [attrsOf_withAttr_ne _ _ _ _ h]

theorem scoreOf_updateNodeCount (doc : Document) (r0 : NodeRef) (c : Int) (r : NodeRef) :
    scoreOf (withAttr doc r0 (updateNodeCountNode (attrsOf doc r0) c)) r = scoreOf doc r := by
  unfold scoreOf getNodeGravityScoreNode
  rw [attrOf_score_updateNodeCount]

theorem hasScore_updateNodeCount (doc : Document) (r0 : NodeRef) (c : Int) (r : NodeRef) :
    hasScore (withAttr doc r0 (updateNodeCountNode (attrsOf doc r0) c)) r = hasScore doc r := by
  unfold hasScore
  rw [attrOf_score_updateNodeCount]

theorem SameTree.applyUpdates (doc : Document) (r1 r2 : NodeRef) (up : Int) :
    SameTree doc (applyUpdates doc r1 r2 up) := by
  unfold Goose.applyUpdates
  exact (((SameTree.withAttr _ _ _).trans (SameTree.withAttr _ _ _)).trans
    (SameTree.withAttr _ _ _)).trans (SameTree.withAttr _ _ _)

/-- The scores after one round of the scoring loop: the parent takes the amount
and the grandparent half of it when they had no score; a node that had a score
keeps it. -/
theorem scoreOf_applyUpdates (doc : Document) (p1 p2 : Path) (up : Int) (r : NodeRef) :
    scoreOf (applyUpdates doc (.inDoc p1) (.inDoc p2) up) r =
      if hasScore doc r = true then scoreOf doc r
      else if r = .inDoc p1 then readBack up
      else if r = .inDoc p2 then readBack (up.tdiv 2)
      else scoreOf doc r := by
  unfold applyUpdates
  simp only [scoreOf_updateScore, scoreOf_updateNodeCount, hasScore_updateNodeCount,
    hasScore_updateScore]
  by_cases h : hasScore doc r = true
  · simp [h]
  · have h' : hasScore doc r = false := by simpa using h
    by_cases h1 : r = .inDoc p1
    · subst h1
      simp [h']
    · by_cases h2 : r = .inDoc p2
      · subst h2
        have : p2 ≠ p1 := fun e => h1 (by rw [e])
        simp [h', this]
      · simp [h', h1, h2]

theorem hasScore_applyUpdates (doc : Document) (p1 p2 : Path) (up : Int) (r : NodeRef) :
    hasScore (applyUpdates doc (.inDoc p1) (.inDoc p2) up) r =
      (decide (r = .inDoc p2) || decide (r = .inDoc p1) || hasScore doc r) := by
  unfold applyUpdates
  simp only [hasScore_updateScore, hasScore_updateNodeCount, Bool.or_assoc]

/-! ## Lemmas on the scoring loop -/

/-- One round of the scoring loop when the candidate has a parent element and a
grandparent element. -/
theorem scoreStep_eq (sw : String → Int) (n neg : Int) (bottom : ℚ) (st : ScoreState)
    (node : Selection) (r1 r2 : NodeRef) (l1 l2 : Selection)
    (h1 : Parent st.doc node = r1 :: l1) (h2 : Parent st.doc (r1 :: l1) = r2 :: l2) :
    scoreStep sw n neg bottom st node =
      .ok { doc := applyUpdates st.doc r1 r2 (upScoreOf sw n neg bottom st node),
            startingBoost := (boostOf (isBoostable sw st.doc node) n neg bottom
              st.startingBoost st.cnt st.i).2,
            cnt := st.cnt + 1, i := st.i + 1,
            parentNodes := st.parentNodes ++ [r1 :: l1, r2 :: l2],
            rounds := st.rounds ++ [
              { node := node,
                boostScore := boostScoreOf sw n neg bottom st node,
                upScore := upScoreOf sw n neg bottom st node,
                parentNode := r1 :: l1, parentParentNode := r2 :: l2 }] } := by
  have hp : Parent (withAttr (withAttr st.doc r1 (updateScoreNode (attrsOf st.doc r1)
      (upScoreOf sw n neg bottom st node))) r1 (updateNodeCountNode (attrsOf (withAttr st.doc r1
      (updateScoreNode (attrsOf st.doc r1) (upScoreOf sw n neg bottom st node))) r1) 1))
      (r1 :: l1) = r2 :: l2 := by
    rw [((SameTree.withAttr _ _ _).trans (SameTree.withAttr _ _ _)).Parent, h2]
  unfold scoreStep
  simp only [h1, updateScore_cons, updateNodeCount_cons]
  unfold upScoreOf boostScoreOf at hp
  simp only [hp, updateScore_cons, updateNodeCount_cons]
  rfl

/-- A round of the scoring loop panics when the candidate has no parent element. -/
theorem scoreStep_no_parent (sw : String → Int) (n neg : Int) (bottom : ℚ) (st : ScoreState)
    (node : Selection) (h1 : Parent st.doc node = []) :
    scoreStep sw n neg bottom st node = .error Panic.indexOutOfRange := by
  unfold scoreStep
  simp only [h1, updateScore_nil]

/-- A round of the scoring loop panics when the candidate has no grandparent
element. -/
theorem scoreStep_no_grandparent (sw : String → Int) (n neg : Int) (bottom : ℚ)
    (st : ScoreState) (node : Selection) (r1 : NodeRef) (l1 : Selection)
    (h1 : Parent st.doc node = r1 :: l1) (h2 : Parent st.doc (r1 :: l1) = []) :
    scoreStep sw n neg bottom st node = .error Panic.indexOutOfRange := by
  have hp : Parent (withAttr (withAttr st.doc r1 (updateScoreNode (attrsOf st.doc r1)
      (upScoreOf sw n neg bottom st node))) r1 (updateNodeCountNode (attrsOf (withAttr st.doc r1
      (updateScoreNode (attrsOf st.doc r1) (upScoreOf sw n neg bottom st node))) r1) 1))
      (r1 :: l1) = [] := by
    rw [((SameTree.withAttr _ _ _).trans (SameTree.withAttr _ _ _)).Parent, h2]
  unfold scoreStep
  simp only [h1, updateScore_cons, updateNodeCount_cons]
  unfold upScoreOf boostScoreOf at hp
  simp only [hp]
  rfl

theorem boostOf_snd (b : Bool) (n neg : Int) (bottom sb : ℚ) (cnt i : Int) :
    (boostOf b n neg bottom sb cnt i).2 = if b = true ∧ 0 ≤ cnt then sb + 1 else sb := by
  unfold boostOf
  by_cases hb : b = true <;> by_cases hc : 0 ≤ cnt <;> simp [hb, hc] <;> split <;>
    (try split) <;> simp_all

/-- A round of the scoring loop that does not panic: the candidate has a parent
element and a grandparent element, and the new state is the one of `scoreStep_eq`. -/
theorem scoreStep_inv (sw : String → Int) (n neg : Int) (bottom : ℚ) (st st' : ScoreState)
    (node : Selection) (h : scoreStep sw n neg bottom st node = .ok st') :
    ∃ p1 l1 p2 l2, Parent st.doc node = .inDoc p1 :: l1 ∧
      Parent st.doc (.inDoc p1 :: l1) = .inDoc p2 :: l2 ∧
      st' = { doc := applyUpdates st.doc (.inDoc p1) (.inDoc p2) (upScoreOf sw n neg bottom st node),
              startingBoost := (boostOf (isBoostable sw st.doc node) n neg bottom
                st.startingBoost st.cnt st.i).2,
              cnt := st.cnt + 1, i := st.i + 1,
              parentNodes := st.parentNodes ++ [.inDoc p1 :: l1, .inDoc p2 :: l2],
              rounds := st.rounds ++ [
                { node := node,
                  boostScore := boostScoreOf sw n neg bottom st node,
                  upScore := upScoreOf sw n neg bottom st node,
                  parentNode := .inDoc p1 :: l1, parentParentNode := .inDoc p2 :: l2 }] } := by
  cases h1 : Parent st.doc node with
  | nil => rw [scoreStep_no_parent sw n neg bottom st node h1] at h; cases h
  | cons r1 l1 =>
    cases h2 : Parent st.doc (r1 :: l1) with
    | nil => rw [scoreStep_no_grandparent sw n neg bottom st node r1 l1 h1 h2] at h; cases h
    | cons r2 l2 =>
      obtain ⟨p1, rfl⟩ := Parent_inDoc st.doc node r1 (by rw [h1]; simp)
      obtain ⟨p2, rfl⟩ := Parent_inDoc st.doc (.inDoc p1 :: l1) r2 (by rw [h2]; simp)
      rw [scoreStep_eq sw n neg bottom st node _ _ l1 l2 h1 h2] at h
      exact ⟨p1, l1, p2, l2, rfl, h2, (Except.ok.inj h).symm⟩

theorem scoreLoop_nil (sw : String → Int) (n neg : Int) (bottom : ℚ) (st : ScoreState) :
    scoreLoop sw n neg bottom st [] = .ok st := rfl

theorem scoreLoop_cons (sw : String → Int) (n neg : Int) (bottom : ℚ) (st : ScoreState)
    (node : Selection) (rest : List Selection) :
    scoreLoop sw n neg bottom st (node :: rest) =
      match scoreStep sw n neg bottom st node with
      | .error e => .error e
      | .ok st => scoreLoop sw n neg bottom st rest := rfl

theorem scoreLoop_append (sw : String → Int) (n neg : Int) (bottom : ℚ) (l1 l2 : List Selection) :
    ∀ st, scoreLoop sw n neg bottom st (l1 ++ l2) =
      match scoreLoop sw n neg bottom st l1 with
      | .error e => .error e
      | .ok st1 => scoreLoop sw n neg bottom st1 l2 := by
  induction l1 with
  | nil => intro st; rfl
  | cons node rest ih =>
    intro st
    rw [List.cons_append, scoreLoop_cons, scoreLoop_cons]
    cases scoreStep sw n neg bottom st node with
    | error e => rfl
    | ok st1 => exact ih st1

/-- What the scoring loop leaves: the tree is the same, `i` and `cnt` count the
rounds, the recorded rounds are those computed on the tree of the document at the
start, and `parentNodes` holds the parent and the grandparent of every candidate. -/
theorem scoreLoop_inv (sw : String → Int) (n neg : Int) (bottom : ℚ) (doc : Document)
    (l : List Selection) :
    ∀ st st', SameTree doc st.doc → scoreLoop sw n neg bottom st l = .ok st' →
      SameTree doc st'.doc ∧ st'.i = st.i + l.length ∧ st'.cnt = st.cnt + l.length ∧
      st'.rounds = st.rounds ++
        expectedRounds sw doc n neg bottom st.startingBoost st.cnt st.i l ∧
      st'.parentNodes = st.parentNodes ++
        l.flatMap (fun node => [Parent doc node, Parent doc (Parent doc node)]) ∧
      (0 ≤ st.cnt → st'.startingBoost =
        st.startingBoost + ((l.filter (fun node => isBoostable sw doc node)).length : ℚ)) := by
  induction l with
  | nil =>
    intro st st' hs h
    rw [scoreLoop_nil] at h
    cases h
    simp [expectedRounds, hs]
  | cons node rest ih =>
    intro st st' hs h
    rw [scoreLoop_cons] at h
    cases h1 : scoreStep sw n neg bottom st node with
    | error e => rw [h1] at h; cases h
    | ok st1 =>
      simp only [h1] at h
      obtain ⟨p1, l1, p2, l2, hp1, hp2, hst1⟩ := scoreStep_inv sw n neg bottom st _ node h1
      have hs1 : SameTree doc st1.doc := by
        rw [hst1]
        exact hs.trans (SameTree.applyUpdates _ _ _ _)
      obtain ⟨g1, g2, g3, g4, g5, g6⟩ := ih st1 st' hs1 h
      rw [hst1] at g2 g3 g4 g5 g6
      simp only at g2 g3 g4 g5 g6
      rw [hs.Parent] at hp1 hp2
      refine ⟨g1, ?_, ?_, ?_, ?_, ?_⟩
      · rw [g2, List.length_cons]; push_cast; ring
      · rw [g3, List.length_cons]; push_cast; ring
      · rw [g4, List.append_assoc]
        simp only [expectedRounds, boostScoreOf, upScoreOf, hs.isBoostable, hs.Text, hs.Parent,
          hp1, hp2, List.singleton_append]
      · rw [g5, List.append_assoc]
        simp [hp1, hp2]
      · intro hc
        rw [g6 (by omega), boostOf_snd, hs.isBoostable]
        by_cases hb : isBoostable sw doc node = true
        · simp [hb, hc, List.filter_cons]; ring
        · simp [hb, List.filter_cons]

/-- The scoring loop does not panic when every candidate has a parent element and
a grandparent element. -/
theorem scoreLoop_ok (sw : String → Int) (n neg : Int) (bottom : ℚ) (doc : Document)
    (l : List Selection) :
    ∀ st, SameTree doc st.doc →
      (∀ node ∈ l, Parent doc node ≠ [] ∧ Parent doc (Parent doc node) ≠ []) →
      ∃ st', scoreLoop sw n neg bottom st l = .ok st' := by
  induction l with
  | nil => intro st _ _; exact ⟨st, rfl⟩
  | cons node rest ih =>
    intro st hs hwf
    obtain ⟨hp, hg⟩ := hwf node (by simp)
    cases h1 : Parent doc node with
    | nil => exact absurd h1 hp
    | cons r1 l1 =>
      rw [h1] at hg
      cases h2 : Parent doc (r1 :: l1) with
      | nil => exact absurd h2 hg
      | cons r2 l2 =>
        rw [← hs.Parent] at h1 h2
        rw [scoreLoop_cons, scoreStep_eq sw n neg bottom st node r1 r2 l1 l2 h1 h2]
        exact ih _ (hs.trans (SameTree.applyUpdates _ _ _ _))
          (fun x hx => hwf x (List.mem_cons_of_mem _ hx))

/-- The score of every node after the scoring loop: a node that had a score keeps
it, and any other node has the amount of the first call of `updateScore` on it, read
back. -/
theorem scoreLoop_scoreOf (sw : String → Int) (n neg : Int) (bottom : ℚ) (doc : Document)
    (l : List Selection) :
    ∀ st st', SameTree doc st.doc → scoreLoop sw n neg bottom st l = .ok st' → ∀ r,
      scoreOf st'.doc r =
        if hasScore st.doc r = true then scoreOf st.doc r
        else readBack (firstAmount ((expectedRounds sw doc n neg bottom st.startingBoost st.cnt
          st.i l).flatMap Round.calls) r) := by
  induction l with
  | nil =>
    intro st st' hs h r
    rw [scoreLoop_nil] at h
    cases h
    by_cases hh : hasScore st.doc r = true
    · simp [hh]
    · have : scoreOf st.doc r = 0 :=
        getNodeGravityScoreNode_absent _ (by simpa [hasScore] using hh)
      simp [hh, expectedRounds, firstAmount, this, readBack]
  | cons node rest ih =>
    intro st st' hs h r
    rw [scoreLoop_cons] at h
    cases h1 : scoreStep sw n neg bottom st node with
    | error e => rw [h1] at h; cases h
    | ok st1 =>
      simp only [h1] at h
      obtain ⟨p1, l1, p2, l2, hp1, hp2, hst1⟩ := scoreStep_inv sw n neg bottom st _ node h1
      have hs1 : SameTree doc st1.doc := by
        rw [hst1]
        exact hs.trans (SameTree.applyUpdates _ _ _ _)
      have g := ih st1 st' hs1 h r
      rw [hst1] at g
      simp only [hasScore_applyUpdates, scoreOf_applyUpdates] at g
      rw [hs.Parent] at hp1 hp2
      rw [g]
      simp only [expectedRounds, List.flatMap_cons, Round.calls, hp1, hp2, List.cons_append,
        List.nil_append, firstAmount, List.head?_cons, Option.some.injEq, upScoreOf,
        boostScoreOf, hs.isBoostable, hs.Text]
      by_cases hh : hasScore st.doc r = true
      · simp [hh]
      · by_cases e1 : r = .inDoc p1
        · subst e1
          simp [hh]
        · by_cases e2 : r = .inDoc p2
          · subst e2
            have h12 : p1 ≠ p2 := fun e => e1 (by rw [e])
            have h21 : p2 ≠ p1 := fun e => h12 e.symm
            simp [hh, h12, h21]
          · have e1' : NodeRef.inDoc p1 ≠ r := fun e => e1 e.symm
            have e2' : NodeRef.inDoc p2 ≠ r := fun e => e2 e.symm
            simp [hh, e1, e2, e1', e2', List.flatMap_def]

/-! ## Lemmas on the scan for the top node -/

theorem topNodeLoop_cons (doc : Document) (e : Selection) (rest : List Selection)
    (topNode : Option Selection) (topNodeScore : Int) :
    topNodeLoop doc (e :: rest) topNode topNodeScore =
      topNodeLoop doc rest
        (if (if getScore doc e ≥ topNodeScore then some e else topNode) = none then some e
         else (if getScore doc e ≥ topNodeScore then some e else topNode))
        (if getScore doc e ≥ topNodeScore then getScore doc e else topNodeScore) := rfl

/-- The scan from a node `t` that holds the current maximum `sc`: the result is
`t` when every later node scores less, else the last node of maximal score. -/
theorem topNodeLoop_some (doc : Document) (l : List Selection) :
    ∀ (t : Selection) (sc : Int),
      ∃ e, topNodeLoop doc l (some t) sc = some e ∧
        ((e = t ∧ ∀ x ∈ l, getScore doc x < sc) ∨
          ∃ l1 l2, l = l1 ++ e :: l2 ∧ sc ≤ getScore doc e ∧
            (∀ x ∈ l1, getScore doc x ≤ getScore doc e) ∧
            (∀ x ∈ l2, getScore doc x < getScore doc e)) := by
  induction l with
  | nil => intro t sc; exact ⟨t, rfl, Or.inl ⟨rfl, by simp⟩⟩
  | cons y rest ih =>
    intro t sc
    rw [topNodeLoop_cons]
    by_cases hy : getScore doc y ≥ sc
    · simp only [hy, if_true]
      obtain ⟨e, he, hcase⟩ := ih y (getScore doc y)
      refine ⟨e, by simpa using he, Or.inr ?_⟩
      rcases hcase with ⟨rfl, hlt⟩ | ⟨l1, l2, hl, hsc, hl1, hl2⟩
      · exact ⟨[], rest, rfl, hy, by simp, hlt⟩
      · refine ⟨y :: l1, l2, by rw [hl]; rfl, le_trans hy hsc, ?_, hl2⟩
        intro x hx
        rcases List.mem_cons.1 hx with rfl | hx
        · exact hsc
        · exact hl1 x hx
    · simp only [hy, if_false]
      obtain ⟨e, he, hcase⟩ := ih t sc
      refine ⟨e, by simpa using he, ?_⟩
      rcases hcase with ⟨rfl, hlt⟩ | ⟨l1, l2, hl, hsc, hl1, hl2⟩
      · refine Or.inl ⟨rfl, ?_⟩
        intro x hx
        rcases List.mem_cons.1 hx with rfl | hx
        · exact lt_of_not_ge hy
        · exact hlt x hx
      · refine Or.inr ⟨y :: l1, l2, by rw [hl]; rfl, hsc, ?_, hl2⟩
        intro x hx
        rcases List.mem_cons.1 hx with rfl | hx
        · exact le_of_lt (lt_of_lt_of_le (lt_of_not_ge hy) hsc)
        · exact hl1 x hx

/-- The scan when some node reaches the threshold `sc`: the result is the last
node of maximal score. -/
theorem topNodeLoop_max (doc : Document) (l : List Selection) :
    ∀ (topNode : Option Selection) (sc : Int), (∃ x ∈ l, sc ≤ getScore doc x) →
      ∃ e l1 l2, topNodeLoop doc l topNode sc = some e ∧ l = l1 ++ e :: l2 ∧
        sc ≤ getScore doc e ∧
        (∀ x ∈ l1, getScore doc x ≤ getScore doc e) ∧
        (∀ x ∈ l2, getScore doc x < getScore doc e) := by
  induction l with
  | nil => intro topNode sc ⟨x, hx, _⟩; simp at hx
  | cons y rest ih =>
    intro topNode sc hex
    rw [topNodeLoop_cons]
    by_cases hy : getScore doc y ≥ sc
    · simp only [hy, if_true]
      obtain ⟨e, he, hcase⟩ := topNodeLoop_some doc rest y (getScore doc y)
      rcases hcase with ⟨rfl, hlt⟩ | ⟨l1, l2, hl, hsc, hl1, hl2⟩
      · exact ⟨e, [], rest, by simpa using he, rfl, hy, by simp, hlt⟩
      · refine ⟨e, y :: l1, l2, by simpa using he, by rw [hl]; rfl, le_trans hy hsc, ?_, hl2⟩
        intro x hx
        rcases List.mem_cons.1 hx with rfl | hx
        · exact hsc
        · exact hl1 x hx
    · simp only [hy, if_false]
      obtain ⟨x, hx, hxs⟩ := hex
      have hrest : ∃ x ∈ rest, sc ≤ getScore doc x := by
        rcases List.mem_cons.1 hx with rfl | hx
        · exact absurd hxs hy
        · exact ⟨x, hx, hxs⟩
      obtain ⟨e, l1, l2, he, hl, hsc, hl1, hl2⟩ :=
        ih (if topNode = none then some y else topNode) sc hrest
      refine ⟨e, y :: l1, l2, he, by rw [hl]; rfl, hsc, ?_, hl2⟩
      intro z hz
      rcases List.mem_cons.1 hz with rfl | hz
      · exact le_of_lt (lt_of_lt_of_le (lt_of_not_ge hy) hsc)
      · exact hl1 z hz

/-- The scan returns `nil` only for an empty sequence. -/
theorem topNodeLoop_eq_none (doc : Document) (l : List Selection) :
    ∀ (topNode : Option Selection) (sc : Int),
      topNodeLoop doc l topNode sc = none ↔ l = [] ∧ topNode = none := by
  induction l with
  | nil => intro topNode sc; simp [topNodeLoop]
  | cons y rest ih =>
    intro topNode sc
    rw [topNodeLoop_cons, ih]
    constructor
    · rintro ⟨_, h⟩
      exfalso
      by_cases hy : getScore doc y ≥ sc
      · simp [hy] at h
      · cases topNode <;> simp [hy] at h
    · rintro ⟨h, _⟩
      cases h

/-! ## Lemmas on the boost -/

theorem boostOf_fst_outside (b : Bool) (n neg : Int) (bottom sb : ℚ) (cnt i : Int)
    (h : ¬ (n > 15 ∧ ((n - i : Int) : ℚ) ≤ bottom)) :
    (boostOf b n neg bottom sb cnt i).1 = if b = true ∧ 0 ≤ cnt then (1 / sb) * 50 else 0 := by
  unfold boostOf
  simp only [h, if_false]
  by_cases hb : b = true <;> by_cases hc : 0 ≤ cnt <;> simp [hb, hc]

theorem boostOf_fst_tail (b : Bool) (n neg : Int) (bottom sb : ℚ) (cnt i : Int)
    (h : n > 15 ∧ ((n - i : Int) : ℚ) ≤ bottom) :
    (boostOf b n neg bottom sb cnt i).1 =
      if |(-((bottom - ((n - i : Int) : ℚ)) ^ 2))| + (neg : ℚ) > 40 then 5
      else -((bottom - ((n - i : Int) : ℚ)) ^ 2) := by
  unfold boostOf
  simp only [h, and_self, if_true]
  split <;> rfl

theorem truncToInt_nonneg (x : ℚ) (h : 0 ≤ x) : 0 ≤ truncToInt x := by
  unfold truncToInt
  rw [if_pos h]
  exact Int.floor_nonneg.2 h

theorem scoringPass_eq (sw : String → Int) (doc : Document) :
    scoringPass sw doc =
      scoreLoop sw ((nodesWithText sw doc).length : Int) 0
        (((nodesWithText sw doc).length : Int) * (1 / 4)) (initialState doc)
        (nodesWithText sw doc) := rfl

theorem mem_nodesWithText (sw : String → Int) (doc : Document) (node : Selection) :
    node ∈ nodesWithText sw doc ↔
      node ∈ nodesToCheck doc ∧ 2 < sw (Text doc node) ∧ isHighLinkDensity doc node = false := by
  simp [nodesWithText, List.mem_filter]

/-- The first candidate is never in the decaying tail. -/
theorem first_not_in_tail (n : Int) (h : 0 < n) :
    ¬ (n > 15 ∧ ((n - 0 : Int) : ℚ) ≤ (n : ℚ) * (1 / 4)) := by
  rintro ⟨_, h2⟩
  have : (0 : ℚ) < (n : ℚ) := by exact_mod_cast h
  simp only [sub_zero] at h2
  linarith

/-- After the scoring pass on a document without `gravityScore` attributes, the
parent of the first candidate is in `parentNodes` and its score is not negative (it is the
first amount, which is at least 3). -/
theorem scoringPass_first_parent (sw : String → Int) (doc : Document) (st : ScoreState)
    (hattr : ∀ p, hasScore doc (.inDoc p) = false)
    (hpass : scoringPass sw doc = .ok st) (hne : st.parentNodes ≠ []) :
    ∃ x ∈ st.parentNodes, 0 ≤ getScore st.doc x := by
  rw [scoringPass_eq] at hpass
  obtain ⟨_, _, _, _, hpn, _⟩ :=
    scoreLoop_inv sw _ 0 _ doc _ (initialState doc) st (SameTree.refl doc) hpass
  have hsc := scoreLoop_scoreOf sw _ 0 _ doc _ (initialState doc) st (SameTree.refl doc) hpass
  cases hc : nodesWithText sw doc with
  | nil => rw [hc] at hpn; simp [initialState] at hpn; exact absurd hpn hne
  | cons c0 rest =>
    have hmem : c0 ∈ nodesWithText sw doc := by rw [hc]; simp
    have hsw := ((mem_nodesWithText sw doc c0).1 hmem).2.1
    rw [hc] at hpass hpn hsc
    rw [scoreLoop_cons] at hpass
    cases h1 : scoreStep sw ((c0 :: rest).length : Int) 0 (((c0 :: rest).length : Int) * (1 / 4))
        (initialState doc) c0 with
    | error e => rw [h1] at hpass; cases hpass
    | ok st1 =>
      obtain ⟨p1, l1, p2, l2, hp1, hp2, _⟩ := scoreStep_inv sw _ 0 _ (initialState doc) _ c0 h1
      have hp1' : Parent doc c0 = .inDoc p1 :: l1 := hp1
      refine ⟨.inDoc p1 :: l1, ?_, ?_⟩
      · rw [hpn]; simp [hp1']
      · rw [getScore_cons, hsc]
        have hh : hasScore (initialState doc).doc (.inDoc p1) = false := hattr p1
        have hpos : (0 : Int) < ((c0 :: rest).length : Int) := by simp
        simp only [hh, Bool.false_eq_true, if_false, expectedRounds, List.flatMap_cons,
          Round.calls, hp1', List.cons_append, firstAmount, List.head?_cons, if_true]
        have hb := boostOf_fst_outside (isBoostable sw doc c0) ((c0 :: rest).length : Int) 0
          (((c0 :: rest).length : Int) * (1 / 4)) (initialState doc).startingBoost
          (initialState doc).cnt (initialState doc).i
          (by simpa [initialState] using first_not_in_tail _ hpos)
        rw [hb]
        have hnn : (0 : ℚ) ≤ if isBoostable sw doc c0 = true ∧ 0 ≤ (initialState doc).cnt then
            (1 / (initialState doc).startingBoost) * 50 else 0 := by
          split
          · simp [initialState]
          · exact le_refl 0
        have := truncToInt_nonneg _ hnn
        exact readBack_nonneg _ (by omega)

/-! ## C4: the node `calculateBestNode` returns -/

/-- C4.  On a document without `gravityScore` attributes, for every non-empty
`parentNodes` and every order `listOrder` in which the set is listed, the node
`calculateBestNode` returns is a member `e` of the scanned sequence whose score is
at least the score of every member (the maximum), and every member scanned after
`e` has a strictly smaller score: among the members that tie at the maximum, the
one scanned last is returned. -/
theorem calculateBestNode_returns_last_maximum (sw : String → Int)
    (listOrder : List Selection → List Selection) (doc : Document) (st : ScoreState)
    (hperm : ∀ l, (listOrder l).Perm l)
    (hattr : ∀ p, hasScore doc (.inDoc p) = false)
    (hpass : scoringPass sw doc = .ok st) (hne : st.parentNodes ≠ []) :
    ∃ e before after, calculateBestNode sw listOrder doc = .ok (st.doc, some e) ∧
      listOrder st.parentNodes = before ++ e :: after ∧
      (∀ x ∈ st.parentNodes, getScore st.doc x ≤ getScore st.doc e) ∧
      (∀ x ∈ after, getScore st.doc x < getScore st.doc e) := by
  obtain ⟨x, hx, hx3⟩ := scoringPass_first_parent sw doc st hattr hpass hne
  have hx' : x ∈ listOrder st.parentNodes := (hperm _).mem_iff.2 hx
  obtain ⟨e, l1, l2, he, hl, _, hl1, hl2⟩ :=
    topNodeLoop_max st.doc (listOrder st.parentNodes) none 0 ⟨x, hx', by omega⟩
  refine ⟨e, l1, l2, ?_, hl, ?_, hl2⟩
  · unfold calculateBestNode
    simp only [hpass, he]
  · intro y hy
    have hy' : y ∈ l1 ++ e :: l2 := hl ▸ (hperm _).mem_iff.2 hy
    rcases List.mem_append.1 hy' with h | h
    · exact hl1 y h
    · rcases List.mem_cons.1 h with rfl | h
      · exact le_refl _
      · exact le_of_lt (hl2 y h)

/-- C4 at a concrete input: the wrapper `div` with three paragraphs of stop-word
counts 3, 10 and 4, the set listed in the reverse of the insertion order. -/
theorem calculateBestNode_returns_last_maximum_witness :
    ∃ st, scoringPass demoStopWords (threeParagraphs "eee" "eeeeeeeeee" "eeee") = .ok st ∧
      st.parentNodes ≠ [] ∧
      ∃ e before after,
        calculateBestNode demoStopWords List.reverse
          (threeParagraphs "eee" "eeeeeeeeee" "eeee") = .ok (st.doc, some e) ∧
        List.reverse st.parentNodes = before ++ e :: after ∧
        (∀ x ∈ st.parentNodes, getScore st.doc x ≤ getScore st.doc e) ∧
        (∀ x ∈ after, getScore st.doc x < getScore st.doc e) :=
  ⟨_, rfl, by decide,
    calculateBestNode_returns_last_maximum demoStopWords List.reverse
      (threeParagraphs "eee" "eeeeeeeeee" "eeee") _ (fun l => List.reverse_perm l)
      (fun _ => rfl) rfl (by decide)⟩

/-! ## C5: when `calculateBestNode` returns `nil` -/

theorem mem_nodesToCheck (doc : Document) (node : Selection) :
    node ∈ nodesToCheck doc ↔ ∃ p, node = [.inDoc p] ∧ IsCandidateElement doc p := by
  unfold nodesToCheck IsCandidateElement
  simp only [List.mem_flatMap, List.mem_map, Find, mem_mapNodes, List.mem_singleton,
    exists_eq_left, findNode, Node.get?, List.mem_filter, decide_eq_true_eq, List.mem_cons,
    List.not_mem_nil, or_false, Prod.exists]
  constructor
  · rintro ⟨tag, htag, r, ⟨q, n, ⟨hmem, hty, hdata⟩, rfl⟩, rfl⟩
    refine ⟨q, rfl, n, hmem, hty, ?_⟩
    rcases htag with rfl | rfl | rfl
    · exact Or.inl hdata
    · exact Or.inr (Or.inl hdata)
    · exact Or.inr (Or.inr hdata)
  · rintro ⟨q, rfl, n, hmem, hty, hdata⟩
    rcases hdata with h | h | h
    · exact ⟨"p", Or.inl rfl, _, ⟨q, n, ⟨hmem, hty, h⟩, rfl⟩, rfl⟩
    · exact ⟨"pre", Or.inr (Or.inl rfl), _, ⟨q, n, ⟨hmem, hty, h⟩, rfl⟩, rfl⟩
    · exact ⟨"td", Or.inr (Or.inr rfl), _, ⟨q, n, ⟨hmem, hty, h⟩, rfl⟩, rfl⟩

/-- C5.  On a document in which every `p`, `pre` and `td` element has a parent
element and a grandparent element (as in every parsed document, where they lie
below `body`), `calculateBestNode` does not panic, and it returns `nil` if and only
if no `p`, `pre` or `td` element of the document has both a stop-word count
strictly greater than 2 and not-high link density. -/
theorem calculateBestNode_nil_iff (sw : String → Int)
    (listOrder : List Selection → List Selection) (doc : Document)
    (hperm : ∀ l, (listOrder l).Perm l)
    (hwf : ∀ node ∈ nodesToCheck doc,
      Parent doc node ≠ [] ∧ Parent doc (Parent doc node) ≠ []) :
    ∃ doc' top, calculateBestNode sw listOrder doc = .ok (doc', top) ∧
      (top = none ↔ ∀ p, IsCandidateElement doc p →
        ¬ (2 < sw (Text doc [.inDoc p]) ∧ isHighLinkDensity doc [.inDoc p] = false)) := by
  obtain ⟨st, hst⟩ := scoreLoop_ok sw ((nodesWithText sw doc).length : Int) 0
    (((nodesWithText sw doc).length : Int) * (1 / 4)) doc (nodesWithText sw doc)
    (initialState doc) (SameTree.refl doc)
    (fun node hn => hwf node ((mem_nodesWithText sw doc node).1 hn).1)
  obtain ⟨_, _, _, _, hpn, _⟩ :=
    scoreLoop_inv sw _ 0 _ doc _ (initialState doc) st (SameTree.refl doc) hst
  refine ⟨st.doc, topNodeLoop st.doc (listOrder st.parentNodes) none 0, ?_, ?_⟩
  · unfold calculateBestNode
    rw [scoringPass_eq, hst]
  · rw [topNodeLoop_eq_none]
    simp only [and_true]
    have h1 : listOrder st.parentNodes = [] ↔ nodesWithText sw doc = [] := by
      rw [← List.length_eq_zero, (hperm _).length_eq, hpn]
      cases nodesWithText sw doc <;> simp [initialState]
    rw [h1, List.eq_nil_iff_forall_not_mem]
    constructor
    · intro h p hp hq
      exact h [.inDoc p] ((mem_nodesWithText sw doc _).2
        ⟨(mem_nodesToCheck doc _).2 ⟨p, rfl, hp⟩, hq.1, hq.2⟩)
    · intro h node hn
      obtain ⟨hc, h2, h3⟩ := (mem_nodesWithText sw doc node).1 hn
      obtain ⟨p, rfl, hp⟩ := (mem_nodesToCheck doc node).1 hc
      exact h p hp ⟨h2, h3⟩

/-- C5 at a concrete input: the wrapper `div` with three paragraphs. -/
theorem calculateBestNode_nil_iff_witness :
    ∃ doc' top, calculateBestNode demoStopWords id (threeParagraphs "eee" "eeeeeeeeee" "eeee") =
        .ok (doc', top) ∧
      (top = none ↔ ∀ p, IsCandidateElement (threeParagraphs "eee" "eeeeeeeeee" "eeee") p →
        ¬ (2 < demoStopWords (Text (threeParagraphs "eee" "eeeeeeeeee" "eeee") [.inDoc p]) ∧
          isHighLinkDensity (threeParagraphs "eee" "eeeeeeeeee" "eeee") [.inDoc p] = false)) :=
  calculateBestNode_nil_iff demoStopWords id (threeParagraphs "eee" "eeeeeeeeee" "eeee")
    (fun l => List.Perm.refl l) (by decide)

/-! ## C3: link density -/

theorem splitChars_length_pos (sep : Char) (cs : List Char) : 1 ≤ (splitChars sep cs).length := by
  induction cs with
  | nil => simp [splitChars]
  | cons c rest ih =>
    unfold splitChars
    split
    · simp
    · split <;> simp

theorem nwordsOf_pos (text : String) : 1 ≤ nwordsOf text := by
  unfold nwordsOf stringsSplit
  rw [List.length_map]
  exact splitChars_length_pos _ _

theorem splitChars_length (sep : Char) (cs : List Char) :
    (splitChars sep cs).length = cs.count sep + 1 := by
  induction cs with
  | nil => rfl
  | cons c rest ih =>
    unfold splitChars
    by_cases h : c = sep
    · subst h
      simp [ih]
    · rw [if_neg h]
      have hc : (c :: rest).count sep = rest.count sep := by
        rw [List.count_cons]
        simp [h]
      cases hs : splitChars sep rest with
      | nil => rw [hs] at ih; simp at ih
      | cons w ws =>
        rw [hs] at ih
        simp only [List.length_cons] at ih ⊢
        omega

/-- The number of words that `isHighLinkDensity` counts in a text: one more than the number of
its space characters. -/
theorem nwordsOf_eq (text : String) : nwordsOf text = text.data.count ' ' + 1 := by
  unfold nwordsOf stringsSplit
  rw [List.length_map, splitChars_length]

theorem foldl_append_eq (l : List String) :
    ∀ acc : String, l.foldl (fun r s => r ++ s) acc = acc ++ l.foldl (fun r s => r ++ s) "" := by
  induction l with
  | nil => intro acc; simp
  | cons x rest ih =>
    intro acc
    rw [List.foldl_cons, List.foldl_cons, ih (acc ++ x), ih ("" ++ x)]
    simp [String.append_assoc]

/-- The text `strings.Join(sb, "")` of `isHighLinkDensity` is the concatenation of the texts of
the links. -/
theorem stringsJoin_eq_concatenatedText (doc : Document) (links : List NodeRef) :
    stringsJoin (links.map (fun s => Text doc [s])) = concatenatedText doc links := by
  induction links with
  | nil => rfl
  | cons x rest ih =>
    rw [concatenatedText, ← ih]
    unfold stringsJoin String.join
    rw [List.map_cons, List.foldl_cons, foldl_append_eq]
    simp

/-- C3.  `isHighLinkDensity` is false for a node without links.  For a node with
links it is true exactly when `(L / W) * A > 1`, strictly, where `W` is the number of
words of the text of the node, `L` the number of words of the concatenation of the texts of
its links (the texts one after the other, nothing between them) and `A` the number of links;
`W` is at least 1.  In whole numbers the test
is `W < L * A`; so with `L / W = 1 / 2` the node is high-density for `A = 3` and not
for `A = 2`.  The words of a text are the pieces that `strings.Split(text, " ")` gives: one
more than the spaces of the text. -/
theorem isHighLinkDensity_iff (doc : Document) (node : Selection) :
    let links := Find doc node "a"
    let W := nwordsOf (Text doc node)
    let L := nwordsOf (concatenatedText doc links)
    let A := links.length
    1 ≤ W ∧
    (A = 0 → isHighLinkDensity doc node = false) ∧
    (A ≠ 0 → (isHighLinkDensity doc node = true ↔ ((L : ℚ) / (W : ℚ)) * (A : ℚ) > 1)) ∧
    (isHighLinkDensity doc node = true ↔ A ≠ 0 ∧ W < L * A) ∧
    (A = 3 → 2 * L = W → isHighLinkDensity doc node = true) ∧
    (A = 2 → 2 * L = W → isHighLinkDensity doc node = false) ∧
    W = (Text doc node).data.count ' ' + 1 ∧
    L = (concatenatedText doc links).data.count ' ' + 1 := by
  intro links W L A
  have hW : 1 ≤ W := nwordsOf_pos _
  have hWq : (0 : ℚ) < (W : ℚ) := by exact_mod_cast hW
  have hdef : isHighLinkDensity doc node =
      if A = 0 then false else if ((L : ℚ) / (W : ℚ)) * (A : ℚ) > 1 then true else false := by
    show _ = if A = 0 then false
      else if ((nwordsOf (concatenatedText doc links) : ℚ) / (W : ℚ)) * (A : ℚ) > 1 then true
      else false
    rw [← stringsJoin_eq_concatenatedText]
    rfl
  have hint : ((L : ℚ) / (W : ℚ)) * (A : ℚ) > 1 ↔ W < L * A := by
    rw [gt_iff_lt, div_mul_eq_mul_div, lt_div_iff₀ hWq, one_mul]
    exact_mod_cast Iff.rfl
  have hiff : isHighLinkDensity doc node = true ↔ A ≠ 0 ∧ W < L * A := by
    rw [hdef, ← hint]
    by_cases hA : A = 0
    · simp [hA]
    · simp [hA]
  refine ⟨hW, ?_, ?_, hiff, ?_, ?_, nwordsOf_eq _, nwordsOf_eq _⟩
  · intro hA
    rw [hdef, if_pos hA]
  · intro hA
    rw [hiff, hint]
    simp [hA]
  · intro hA hL
    rw [hiff]
    exact ⟨by omega, by rw [hA]; omega⟩
  · intro hA hL
    rw [← Bool.not_eq_true, hiff]
    rintro ⟨_, h⟩
    rw [hA] at h
    omega

/-- C3 at concrete inputs.  A block with the three links `x y`, `z`, `w` and the text
`x yzw p q`: `W = 4`, the concatenation of the texts of the links is `x yzw`, so `L = 2`, and
with `A = 3` the block is high-density (score 1.5).  A block with the two links `x y`, `z` and
the text `x yz p q`: `W = 4`, `L = 2`, and with `A = 2` it is not high-density (score exactly
1). -/
theorem isHighLinkDensity_iff_witness :
    Find threeLinks [.inDoc [0, 1, 0]] "a" =
      [.inDoc [0, 1, 0, 0], .inDoc [0, 1, 0, 1], .inDoc [0, 1, 0, 2]] ∧
    Text threeLinks [.inDoc [0, 1, 0]] = "x yzw p q" ∧
    nwordsOf (Text threeLinks [.inDoc [0, 1, 0]]) = 4 ∧
    concatenatedText threeLinks (Find threeLinks [.inDoc [0, 1, 0]] "a") = "x yzw" ∧
    nwordsOf (concatenatedText threeLinks (Find threeLinks [.inDoc [0, 1, 0]] "a")) = 2 ∧
    isHighLinkDensity threeLinks [.inDoc [0, 1, 0]] = true ∧
    Find twoLinks [.inDoc [0, 1, 0]] "a" = [.inDoc [0, 1, 0, 0], .inDoc [0, 1, 0, 1]] ∧
    Text twoLinks [.inDoc [0, 1, 0]] = "x yz p q" ∧
    nwordsOf (Text twoLinks [.inDoc [0, 1, 0]]) = 4 ∧
    concatenatedText twoLinks (Find twoLinks [.inDoc [0, 1, 0]] "a") = "x yz" ∧
    nwordsOf (concatenatedText twoLinks (Find twoLinks [.inDoc [0, 1, 0]] "a")) = 2 ∧
    isHighLinkDensity twoLinks [.inDoc [0, 1, 0]] = false :=
  ⟨by decide, by decide, by decide, by decide, by decide,
   (isHighLinkDensity_iff threeLinks [.inDoc [0, 1, 0]]).2.2.2.2.1 (by decide) (by decide),
   by decide, by decide, by decide, by decide, by decide,
   (isHighLinkDensity_iff twoLinks [.inDoc [0, 1, 0]]).2.2.2.2.2.1 (by decide) (by decide)⟩

/-! ## C10: the boostability test -/

theorem isBoostableLoop_iff (sw : String → Int) (doc : Document) (l : List NodeRef) :
    ∀ k, isBoostableLoop sw doc l k = true ↔
      ∃ s ∈ (l.filter (fun s => atomOf doc s = "p")).take (3 - k), 5 < sw (Text doc [s]) := by
  induction l with
  | nil => intro k; simp [isBoostableLoop]
  | cons s rest ih =>
    intro k
    unfold isBoostableLoop
    by_cases hp : atomOf doc s = "p"
    · simp only [hp, if_true, List.filter_cons, decide_True]
      by_cases hk : k ≥ 3
      · have : 3 - k = 0 := by omega
        simp [hk, this]
      · obtain ⟨m, hm⟩ : ∃ m, 3 - k = m + 1 := ⟨2 - k, by omega⟩
        have hm' : 3 - (k + 1) = m := by omega
        simp only [hk, if_false, hm, List.take_succ_cons, List.mem_cons, exists_eq_or_imp]
        by_cases hs : sw (Text doc [s]) > 5
        · simp [hs]
        · rw [if_neg hs, ih (k + 1), hm']
          simp [show ¬ 5 < sw (Text doc [s]) from hs]
    · simp only [hp, if_false, List.filter_cons, decide_False]
      exact ih k

/-- C10.  `isBoostable` is true if and only if at least one of the first three
paragraph-tagged siblings of the node, in the order `Siblings()` lists them, has a
stop-word count strictly greater than 5.  Siblings with another tag are skipped and
do not count toward the three. -/
theorem isBoostable_iff (sw : String → Int) (doc : Document) (node : Selection) :
    isBoostable sw doc node = true ↔
      ∃ s ∈ ((Siblings doc node).filter (fun s => atomOf doc s = "p")).take 3,
        5 < sw (Text doc [s]) := by
  unfold isBoostable
  exact isBoostableLoop_iff sw doc _ 0

/-! ## The rounds of the scoring pass -/

theorem expectedRounds_getElem? (sw : String → Int) (doc : Document) (n neg : Int) (bottom : ℚ)
    (l : List Selection) :
    ∀ (sb : ℚ) (cnt i : Int) (j : Nat), 0 ≤ cnt →
      (expectedRounds sw doc n neg bottom sb cnt i l)[j]? =
        (l[j]?).map (fun node =>
          { node := node,
            boostScore := (boostOf (isBoostable sw doc node) n neg bottom
              (sb + (((l.take j).filter (fun x => isBoostable sw doc x)).length : ℚ))
              (cnt + j) (i + j)).1,
            upScore := sw (Text doc node) + truncToInt (boostOf (isBoostable sw doc node) n neg
              bottom (sb + (((l.take j).filter (fun x => isBoostable sw doc x)).length : ℚ))
              (cnt + j) (i + j)).1,
            parentNode := Parent doc node,
            parentParentNode := Parent doc (Parent doc node) }) := by
  induction l with
  | nil => intro sb cnt i j _; simp [expectedRounds]
  | cons node rest ih =>
    intro sb cnt i j hc
    cases j with
    | zero => simp [expectedRounds]
    | succ j =>
      simp only [expectedRounds, List.getElem?_cons_succ, List.take_succ_cons]
      rw [ih _ _ _ j (by omega), boostOf_snd]
      have e1 : cnt + 1 + (j : Int) = cnt + ((j + 1 : Nat) : Int) := by push_cast; ring
      have e2 : i + 1 + (j : Int) = i + ((j + 1 : Nat) : Int) := by push_cast; ring
      have e3 : (if isBoostable sw doc node = true ∧ 0 ≤ cnt then sb + 1 else sb) +
          (((rest.take j).filter (fun x => isBoostable sw doc x)).length : ℚ) =
          sb + ((((node :: rest.take j)).filter (fun x => isBoostable sw doc x)).length : ℚ) := by
        by_cases hb : isBoostable sw doc node = true
        · simp [hb, hc, List.filter_cons]; ring
        · simp [hb, List.filter_cons]
      rw [e1, e2, e3]

/-- The record of round `j` of the scoring pass: the candidate is the member `j`
of `nodesWithText`, `boostScore` is computed with `i = cnt = j` and `startingBoost`
one more than the number of boostable candidates before it, `upScore` is the
stop-word count plus `int(boostScore)`, and the nodes are the parent and the
grandparent of the candidate. -/
theorem scoringPass_round (sw : String → Int) (doc : Document) (st : ScoreState)
    (hpass : scoringPass sw doc = .ok st) (j : Nat) (r : Round) (hr : st.rounds[j]? = some r) :
    (nodesWithText sw doc)[j]? = some r.node ∧
    r.boostScore = (boostOf (isBoostable sw doc r.node) ((nodesWithText sw doc).length : Int) 0
      (((nodesWithText sw doc).length : Int) * (1 / 4))
      (1 + (boostableBefore sw doc j : ℚ)) j j).1 ∧
    r.upScore = sw (Text doc r.node) + truncToInt r.boostScore ∧
    r.parentNode = Parent doc r.node ∧
    r.parentParentNode = Parent doc (Parent doc r.node) := by
  rw [scoringPass_eq] at hpass
  obtain ⟨_, _, _, hrounds, _, _⟩ :=
    scoreLoop_inv sw _ 0 _ doc _ (initialState doc) st (SameTree.refl doc) hpass
  rw [hrounds] at hr
  simp only [initialState, List.nil_append] at hr
  rw [expectedRounds_getElem? sw doc _ 0 _ _ 1 0 0 j (le_refl 0)] at hr
  cases hn : (nodesWithText sw doc)[j]? with
  | none => rw [hn] at hr; simp at hr
  | some node =>
    rw [hn] at hr
    simp only [Option.map_some', Option.some.injEq, zero_add] at hr
    subst hr
    exact ⟨rfl, rfl, rfl, rfl, rfl⟩

theorem expectedRounds_length (sw : String → Int) (doc : Document) (n neg : Int) (bottom : ℚ)
    (l : List Selection) :
    ∀ (sb : ℚ) (cnt i : Int), (expectedRounds sw doc n neg bottom sb cnt i l).length = l.length := by
  induction l with
  | nil => intro sb cnt i; rfl
  | cons node rest ih =>
    intro sb cnt i
    simp only [expectedRounds, List.length_cons, ih]

/-- The scoring pass records one round for every candidate. -/
theorem scoringPass_rounds_length (sw : String → Int) (doc : Document) (st : ScoreState)
    (hpass : scoringPass sw doc = .ok st) :
    st.rounds.length = (nodesWithText sw doc).length := by
  rw [scoringPass_eq] at hpass
  obtain ⟨_, _, _, hrounds, _, _⟩ :=
    scoreLoop_inv sw _ 0 _ doc _ (initialState doc) st (SameTree.refl doc) hpass
  rw [hrounds, List.length_append, expectedRounds_length]
  simp [initialState]

theorem boostableBefore_succ (sw : String → Int) (doc : Document) (j : Nat) (node : Selection)
    (h : (nodesWithText sw doc)[j]? = some node) :
    boostableBefore sw doc (j + 1) =
      boostableBefore sw doc j + if isBoostable sw doc node = true then 1 else 0 := by
  unfold boostableBefore
  rw [List.take_succ, h]
  by_cases hb : isBoostable sw doc node = true <;> simp [hb, List.filter_append]

theorem boostableBefore_mono (sw : String → Int) (doc : Document) (a b : Nat) (h : a ≤ b) :
    boostableBefore sw doc a ≤ boostableBefore sw doc b := by
  unfold boostableBefore
  exact ((List.take_sublist_take_left _ h).filter _).length_le

theorem truncToInt_fifty_div (k : Nat) : truncToInt ((50 : ℚ) / (k : ℚ)) = (50 : Int) / (k : Int) := by
  unfold truncToInt
  rw [if_pos (by positivity)]
  have := Rat.floor_intCast_div_natCast 50 k
  simpa using this

/-- The value `boostScore` of a round outside the decaying tail: `50 / k` for the
`k`-th boostable candidate, `0` for a candidate that is not boostable. -/
theorem round_boost_outside_tail (sw : String → Int) (doc : Document) (st : ScoreState)
    (hpass : scoringPass sw doc = .ok st) (j : Nat) (r : Round) (hr : st.rounds[j]? = some r)
    (hout : ¬ inTail ((nodesWithText sw doc).length : Int) j) :
    (isBoostable sw doc r.node = true →
      1 ≤ boostableBefore sw doc (j + 1) ∧
      boostableBefore sw doc (j + 1) = boostableBefore sw doc j + 1 ∧
      r.boostScore = 50 / (boostableBefore sw doc (j + 1) : ℚ)) ∧
    (isBoostable sw doc r.node = false → r.boostScore = 0) := by
  obtain ⟨hnode, hboost, _, _, _⟩ := scoringPass_round sw doc st hpass j r hr
  have hsucc := boostableBefore_succ sw doc j r.node hnode
  rw [boostOf_fst_outside _ _ _ _ _ _ _ hout] at hboost
  constructor
  · intro hb
    rw [if_pos hb] at hsucc
    refine ⟨by omega, hsucc, ?_⟩
    rw [hboost, hsucc]
    simp only [hb, Nat.cast_nonneg, and_self, if_true]
    push_cast
    rw [one_div, add_comm, inv_mul_eq_div]
  · intro hb
    rw [hboost]
    simp [hb]

/-- The value `boostScore` of a round in the decaying tail: with
`booster = 0.25 * n - (n - j)` it is `5` when `booster ^ 2 > 40` and `-(booster ^ 2)`
otherwise.  The decays of the earlier rounds do not enter: `negativeScoring` is `0`
in every round. -/
theorem round_boost_in_tail (sw : String → Int) (doc : Document) (st : ScoreState)
    (hpass : scoringPass sw doc = .ok st) (j : Nat) (r : Round) (hr : st.rounds[j]? = some r)
    (hin : inTail ((nodesWithText sw doc).length : Int) j) :
    r.boostScore =
      if ((((nodesWithText sw doc).length : Int) : ℚ) * (1 / 4) -
          (((nodesWithText sw doc).length : Int) - (j : Int) : Int)) ^ 2 > 40 then 5
      else -((((nodesWithText sw doc).length : Int) : ℚ) * (1 / 4) -
          (((nodesWithText sw doc).length : Int) - (j : Int) : Int)) ^ 2 := by
  obtain ⟨_, hboost, _, _, _⟩ := scoringPass_round sw doc st hpass j r hr
  rw [boostOf_fst_tail _ _ _ _ _ _ _ hin] at hboost
  rw [hboost, abs_neg, abs_of_nonneg (sq_nonneg _)]
  simp

/-! ## C9: the boost of the boostable candidates -/

/-- C9.  In the scoring pass, a candidate at position `j` outside the decaying
tail that is boostable, the `k`-th boostable candidate (counting every boostable
candidate up to and including it), receives `boostScore = 50 / k`, whose integer
part `int(boostScore)` is the quotient `50 / k` (50, 25 and 16 for `k = 1, 2, 3`); a
candidate outside the tail that is not boostable receives `boostScore = 0`; and a
later boostable candidate outside the tail receives a strictly smaller `boostScore`
than an earlier one. -/
theorem boostScore_outside_tail (sw : String → Int) (doc : Document) (st : ScoreState)
    (hpass : scoringPass sw doc = .ok st) (j : Nat) (r : Round) (hr : st.rounds[j]? = some r)
    (hout : ¬ inTail ((nodesWithText sw doc).length : Int) j) :
    let k := boostableBefore sw doc (j + 1)
    (isBoostable sw doc r.node = true →
      1 ≤ k ∧ r.boostScore = 50 / (k : ℚ) ∧ truncToInt r.boostScore = 50 / (k : Int) ∧
      (k = 1 → truncToInt r.boostScore = 50) ∧ (k = 2 → truncToInt r.boostScore = 25) ∧
      (k = 3 → truncToInt r.boostScore = 16)) ∧
    (isBoostable sw doc r.node = false → r.boostScore = 0) ∧
    (∀ j' r', j < j' → st.rounds[j']? = some r' →
      ¬ inTail ((nodesWithText sw doc).length : Int) j' →
      isBoostable sw doc r.node = true → isBoostable sw doc r'.node = true →
      r'.boostScore < r.boostScore) := by
  intro k
  have key := round_boost_outside_tail sw doc st hpass
  obtain ⟨h1, h2⟩ := key j r hr hout
  refine ⟨?_, h2, ?_⟩
  · intro hb
    obtain ⟨hk, _, hval⟩ := h1 hb
    have htr : truncToInt r.boostScore = 50 / (k : Int) := by
      rw [hval]; exact truncToInt_fifty_div _
    refine ⟨hk, hval, htr, ?_, ?_, ?_⟩
    · intro h; rw [htr, h]; rfl
    · intro h; rw [htr, h]; rfl
    · intro h; rw [htr, h]; rfl
  · intro j' r' hjj hr' hout' hb hb'
    obtain ⟨hk, _, hval⟩ := h1 hb
    obtain ⟨_, hsucc', hval'⟩ := (key j' r' hr' hout').1 hb'
    have hmono := boostableBefore_mono sw doc (j + 1) j' (by omega)
    rw [hval, hval']
    have hkq : (0 : ℚ) < (boostableBefore sw doc (j + 1) : ℚ) := by exact_mod_cast hk
    have hlt : (boostableBefore sw doc (j + 1) : ℚ) < (boostableBefore sw doc (j' + 1) : ℚ) := by
      exact_mod_cast (by omega : boostableBefore sw doc (j + 1) < boostableBefore sw doc (j' + 1))
    exact div_lt_div_of_pos_left (by norm_num) hkq hlt

/-- C9 at a concrete input: the third paragraph of the wrapper `div` with counts
3, 10 and 4 is the second boostable candidate and receives `boostScore = 25`. -/
theorem boostScore_outside_tail_witness :
    ∃ st r, scoringPass demoStopWords (threeParagraphs "eee" "eeeeeeeeee" "eeee") = .ok st ∧
      st.rounds[2]? = some r ∧
      isBoostable demoStopWords (threeParagraphs "eee" "eeeeeeeeee" "eeee") r.node = true ∧
      boostableBefore demoStopWords (threeParagraphs "eee" "eeeeeeeeee" "eeee") 3 = 2 ∧
      r.boostScore = 50 / ((boostableBefore demoStopWords
        (threeParagraphs "eee" "eeeeeeeeee" "eeee") 3 : Nat) : ℚ) :=
  ⟨_, _, rfl, rfl, by decide, by decide,
    ((boostScore_outside_tail demoStopWords (threeParagraphs "eee" "eeeeeeeeee" "eeee") _ rfl 2 _
      rfl (by unfold inTail; decide)).1 (by decide)).2.1⟩

/-! ## C7: the floor of the tail decay -/

/-- C7 (code defect) at a concrete input: 24 candidates, all in the filtered
sequence.  The six candidates of the tail have the boosters 0, 1, 2, 3, 4, 5 and
receive the `boostScore` values 0, -1, -4, -9, -16 and -25.  The decays before the
last candidate total 30, and 30 + 25 > 40, but the last candidate receives -25 and
not +5.0: `negativeScoring` is declared as `0` and never added to. -/
theorem negativeScoring_never_accumulates :
    ((roundsOf (scoringPass demoStopWords (paragraphs 24))).map (fun r => r.boostScore)).drop 18 =
      [0, -1, -4, -9, -16, -25] := by
  decide!

/-! ## C8: where the tail decay applies -/

/-- C8 (counterexample): with 20 candidates, all boostable, the candidate at
position 15 (the 16th) is in the tail with booster 0 and receives `boostScore = 0`,
which is not strictly negative (and not its boost `50 / 16` either). -/
theorem tail_booster_zero_not_negative :
    ((roundsOf (scoringPass demoStopWords (paragraphs 20)))[15]?).map (fun r => r.boostScore) =
      some (0 : ℚ) := by
  decide!

/-- C8 (amended).  In the scoring pass over `n` candidates, when `n ≤ 15` every
candidate receives the value of the boost branch (`50 / k` for the `k`-th boostable
candidate, else `0`).  When `n = 20` the candidates at the positions 0..14 receive
the value of the boost branch only, the candidate at position 15 receives `0`
(booster 0; its boost is discarded), and the candidates at the positions 16, 17, 18
and 19 receive -1, -4, -9 and -16. -/
theorem tail_decay_only_above_fifteen (sw : String → Int) (doc : Document) (st : ScoreState)
    (hpass : scoringPass sw doc = .ok st) (j : Nat) (r : Round) (hr : st.rounds[j]? = some r) :
    let n := (nodesWithText sw doc).length
    let boostBranch : ℚ :=
      if isBoostable sw doc r.node = true then 50 / (boostableBefore sw doc (j + 1) : ℚ) else 0
    (n ≤ 15 → r.boostScore = boostBranch) ∧
    (n = 20 →
      (j < 15 → r.boostScore = boostBranch) ∧ (j = 15 → r.boostScore = 0) ∧
      (j = 16 → r.boostScore = -1) ∧ (j = 17 → r.boostScore = -4) ∧
      (j = 18 → r.boostScore = -9) ∧ (j = 19 → r.boostScore = -16)) := by
  intro n boostBranch
  have hbranch : ¬ inTail (n : Int) j → r.boostScore = boostBranch := by
    intro hout
    obtain ⟨h1, h2⟩ := round_boost_outside_tail sw doc st hpass j r hr hout
    by_cases hb : isBoostable sw doc r.node = true
    · simp only [boostBranch, hb, if_true]; exact (h1 hb).2.2
    · simp only [boostBranch, hb]; exact h2 (by simpa using hb)
  have htail : ∀ m : Int, n = 20 → (j : Int) = 15 + m → 0 ≤ m →
      r.boostScore = if (m : ℚ) ^ 2 > 40 then 5 else -(m : ℚ) ^ 2 := by
    intro m hn hj hm
    have hin : inTail (n : Int) j := by
      unfold inTail
      rw [hn, hj]
      constructor
      · norm_num
      · push_cast
        have : (0 : ℚ) ≤ (m : ℚ) := by exact_mod_cast hm
        linarith
    have h := round_boost_in_tail sw doc st hpass j r hr hin
    have e : (((n : Int) : ℚ) * (1 / 4) - (((n : Int) - (j : Int) : Int) : ℚ)) = (m : ℚ) := by
      rw [hn, hj]; push_cast; ring
    rw [e] at h
    exact h
  refine ⟨?_, ?_⟩
  · intro hn
    apply hbranch
    unfold inTail
    rintro ⟨h, _⟩
    omega
  · intro hn
    refine ⟨?_, ?_, ?_, ?_, ?_, ?_⟩
    · intro hj
      apply hbranch
      unfold inTail
      rintro ⟨_, h⟩
      rw [hn] at h
      have : (j : ℚ) < 15 := by exact_mod_cast hj
      push_cast at h
      linarith
    · intro hj
      have h := htail 0 hn (by omega) (le_refl 0)
      norm_num at h
      exact h
    · intro hj
      have h := htail 1 hn (by omega) (by norm_num)
      norm_num at h
      exact h
    · intro hj
      have h := htail 2 hn (by omega) (by norm_num)
      norm_num at h
      exact h
    · intro hj
      have h := htail 3 hn (by omega) (by norm_num)
      norm_num at h
      exact h
    · intro hj
      have h := htail 4 hn (by omega) (by norm_num)
      norm_num at h
      exact h

/-- C8 (amended) at a concrete input: of 20 boostable candidates the one at
position 16 receives `boostScore = -1`. -/
theorem tail_decay_only_above_fifteen_witness :
    ∃ st r, scoringPass demoStopWords (paragraphs 20) = .ok st ∧ st.rounds[16]? = some r ∧
      (nodesWithText demoStopWords (paragraphs 20)).length = 20 ∧ r.boostScore = (-1 : ℚ) :=
  ⟨_, _, rfl, rfl, by decide,
    ((tail_decay_only_above_fifteen demoStopWords (paragraphs 20) _ rfl 16 _ rfl).2
      (by decide)).2.2.1 rfl⟩

/-! ## C6: the scores during one pass -/

theorem firstAmount_nonneg (calls : List (Selection × Int)) (r : NodeRef)
    (h : ∀ c ∈ calls, 0 ≤ c.2) : 0 ≤ firstAmount calls r := by
  induction calls with
  | nil => exact le_refl 0
  | cons c rest ih =>
    obtain ⟨s, a⟩ := c
    unfold firstAmount
    split
    · exact h (s, a) (by simp)
    · exact ih (fun c hc => h c (List.mem_cons_of_mem _ hc))

theorem tdiv_two_pos (a : Int) (h : 3 ≤ a) : 1 ≤ a.tdiv 2 := by
  rw [Int.tdiv_eq_ediv (by omega) (by norm_num)]
  omega

/-- The amounts of the rounds before the decaying tail are at least 3. -/
theorem expectedRounds_upScore (sw : String → Int) (doc : Document) (n : Int) (l : List Selection) :
    ∀ (sb : ℚ) (cnt : Int) (i : Nat), 0 < sb → 0 ≤ cnt →
      (∀ node ∈ l, 2 < sw (Text doc node)) →
      (∀ j, j < i + l.length → ¬ inTail n j) →
      ∀ r ∈ expectedRounds sw doc n 0 ((n : ℚ) * (1 / 4)) sb cnt (i : Int) l, 3 ≤ r.upScore := by
  induction l with
  | nil => intro sb cnt i _ _ _ _ r hr; simp [expectedRounds] at hr
  | cons node rest ih =>
    intro sb cnt i hsb hcnt hsw hout r hr
    simp only [expectedRounds, List.mem_cons] at hr
    have hb := boostOf_fst_outside (isBoostable sw doc node) n 0 ((n : ℚ) * (1 / 4)) sb cnt
      (i : Int) (hout i (by simp))
    rcases hr with rfl | hr
    · simp only
      rw [hb]
      have hnn : (0 : ℚ) ≤ if isBoostable sw doc node = true ∧ 0 ≤ cnt then (1 / sb) * 50
          else 0 := by
        split
        · positivity
        · exact le_refl 0
      have h1 := truncToInt_nonneg _ hnn
      have h2 := hsw node (by simp)
      omega
    · have hsb' : 0 < (boostOf (isBoostable sw doc node) n 0 ((n : ℚ) * (1 / 4)) sb cnt
          (i : Int)).2 := by
        rw [boostOf_snd]
        split <;> linarith
      have hi : ((i : Int) + 1) = ((i + 1 : Nat) : Int) := by push_cast; rfl
      rw [hi] at hr
      exact ih _ (cnt + 1) (i + 1) hsb' (by omega)
        (fun x hx => hsw x (List.mem_cons_of_mem _ hx))
        (fun j hj => hout j (by simp only [List.length_cons]; omega)) r hr

theorem hasScore_of_no_attr (doc : Document) (hattr : ∀ p, hasScore doc (.inDoc p) = false)
    (r : NodeRef) : hasScore doc r = false := by
  cases r with
  | inDoc p => exact hattr p
  | synthesized t => rfl

theorem calls_nonneg (rounds : List Round) (h : ∀ r ∈ rounds, 3 ≤ r.upScore) :
    ∀ c ∈ rounds.flatMap Round.calls, 0 ≤ c.2 := by
  intro c hc
  obtain ⟨r, hr, hcr⟩ := List.mem_flatMap.1 hc
  have h3 := h r hr
  have h1 := tdiv_two_pos _ h3
  simp only [Round.calls, List.mem_cons, List.mem_singleton, List.not_mem_nil, or_false] at hcr
  rcases hcr with rfl | rfl
  · simp only; omega
  · simp only; omega

/-- C6 (counterexample): 20 candidates of stop-word count 3, the last one alone below its
`div`.  The candidates at the positions 15 to 19 are in the tail and have the `boostScore` 0,
-1, -4, -9 and -16.  The decays sum to 30, which is not above 40, so the floor of lines
263-266 plays no part, whether the earlier decays are added to the last one or not.  The
`upScore` of the last candidate is 3 - 16 = -13, and this is the first amount for its parent:
the `gravityScore` of the parent goes from absent (0) to -13, it decreases and it is
negative. -/
theorem gravityScore_can_be_negative :
    ((roundsOf (scoringPass demoStopWords lateParagraph)).map (fun r => r.boostScore)).drop 15 =
      [0, -1, -4, -9, -16] ∧
    ((roundsOf (scoringPass demoStopWords lateParagraph))[19]?).map
      (fun r => (r.parentNode, r.upScore)) = some ([.inDoc [0, 1, 1]], -13) ∧
    finalScore (scoringPass demoStopWords lateParagraph) [.inDoc [0, 1, 1]] = some (-13) := by
  decide!

/-- C6 (amended).  While the scoring pass is before the decaying tail (always,
when there are at most 15 candidates), on a document whose nodes start without
`gravityScore`: every amount `updateScore` is called with is positive (at least 3
for the parent and at least 1 for the grandparent), no node has a negative score at
any point `st1` of the pass, and no score is smaller at a later point `st2`. -/
theorem gravityScore_monotone_before_tail (sw : String → Int) (doc : Document)
    (pre mid post : List Selection) (st1 st2 : ScoreState)
    (hsplit : nodesWithText sw doc = pre ++ mid ++ post)
    (hattr : ∀ p, hasScore doc (.inDoc p) = false)
    (hout : ∀ j, j < (pre ++ mid).length → ¬ inTail ((nodesWithText sw doc).length : Int) j)
    (h1 : scoreLoop sw ((nodesWithText sw doc).length : Int) 0
      (((nodesWithText sw doc).length : Int) * (1 / 4)) (initialState doc) pre = .ok st1)
    (h2 : scoreLoop sw ((nodesWithText sw doc).length : Int) 0
      (((nodesWithText sw doc).length : Int) * (1 / 4)) st1 mid = .ok st2) :
    (∀ r ∈ st2.rounds, 3 ≤ r.upScore ∧ 1 ≤ r.upScore.tdiv 2) ∧
    (∀ s, 0 ≤ getScore st1.doc s ∧ getScore st1.doc s ≤ getScore st2.doc s) := by
  obtain ⟨hs1, hi1, hc1, hr1, _, hb1⟩ :=
    scoreLoop_inv sw _ 0 _ doc _ (initialState doc) st1 (SameTree.refl doc) h1
  obtain ⟨_, _, _, hr2, _, _⟩ := scoreLoop_inv sw _ 0 _ doc _ st1 st2 hs1 h2
  have hsw : ∀ node ∈ pre ++ mid, 2 < sw (Text doc node) := by
    intro node hn
    have hm : node ∈ nodesWithText sw doc := by
      rw [hsplit]
      exact List.mem_append_left _ hn
    exact ((mem_nodesWithText sw doc node).1 hm).2.1
  have hpre : ∀ r ∈ expectedRounds sw doc ((nodesWithText sw doc).length : Int) 0
      (((nodesWithText sw doc).length : Int) * (1 / 4)) 1 0 ((0 : Nat) : Int) pre,
      3 ≤ r.upScore :=
    expectedRounds_upScore sw doc _ pre 1 0 0 (by norm_num) (le_refl 0)
      (fun x hx => hsw x (List.mem_append_left _ hx))
      (fun j hj => hout j (by rw [List.length_append]; omega))
  have hsb : (0 : ℚ) < st1.startingBoost := by
    rw [hb1 (le_refl 0)]
    simp only [initialState]
    positivity
  have hmid : ∀ r ∈ expectedRounds sw doc ((nodesWithText sw doc).length : Int) 0
      (((nodesWithText sw doc).length : Int) * (1 / 4)) st1.startingBoost st1.cnt
      ((pre.length : Nat) : Int) mid, 3 ≤ r.upScore :=
    expectedRounds_upScore sw doc _ mid st1.startingBoost st1.cnt pre.length hsb
      (by rw [hc1]; simp [initialState])
      (fun x hx => hsw x (List.mem_append_right _ hx))
      (fun j hj => hout j (by rw [List.length_append]; omega))
  have hi1' : st1.i = ((pre.length : Nat) : Int) := by rw [hi1]; simp [initialState]
  simp only [initialState, List.nil_append] at hr1
  rw [hi1'] at hr2
  refine ⟨?_, ?_⟩
  · intro r hr
    rw [hr2, hr1] at hr
    have h3 : 3 ≤ r.upScore := by
      rcases List.mem_append.1 hr with h | h
      · exact hpre r (by simpa using h)
      · exact hmid r h
    exact ⟨h3, tdiv_two_pos _ h3⟩
  · have hsc1 := scoreLoop_scoreOf sw _ 0 _ doc _ (initialState doc) st1 (SameTree.refl doc) h1
    have hsc2 := scoreLoop_scoreOf sw _ 0 _ doc _ st1 st2 hs1 h2
    have key : ∀ r, 0 ≤ scoreOf st1.doc r ∧ scoreOf st1.doc r ≤ scoreOf st2.doc r := by
      intro r
      have h0 : hasScore (initialState doc).doc r = false := hasScore_of_no_attr doc hattr r
      have ha : 0 ≤ scoreOf st1.doc r := by
        rw [hsc1 r]
        simp only [h0, Bool.false_eq_true, if_false]
        exact readBack_nonneg _
          (firstAmount_nonneg _ r (calls_nonneg _ (by simpa [initialState] using hpre)))
      refine ⟨ha, ?_⟩
      rw [hsc2 r]
      by_cases hh : hasScore st1.doc r = true
      · simp [hh]
      · have hz : scoreOf st1.doc r = 0 :=
          getNodeGravityScoreNode_absent _ (by simpa [hasScore] using hh)
        simp only [hh, if_false, hz]
        rw [hi1']
        exact readBack_nonneg _ (firstAmount_nonneg _ r (calls_nonneg _ hmid))
    intro s
    cases s with
    | nil => simp [getScore_nil]
    | cons r l => rw [getScore_cons, getScore_cons]; exact key r

/-- C6 (amended) at a concrete input: the wrapper `div` with three paragraphs,
after the first round and after the last. -/
theorem gravityScore_monotone_before_tail_witness :
    ∃ st1 st2,
      scoreLoop demoStopWords 3 0 ((3 : Int) * (1 / 4))
        (initialState (threeParagraphs "eee" "eeeeeeeeee" "eeee")) [[.inDoc [0, 1, 0, 0]]] =
        .ok st1 ∧
      scoreLoop demoStopWords 3 0 ((3 : Int) * (1 / 4)) st1
        [[.inDoc [0, 1, 0, 1]], [.inDoc [0, 1, 0, 2]]] = .ok st2 ∧
      (∀ r ∈ st2.rounds, 3 ≤ r.upScore ∧ 1 ≤ r.upScore.tdiv 2) ∧
      (∀ s, 0 ≤ getScore st1.doc s ∧ getScore st1.doc s ≤ getScore st2.doc s) :=
  ⟨_, _, rfl, rfl,
    gravityScore_monotone_before_tail demoStopWords (threeParagraphs "eee" "eeeeeeeeee" "eeee")
      [[.inDoc [0, 1, 0, 0]]] [[.inDoc [0, 1, 0, 1]], [.inDoc [0, 1, 0, 2]]] [] _ _
      (by decide) (fun _ => rfl) (fun _ _ h => absurd h.1 (by decide)) rfl rfl⟩

/-! ## C2: one wrapper with three paragraphs, end to end -/

/-- C2 (counterexample): for the wrapper `div` with three paragraphs of stop-word
counts 3, 10 and 4, the first and the third candidate receive the boosts 50 and 25
(the second paragraph, their sibling, has a count above 5), and the `gravityScore`
of the `div` after the scoring pass is 53, not 17. -/
theorem threeParagraphs_score_is_not_seventeen :
    (roundsOf (scoringPass demoStopWords (threeParagraphs "eee" "eeeeeeeeee" "eeee"))).map
      (fun r => r.boostScore) = [50, 0, 25] ∧
    finalScore (scoringPass demoStopWords (threeParagraphs "eee" "eeeeeeeeee" "eeee"))
      [.inDoc [0, 1, 0]] = some 53 := by
  decide!

/-- C2 (amended).  For a document whose body holds one wrapper `div` with exactly
three paragraphs of stop-word counts 3, 10 and 4, no links and nothing else:
the scoring pass completes; no candidate receives tail decay, the first and the third
candidate are boostable and receive the boosts 50 and 25, so the amounts added for
the three candidates are 53, 10 and 29; `calculateBestNode` selects the wrapper `div`
as top node, in whatever order the set of parents is listed; and `postCleanup`
changes nothing: the three paragraphs stay the children of the `div`. -/
theorem threeParagraphs_end_to_end (sw : String → Int)
    (listOrder : List Selection → List Selection) (t1 t2 t3 : String)
    (h1 : sw t1 = 3) (h2 : sw t2 = 10) (h3 : sw t3 = 4)
    (hperm : ∀ l, (listOrder l).Perm l) :
    ∃ st, scoringPass sw (threeParagraphs t1 t2 t3) = .ok st ∧
      st.rounds.map (fun r => (r.node, r.boostScore, r.upScore)) =
        [([.inDoc [0, 1, 0, 0]], 50, 53), ([.inDoc [0, 1, 0, 1]], 0, 10),
         ([.inDoc [0, 1, 0, 2]], 25, 29)] ∧
      calculateBestNode sw listOrder (threeParagraphs t1 t2 t3) =
        .ok (st.doc, some [.inDoc [0, 1, 0]]) ∧
      postCleanup sw st.doc [.inDoc [0, 1, 0]] = .ok (st.doc, [.inDoc [0, 1, 0]]) ∧
      Children st.doc [.inDoc [0, 1, 0]] =
        [.inDoc [0, 1, 0, 0], .inDoc [0, 1, 0, 1], .inDoc [0, 1, 0, 2]] := by
  have hT0 : Text (threeParagraphs t1 t2 t3) [.inDoc [0, 1, 0, 0]] = t1 := by
    simp [Text, textOf, threeParagraphs, page, elem, txt, Node.get?, Node.text, Node.textList,
      String.join]
  have hT1 : Text (threeParagraphs t1 t2 t3) [.inDoc [0, 1, 0, 1]] = t2 := by
    simp [Text, textOf, threeParagraphs, page, elem, txt, Node.get?, Node.text, Node.textList,
      String.join]
  have hT2 : Text (threeParagraphs t1 t2 t3) [.inDoc [0, 1, 0, 2]] = t3 := by
    simp [Text, textOf, threeParagraphs, page, elem, txt, Node.get?, Node.text, Node.textList,
      String.join]
  have hS0 : Siblings (threeParagraphs t1 t2 t3) [.inDoc [0, 1, 0, 0]] =
      [.inDoc [0, 1, 0, 1], .inDoc [0, 1, 0, 2]] := rfl
  have hS1 : Siblings (threeParagraphs t1 t2 t3) [.inDoc [0, 1, 0, 1]] =
      [.inDoc [0, 1, 0, 0], .inDoc [0, 1, 0, 2]] := rfl
  have hS2 : Siblings (threeParagraphs t1 t2 t3) [.inDoc [0, 1, 0, 2]] =
      [.inDoc [0, 1, 0, 0], .inDoc [0, 1, 0, 1]] := rfl
  have hA0 : atomOf (threeParagraphs t1 t2 t3) (.inDoc [0, 1, 0, 0]) = "p" := rfl
  have hA1 : atomOf (threeParagraphs t1 t2 t3) (.inDoc [0, 1, 0, 1]) = "p" := rfl
  have hA2 : atomOf (threeParagraphs t1 t2 t3) (.inDoc [0, 1, 0, 2]) = "p" := rfl
  have hB0 : isBoostable sw (threeParagraphs t1 t2 t3) [.inDoc [0, 1, 0, 0]] = true := by
    unfold isBoostable
    rw [hS0]
    simp [isBoostableLoop, hA1, hT1, h2]
  have hB1 : isBoostable sw (threeParagraphs t1 t2 t3) [.inDoc [0, 1, 0, 1]] = false := by
    unfold isBoostable
    rw [hS1]
    simp [isBoostableLoop, hA0, hA2, hT0, hT2, h1, h3]
  have hB2 : isBoostable sw (threeParagraphs t1 t2 t3) [.inDoc [0, 1, 0, 2]] = true := by
    unfold isBoostable
    rw [hS2]
    simp [isBoostableLoop, hA0, hA1, hT0, hT1, h1, h2]
  have hD0 : isHighLinkDensity (threeParagraphs t1 t2 t3) [.inDoc [0, 1, 0, 0]] = false := rfl
  have hD1 : isHighLinkDensity (threeParagraphs t1 t2 t3) [.inDoc [0, 1, 0, 1]] = false := rfl
  have hD2 : isHighLinkDensity (threeParagraphs t1 t2 t3) [.inDoc [0, 1, 0, 2]] = false := rfl
  have hnodes : nodesToCheck (threeParagraphs t1 t2 t3) =
      [[.inDoc [0, 1, 0, 0]], [.inDoc [0, 1, 0, 1]], [.inDoc [0, 1, 0, 2]]] := rfl
  have hcands : nodesWithText sw (threeParagraphs t1 t2 t3) =
      [[.inDoc [0, 1, 0, 0]], [.inDoc [0, 1, 0, 1]], [.inDoc [0, 1, 0, 2]]] := by
    unfold nodesWithText
    rw [hnodes]
    simp [List.filter, hT0, hT1, hT2, hD0, hD1, hD2, h1, h2, h3]
  have hP : ∀ node ∈ nodesWithText sw (threeParagraphs t1 t2 t3),
      Parent (threeParagraphs t1 t2 t3) node = [.inDoc [0, 1, 0]] := by
    intro node hn
    rw [hcands] at hn
    simp only [List.mem_cons, List.mem_singleton, List.not_mem_nil, or_false] at hn
    rcases hn with rfl | rfl | rfl <;> rfl
  have hG : Parent (threeParagraphs t1 t2 t3) [.inDoc [0, 1, 0]] = [.inDoc [0, 1]] := rfl
  obtain ⟨st, hst⟩ := scoreLoop_ok sw ((nodesWithText sw (threeParagraphs t1 t2 t3)).length : Int)
    0 (((nodesWithText sw (threeParagraphs t1 t2 t3)).length : Int) * (1 / 4))
    (threeParagraphs t1 t2 t3) (nodesWithText sw (threeParagraphs t1 t2 t3))
    (initialState (threeParagraphs t1 t2 t3)) (SameTree.refl _)
    (fun node hn => by rw [hP node hn, hG]; exact ⟨by simp, by simp⟩)
  have hpass : scoringPass sw (threeParagraphs t1 t2 t3) = .ok st := by
    rw [scoringPass_eq]; exact hst
  obtain ⟨hs, _, _, hrounds, hpn, _⟩ :=
    scoreLoop_inv sw _ 0 _ (threeParagraphs t1 t2 t3) _ (initialState _) st (SameTree.refl _) hst
  have hsc := scoreLoop_scoreOf sw _ 0 _ (threeParagraphs t1 t2 t3) _ (initialState _) st
    (SameTree.refl _) hst
  have hb0 : boostOf true 3 0 (3 / 4) 1 0 0 = (50, 2) := by
    norm_num [boostOf]
  have hb1 : boostOf false 3 0 (3 / 4) 2 1 1 = (0, 2) := by
    norm_num [boostOf]
  have hb2 : boostOf true 3 0 (3 / 4) 2 2 2 = (25, 3) := by
    norm_num [boostOf]
  have ht50 : truncToInt 50 = 50 := by norm_num [truncToInt]
  have ht0 : truncToInt 0 = 0 := by norm_num [truncToInt]
  have ht25 : truncToInt 25 = 25 := by norm_num [truncToInt]
  have hexp : expectedRounds sw (threeParagraphs t1 t2 t3)
      ((nodesWithText sw (threeParagraphs t1 t2 t3)).length : Int) 0
      (((nodesWithText sw (threeParagraphs t1 t2 t3)).length : Int) * (1 / 4)) 1 0 0
      (nodesWithText sw (threeParagraphs t1 t2 t3)) =
      [{ node := [.inDoc [0, 1, 0, 0]], boostScore := 50, upScore := 53,
         parentNode := [.inDoc [0, 1, 0]], parentParentNode := [.inDoc [0, 1]] },
       { node := [.inDoc [0, 1, 0, 1]], boostScore := 0, upScore := 10,
         parentNode := [.inDoc [0, 1, 0]], parentParentNode := [.inDoc [0, 1]] },
       { node := [.inDoc [0, 1, 0, 2]], boostScore := 25, upScore := 29,
         parentNode := [.inDoc [0, 1, 0]], parentParentNode := [.inDoc [0, 1]] }] := by
    have hP0 := hP [.inDoc [0, 1, 0, 0]] (by rw [hcands]; simp)
    have hP1 := hP [.inDoc [0, 1, 0, 1]] (by rw [hcands]; simp)
    have hP2 := hP [.inDoc [0, 1, 0, 2]] (by rw [hcands]; simp)
    rw [hcands]
    simp only [expectedRounds, List.length_cons, List.length_nil, hB0, hB1, hB2, hT0, hT1, hT2,
      h1, h2, h3, hP0, hP1, hP2, hG]
    norm_num
    simp only [hb0, hb1, hb2, ht50, ht0, ht25]
    norm_num
  have hP0 := hP [.inDoc [0, 1, 0, 0]] (by rw [hcands]; simp)
  have hP1 := hP [.inDoc [0, 1, 0, 1]] (by rw [hcands]; simp)
  have hP2 := hP [.inDoc [0, 1, 0, 2]] (by rw [hcands]; simp)
  simp only [initialState] at hrounds hpn hsc
  rw [hexp] at hrounds hsc
  have hrb53 : readBack 53 = 53 := by decide
  have hrb26 : readBack ((53 : Int).tdiv 2) = 26 := by decide
  have hdiv : getScore st.doc [.inDoc [0, 1, 0]] = 53 := by
    rw [getScore_cons, hsc]
    simp [hasScore, attrsOf, threeParagraphs, page, attrOf, Round.calls, firstAmount, hrb53]
  have hbody : getScore st.doc [.inDoc [0, 1]] = 26 := by
    rw [getScore_cons, hsc]
    simp only [hasScore, attrsOf, threeParagraphs, page, attrOf, Round.calls, firstAmount,
      List.find?_nil, Bool.false_eq_true, if_false, List.flatMap_cons, List.flatMap_nil,
      List.cons_append, List.nil_append, List.head?_cons, Option.some.injEq,
      NodeRef.inDoc.injEq]
    exact hrb26
  have hpn' : st.parentNodes = [[.inDoc [0, 1, 0]], [.inDoc [0, 1]], [.inDoc [0, 1, 0]],
      [.inDoc [0, 1]], [.inDoc [0, 1, 0]], [.inDoc [0, 1]]] := by
    rw [hpn, hcands]
    simp only [List.nil_append, List.flatMap_cons, List.flatMap_nil, List.append_nil, hP0, hP1,
      hP2, hG]
    rfl
  refine ⟨st, hpass, ?_, ?_, ?_, ?_⟩
  · rw [hrounds]
    rfl
  · obtain ⟨e, l1, l2, he, hl, _, hl1, hl2⟩ :=
      topNodeLoop_max st.doc (listOrder st.parentNodes) none 0
        ⟨[.inDoc [0, 1, 0]], (hperm _).mem_iff.2 (by rw [hpn']; simp), by rw [hdiv]; norm_num⟩
    have hdivmem : [NodeRef.inDoc [0, 1, 0]] ∈ l1 ++ e :: l2 := by
      rw [← hl]; exact (hperm _).mem_iff.2 (by rw [hpn']; simp)
    have hle : getScore st.doc [.inDoc [0, 1, 0]] ≤ getScore st.doc e := by
      rcases List.mem_append.1 hdivmem with h | h
      · exact hl1 _ h
      · rcases List.mem_cons.1 h with h | h
        · rw [h]
        · exact le_of_lt (hl2 _ h)
    have hemem : e ∈ st.parentNodes := (hperm _).mem_iff.1 (by rw [hl]; simp)
    rw [hpn'] at hemem
    have he' : e = [.inDoc [0, 1, 0]] := by
      simp only [List.mem_cons, List.mem_singleton, List.not_mem_nil, or_false] at hemem
      rcases hemem with h | h | h | h | h | h
      · exact h
      · rw [h, hdiv, hbody] at hle; omega
      · exact h
      · rw [h, hdiv, hbody] at hle; omega
      · exact h
      · rw [h, hdiv, hbody] at hle; omega
    unfold calculateBestNode
    simp only [hpass, he, he']
  · obtain ⟨hroot, hdet⟩ := hs
    cases hd : st.doc with
    | mk root A det =>
      rw [hd] at hroot hdet
      simp only at hroot hdet
      subst hroot hdet
      rfl
  · rw [hs.Children]
    rfl

/-- C2 (amended) at a concrete input: the texts `eee`, `eeeeeeeeee` and `eeee`
with the stop-word provider that counts the letter `e`, the set of parents listed in
insertion order. -/
theorem threeParagraphs_end_to_end_witness :
    ∃ st, scoringPass demoStopWords (threeParagraphs "eee" "eeeeeeeeee" "eeee") = .ok st ∧
      st.rounds.map (fun r => (r.node, r.boostScore, r.upScore)) =
        [([.inDoc [0, 1, 0, 0]], 50, 53), ([.inDoc [0, 1, 0, 1]], 0, 10),
         ([.inDoc [0, 1, 0, 2]], 25, 29)] ∧
      calculateBestNode demoStopWords id (threeParagraphs "eee" "eeeeeeeeee" "eeee") =
        .ok (st.doc, some [.inDoc [0, 1, 0]]) ∧
      postCleanup demoStopWords st.doc [.inDoc [0, 1, 0]] = .ok (st.doc, [.inDoc [0, 1, 0]]) ∧
      Children st.doc [.inDoc [0, 1, 0]] =
        [.inDoc [0, 1, 0, 0], .inDoc [0, 1, 0, 1], .inDoc [0, 1, 0, 2]] :=
  threeParagraphs_end_to_end demoStopWords id "eee" "eeeeeeeeee" "eeee" (by decide) (by decide)
    (by decide) (fun l => List.Perm.refl l)

/-! ## Lemmas on binary64 rounding -/

theorem roundHalfEven_ge_floor (q : ℚ) : ⌊q⌋ ≤ roundHalfEven q := by
  unfold roundHalfEven
  split
  · exact le_refl _
  · split
    · omega
    · split <;> omega

theorem roundHalfEven_le_floor_succ (q : ℚ) : roundHalfEven q ≤ ⌊q⌋ + 1 := by
  unfold roundHalfEven
  split
  · omega
  · split
    · omega
    · split <;> omega

theorem le_roundHalfEven (q : ℚ) (N : Int) (h : (N : ℚ) ≤ q) : N ≤ roundHalfEven q :=
  le_trans (Int.le_floor.2 h) (roundHalfEven_ge_floor q)

theorem roundHalfEven_le (q : ℚ) (N : Int) (h : q ≤ (N : ℚ)) : roundHalfEven q ≤ N := by
  rcases eq_or_lt_of_le h with h | h
  · subst h
    unfold roundHalfEven
    simp
  · have : ⌊q⌋ < N := Int.floor_lt.2 h
    have := roundHalfEven_le_floor_succ q
    omega

theorem roundHalfEven_intCast (N : Int) : roundHalfEven (N : ℚ) = N := by
  unfold roundHalfEven
  simp

theorem abs_roundHalfEven_sub (q : ℚ) : |(roundHalfEven q : ℚ) - q| ≤ 1 / 2 := by
  have h1 := Int.floor_le q
  have h2 := Int.lt_floor_add_one q
  unfold roundHalfEven
  rw [abs_le]
  split
  · constructor <;> linarith
  · split
    · push_cast; constructor <;> linarith
    · have : q - ⌊q⌋ = 1 / 2 := by linarith
      split
      · constructor <;> linarith
      · push_cast; constructor <;> linarith

/-- ties go to the even neighbour -/
theorem roundHalfEven_tie_even (N : Int) (h : N % 2 = 0) (q : ℚ) (hq1 : (N : ℚ) ≤ q)
    (hq2 : q ≤ (N : ℚ) + 1 / 2) : roundHalfEven q = N := by
  have hf : ⌊q⌋ = N := by
    rw [Int.floor_eq_iff]
    constructor
    · exact hq1
    · linarith
  unfold roundHalfEven
  rw [hf]
  split
  · rfl
  · split
    · linarith
    · simp [h]

theorem two_zpow_pos (e : Int) : (0 : ℚ) < 2 ^ e := zpow_pos (by norm_num) e

/-- For positive `x`, the exponent that `f64` uses. -/
theorem f64_of_pos (x : ℚ) (hx : 0 < x) :
    ∃ e : Int, (2 : ℚ) ^ e ≤ x ∧ x < 2 ^ (e + 1) ∧
      f64 x = (roundHalfEven (x / 2 ^ (e - 52)) : ℚ) * 2 ^ (e - 52) := by
  refine ⟨Int.log 2 x, ?_, ?_, ?_⟩
  · have := Int.zpow_log_le_self (b := 2) (r := x) (by norm_num) hx
    simpa using this
  · have := Int.lt_zpow_succ_log_self (b := 2) (by norm_num) x
    simpa using this
  · unfold f64
    rw [if_neg (ne_of_gt hx), abs_of_pos hx]

/-- The exponent of a positive rational is determined by its binade. -/
theorem exponent_unique (x : ℚ) (a e : Int) (ha1 : (2 : ℚ) ^ a ≤ x) (ha2 : x < 2 ^ (a + 1))
    (he1 : (2 : ℚ) ^ e ≤ x) (he2 : x < 2 ^ (e + 1)) : a = e := by
  have h1 : (2 : ℚ) ^ a < 2 ^ (e + 1) := lt_of_le_of_lt ha1 he2
  have h2 : (2 : ℚ) ^ e < 2 ^ (a + 1) := lt_of_le_of_lt he1 ha2
  rw [zpow_lt_zpow_iff_right₀ (by norm_num)] at h1 h2
  omega

/-- Evaluation of `f64` from the binade of `x`. -/
theorem f64_eq (x : ℚ) (e : Int) (h1 : (2 : ℚ) ^ e ≤ x) (h2 : x < 2 ^ (e + 1)) :
    f64 x = (roundHalfEven (x / 2 ^ (e - 52)) : ℚ) * 2 ^ (e - 52) := by
  have hx : 0 < x := lt_of_lt_of_le (two_zpow_pos e) h1
  obtain ⟨a, ha1, ha2, hf⟩ := f64_of_pos x hx
  have := exponent_unique x a e ha1 ha2 h1 h2
  subst this
  exact hf

theorem scaled_bounds (x : ℚ) (e : Int) (h1 : (2 : ℚ) ^ e ≤ x) (h2 : x < 2 ^ (e + 1)) :
    (2 : ℚ) ^ (52 : Int) ≤ x / 2 ^ (e - 52) ∧ x / 2 ^ (e - 52) < 2 ^ (53 : Int) := by
  have hu := two_zpow_pos (e - 52)
  constructor
  · rw [le_div_iff₀ hu, ← zpow_add₀ (by norm_num)]
    simpa using h1
  · rw [div_lt_iff₀ hu, ← zpow_add₀ (by norm_num)]
    have : (53 : Int) + (e - 52) = e + 1 := by ring
    rw [this]
    exact h2

theorem f64_pos (x : ℚ) (hx : 0 < x) : 0 < f64 x := by
  obtain ⟨e, h1, h2, hf⟩ := f64_of_pos x hx
  rw [hf]
  have hs := (scaled_bounds x e h1 h2).1
  have h52 : (((2 : Int) ^ 52 : Int) : ℚ) = (2 : ℚ) ^ (52 : Int) := by norm_num
  have : (2 ^ 52 : Int) ≤ roundHalfEven (x / 2 ^ (e - 52)) :=
    le_roundHalfEven _ _ (by rw [h52]; exact hs)
  have hpos : (0 : ℚ) < (roundHalfEven (x / 2 ^ (e - 52)) : ℚ) := by
    have : (0 : Int) < roundHalfEven (x / 2 ^ (e - 52)) := by omega
    exact_mod_cast this
  exact mul_pos hpos (two_zpow_pos _)

/-- The relative error of rounding to binary64 is at most `2 ^ (-53)`. -/
theorem abs_f64_sub_le (x : ℚ) (hx : 0 < x) : |f64 x - x| ≤ x * 2 ^ (-53 : Int) := by
  obtain ⟨e, h1, h2, hf⟩ := f64_of_pos x hx
  have hu := two_zpow_pos (e - 52)
  have hr := abs_roundHalfEven_sub (x / 2 ^ (e - 52))
  have hx' : x = x / 2 ^ (e - 52) * 2 ^ (e - 52) := by field_simp
  have : f64 x - x = ((roundHalfEven (x / 2 ^ (e - 52)) : ℚ) - x / 2 ^ (e - 52)) * 2 ^ (e - 52) := by
    rw [hf]; nth_rewrite 2 [hx']; ring
  rw [this, abs_mul, abs_of_pos hu]
  calc |(roundHalfEven (x / 2 ^ (e - 52)) : ℚ) - x / 2 ^ (e - 52)| * 2 ^ (e - 52)
      ≤ 1 / 2 * 2 ^ (e - 52) := by gcongr
    _ = 2 ^ e * 2 ^ (-53 : Int) := by
        rw [← zpow_add₀ (by norm_num : (2 : ℚ) ≠ 0)]
        have : e + (-53) = (e - 52) - 1 := by ring
        rw [this, zpow_sub_one₀ (by norm_num : (2 : ℚ) ≠ 0)]
        ring
    _ ≤ x * 2 ^ (-53 : Int) := by gcongr

/-- A binary64 number is rounded to itself: `m * 2 ^ k` with `|m| < 2 ^ 53`. -/
theorem f64_exact (m : Int) (k : Int) (hm : 0 < m) (hm2 : m < 2 ^ 53) :
    f64 ((m : ℚ) * 2 ^ k) = (m : ℚ) * 2 ^ k := by
  have hx : (0 : ℚ) < (m : ℚ) * 2 ^ k := mul_pos (by exact_mod_cast hm) (two_zpow_pos k)
  obtain ⟨e, h1, h2, hf⟩ := f64_of_pos _ hx
  rw [hf]
  have hlt : (2 : ℚ) ^ e < 2 ^ (53 + k) := by
    calc (2 : ℚ) ^ e ≤ (m : ℚ) * 2 ^ k := h1
      _ < 2 ^ (53 : Int) * 2 ^ k := by
          have hm2' : (m : ℚ) < 2 ^ (53 : Int) := by
            have h53 : (2 : ℚ) ^ (53 : Int) = (((2 : Int) ^ 53 : Int) : ℚ) := by norm_num
            rw [h53]
            exact_mod_cast hm2
          exact mul_lt_mul_of_pos_right hm2' (two_zpow_pos k)
      _ = 2 ^ (53 + k) := by rw [zpow_add₀ (by norm_num)]
  rw [zpow_lt_zpow_iff_right₀ (by norm_num)] at hlt
  obtain ⟨j, hj⟩ : ∃ j : ℕ, (j : Int) = k - (e - 52) := ⟨(k - (e - 52)).toNat, by omega⟩
  have hdiv : (m : ℚ) * 2 ^ k / 2 ^ (e - 52) = ((m * 2 ^ j : Int) : ℚ) := by
    rw [mul_div_assoc, ← zpow_sub₀ (by norm_num : (2 : ℚ) ≠ 0), ← hj]
    push_cast
    rw [zpow_natCast]
  rw [hdiv, roundHalfEven_intCast, ← hdiv]
  field_simp

theorem f64_zero : f64 0 = 0 := by simp [f64]

/-- A natural number below `2 ^ 53` is a binary64 number. -/
theorem f64_natCast (n : ℕ) (h : n < 2 ^ 53) : f64 (n : ℚ) = n := by
  rcases Nat.eq_zero_or_pos n with h0 | h0
  · subst h0; simp [f64_zero]
  · have := f64_exact (n : Int) 0 (by exact_mod_cast h0) (by exact_mod_cast h)
    simpa using this

/-- Rounding does not lift a number at most `1 + 2 ^ (-53)` above 1. -/
theorem f64_le_one (x : ℚ) (hx : 0 < x) (h : x ≤ 1 + 2 ^ (-53 : Int)) : f64 x ≤ 1 := by
  obtain ⟨e, h1, h2, hf⟩ := f64_of_pos x hx
  have hs := scaled_bounds x e h1 h2
  rw [hf]
  by_cases he : e ≤ -1
  · have hr : roundHalfEven (x / 2 ^ (e - 52)) ≤ 2 ^ 53 :=
      roundHalfEven_le _ _ (by
        have h53 : (((2 : Int) ^ 53 : Int) : ℚ) = (2 : ℚ) ^ (53 : Int) := by norm_num
        rw [h53]; exact le_of_lt hs.2)
    have hr' : (roundHalfEven (x / 2 ^ (e - 52)) : ℚ) ≤ 2 ^ (53 : Int) := by
      have h53 : (2 : ℚ) ^ (53 : Int) = (((2 : Int) ^ 53 : Int) : ℚ) := by norm_num
      rw [h53]; exact_mod_cast hr
    calc (roundHalfEven (x / 2 ^ (e - 52)) : ℚ) * 2 ^ (e - 52)
        ≤ 2 ^ (53 : Int) * 2 ^ (e - 52) := mul_le_mul_of_nonneg_right hr' (le_of_lt (two_zpow_pos _))
      _ = 2 ^ (e + 1) := by
          rw [← zpow_add₀ (by norm_num : (2 : ℚ) ≠ 0)]; congr 1; ring
      _ ≤ 2 ^ (0 : Int) := zpow_le_zpow_right₀ (by norm_num) (by omega)
      _ = 1 := by norm_num
  · have hx2 : x < 2 ^ (1 : Int) := by
      have : (2 : ℚ) ^ (-53 : Int) < 1 := by norm_num
      have : (2 : ℚ) ^ (1 : Int) = 2 := by norm_num
      linarith
    have he1 : (2 : ℚ) ^ e < 2 ^ (1 : Int) := lt_of_le_of_lt h1 hx2
    rw [zpow_lt_zpow_iff_right₀ (by norm_num)] at he1
    have he0 : e = 0 := by omega
    subst he0
    have hq : roundHalfEven (x / 2 ^ ((0 : Int) - 52)) = 2 ^ 52 := by
      apply roundHalfEven_tie_even _ (by norm_num)
      · have h52 : (((2 : Int) ^ 52 : Int) : ℚ) = (2 : ℚ) ^ (52 : Int) := by norm_num
        rw [h52]; exact hs.1
      · rw [div_le_iff₀ (two_zpow_pos _)]
        norm_num at h ⊢
        linarith
    rw [hq]
    norm_num

/-- Rounding does not bring a number at least `1 + 2 ^ (-52)` down to 1. -/
theorem one_lt_f64 (x : ℚ) (h : 1 + 2 ^ (-52 : Int) ≤ x) : 1 < f64 x := by
  have hx : 0 < x := by
    have : (0 : ℚ) < 2 ^ (-52 : Int) := two_zpow_pos _
    linarith
  obtain ⟨e, h1, h2, hf⟩ := f64_of_pos x hx
  have hs := scaled_bounds x e h1 h2
  rw [hf]
  have hx1 : (2 : ℚ) ^ (0 : Int) < 2 ^ (e + 1) := by
    have : (0 : ℚ) < 2 ^ (-52 : Int) := two_zpow_pos _
    have : (2 : ℚ) ^ (0 : Int) = 1 := by norm_num
    linarith
  rw [zpow_lt_zpow_iff_right₀ (by norm_num)] at hx1
  by_cases he : e = 0
  · subst he
    have hr : 2 ^ 52 + 1 ≤ roundHalfEven (x / 2 ^ ((0 : Int) - 52)) :=
      le_roundHalfEven _ _ (by
        rw [le_div_iff₀ (two_zpow_pos _)]
        norm_num at h ⊢
        linarith)
    have hr' : ((2 ^ 52 + 1 : Int) : ℚ) ≤ (roundHalfEven (x / 2 ^ ((0 : Int) - 52)) : ℚ) := by
      exact_mod_cast hr
    have hu : (0 : ℚ) < 2 ^ ((0 : Int) - 52) := two_zpow_pos _
    calc (1 : ℚ) < ((2 ^ 52 + 1 : Int) : ℚ) * 2 ^ ((0 : Int) - 52) := by norm_num
      _ ≤ _ := mul_le_mul_of_nonneg_right hr' (le_of_lt hu)
  · have he1 : 1 ≤ e := by omega
    have hr : 2 ^ 52 ≤ roundHalfEven (x / 2 ^ (e - 52)) :=
      le_roundHalfEven _ _ (by
        have h52 : (((2 : Int) ^ 52 : Int) : ℚ) = (2 : ℚ) ^ (52 : Int) := by norm_num
        rw [h52]; exact hs.1)
    have hr' : (2 : ℚ) ^ (52 : Int) ≤ (roundHalfEven (x / 2 ^ (e - 52)) : ℚ) := by
      have h52 : (2 : ℚ) ^ (52 : Int) = (((2 : Int) ^ 52 : Int) : ℚ) := by norm_num
      rw [h52]; exact_mod_cast hr
    calc (1 : ℚ) < 2 ^ (1 : Int) := by norm_num
      _ ≤ 2 ^ e := zpow_le_zpow_right₀ (by norm_num) he1
      _ = 2 ^ (52 : Int) * 2 ^ (e - 52) := by
          rw [← zpow_add₀ (by norm_num : (2 : ℚ) ≠ 0)]; congr 1; ring
      _ ≤ _ := mul_le_mul_of_nonneg_right hr' (le_of_lt (two_zpow_pos _))

theorem linkScoreF64_gt_one_iff (L W A : ℕ) (hW : 1 ≤ W) (hW2 : W ≤ 2 ^ 51)
    (hL : L < 2 ^ 53) (hA : A < 2 ^ 53) :
    linkScoreF64 L W A > 1 ↔ ((L : ℚ) / (W : ℚ)) * (A : ℚ) > 1 := by
  unfold linkScoreF64
  rw [f64_natCast L hL, f64_natCast W (by omega), f64_natCast A hA]
  have hWq : (0 : ℚ) < (W : ℚ) := by exact_mod_cast hW
  have hint : ((L : ℚ) / (W : ℚ)) * (A : ℚ) > 1 ↔ W < L * A := by
    rw [gt_iff_lt, div_mul_eq_mul_div, lt_div_iff₀ hWq, one_mul]
    exact_mod_cast Iff.rfl
  rw [hint]
  rcases Nat.eq_zero_or_pos L with hL0 | hL0
  · subst hL0
    simp [f64_zero]
  rcases Nat.eq_zero_or_pos A with hA0 | hA0
  · subst hA0
    simp [f64_zero]
  have hLq : (0 : ℚ) < (L : ℚ) := by exact_mod_cast hL0
  have hAq : (0 : ℚ) < (A : ℚ) := by exact_mod_cast hA0
  have hx : (0 : ℚ) < (L : ℚ) / (W : ℚ) := div_pos hLq hWq
  have herr := abs_f64_sub_le _ hx
  rw [abs_le] at herr
  have hd := f64_pos _ hx
  have hε : (2 : ℚ) ^ (-53 : Int) = 1 / 9007199254740992 := by norm_num
  have hε2 : (2 : ℚ) ^ (-52 : Int) = 1 / 4503599627370496 := by norm_num
  have hWle : (W : ℚ) ≤ 2251799813685248 := by exact_mod_cast hW2
  constructor
  · intro h
    by_contra hcon
    have hle : L * A ≤ W := by omega
    have hleq : (L : ℚ) * (A : ℚ) ≤ (W : ℚ) := by exact_mod_cast hle
    have hxa : (L : ℚ) / (W : ℚ) * (A : ℚ) ≤ 1 := by
      rw [div_mul_eq_mul_div, div_le_iff₀ hWq]; linarith
    have hy : f64 ((L : ℚ) / (W : ℚ)) * (A : ℚ) ≤ 1 + 2 ^ (-53 : Int) := by
      have h1 : f64 ((L : ℚ) / (W : ℚ)) ≤ (L : ℚ) / (W : ℚ) * (1 + 2 ^ (-53 : Int)) := by
        linarith [herr.2]
      calc f64 ((L : ℚ) / (W : ℚ)) * (A : ℚ)
          ≤ ((L : ℚ) / (W : ℚ) * (1 + 2 ^ (-53 : Int))) * (A : ℚ) :=
            mul_le_mul_of_nonneg_right h1 (le_of_lt hAq)
        _ = ((L : ℚ) / (W : ℚ) * (A : ℚ)) * (1 + 2 ^ (-53 : Int)) := by ring
        _ ≤ 1 * (1 + 2 ^ (-53 : Int)) := by
            apply mul_le_mul_of_nonneg_right hxa
            rw [hε]; norm_num
        _ = 1 + 2 ^ (-53 : Int) := one_mul _
    have := f64_le_one _ (mul_pos hd hAq) hy
    linarith
  · intro h
    have hge : W + 1 ≤ L * A := by omega
    have hgeq : (W : ℚ) + 1 ≤ (L : ℚ) * (A : ℚ) := by exact_mod_cast hge
    have hxa : 1 + 1 / (W : ℚ) ≤ (L : ℚ) / (W : ℚ) * (A : ℚ) := by
      rw [div_mul_eq_mul_div, le_div_iff₀ hWq]
      field_simp
      linarith
    have hinv : (1 : ℚ) / 2251799813685248 ≤ 1 / (W : ℚ) :=
      one_div_le_one_div_of_le hWq hWle
    have hy : 1 + 2 ^ (-52 : Int) ≤ f64 ((L : ℚ) / (W : ℚ)) * (A : ℚ) := by
      have h1 : (L : ℚ) / (W : ℚ) * (1 - 2 ^ (-53 : Int)) ≤ f64 ((L : ℚ) / (W : ℚ)) := by
        linarith [herr.1]
      calc 1 + 2 ^ (-52 : Int) ≤ (1 + 1 / (W : ℚ)) * (1 - 2 ^ (-53 : Int)) := by
            rw [hε, hε2]
            nlinarith
        _ ≤ ((L : ℚ) / (W : ℚ) * (A : ℚ)) * (1 - 2 ^ (-53 : Int)) := by
            apply mul_le_mul_of_nonneg_right hxa
            rw [hε]; norm_num
        _ = ((L : ℚ) / (W : ℚ) * (1 - 2 ^ (-53 : Int))) * (A : ℚ) := by ring
        _ ≤ f64 ((L : ℚ) / (W : ℚ)) * (A : ℚ) :=
            mul_le_mul_of_nonneg_right h1 (le_of_lt hAq)
    exact one_lt_f64 _ hy

theorem roundHalfEven_eq_of_near (q : ℚ) (m : Int) (hlo : (m : ℚ) - 1 / 2 < q)
    (hhi : q < (m : ℚ) + 1 / 2) : roundHalfEven q = m := by
  have h := abs_roundHalfEven_sub q
  rw [abs_le] at h
  have h1 : ((m - 1 : Int) : ℚ) < (roundHalfEven q : ℚ) := by push_cast; linarith [h.1]
  have h2 : (roundHalfEven q : ℚ) < ((m + 1 : Int) : ℚ) := by push_cast; linarith [h.2]
  have h1' : m - 1 < roundHalfEven q := by exact_mod_cast h1
  have h2' : roundHalfEven q < m + 1 := by exact_mod_cast h2
  omega

theorem f64_eval (x : ℚ) (e m : Int) (h1 : (2 : ℚ) ^ e ≤ x) (h2 : x < 2 ^ (e + 1))
    (hlo : (m : ℚ) - 1 / 2 < x / 2 ^ (e - 52)) (hhi : x / 2 ^ (e - 52) < (m : ℚ) + 1 / 2) :
    f64 x = (m : ℚ) * 2 ^ (e - 52) := by
  rw [f64_eq x e h1 h2, roundHalfEven_eq_of_near _ m hlo hhi]

theorem boostF64_bounds (k : ℕ) (hk : 1 ≤ k) :
    0 < boostF64 k ∧
    (50 / (k : ℚ)) * (1 - 2 ^ (-53 : Int)) ^ 2 ≤ boostF64 k ∧
    boostF64 k ≤ (50 / (k : ℚ)) * (1 + 2 ^ (-53 : Int)) ^ 2 := by
  have hkq : (0 : ℚ) < (k : ℚ) := by exact_mod_cast hk
  have hx : (0 : ℚ) < 1 / (k : ℚ) := by positivity
  have hd := f64_pos _ hx
  have herr := abs_f64_sub_le _ hx
  rw [abs_le] at herr
  have hy : (0 : ℚ) < f64 (1 / (k : ℚ)) * 50 := by positivity
  have hz := f64_pos _ hy
  have herr2 := abs_f64_sub_le _ hy
  rw [abs_le] at herr2
  have hε : (2 : ℚ) ^ (-53 : Int) = 1 / 9007199254740992 := by norm_num
  rw [hε] at herr herr2 ⊢
  unfold boostF64
  refine ⟨hz, ?_, ?_⟩
  · have h1 : 1 / (k : ℚ) * (1 - 1 / 9007199254740992) ≤ f64 (1 / (k : ℚ)) := by linarith [herr.1]
    have h2 : f64 (1 / (k : ℚ)) * 50 * (1 - 1 / 9007199254740992) ≤ f64 (f64 (1 / (k : ℚ)) * 50) := by
      linarith [herr2.1]
    calc 50 / (k : ℚ) * (1 - 1 / 9007199254740992) ^ 2
        = (1 / (k : ℚ) * (1 - 1 / 9007199254740992)) * 50 * (1 - 1 / 9007199254740992) := by ring
      _ ≤ f64 (1 / (k : ℚ)) * 50 * (1 - 1 / 9007199254740992) := by
          apply mul_le_mul_of_nonneg_right _ (by norm_num)
          exact mul_le_mul_of_nonneg_right h1 (by norm_num)
      _ ≤ _ := h2
  · have h1 : f64 (1 / (k : ℚ)) ≤ 1 / (k : ℚ) * (1 + 1 / 9007199254740992) := by linarith [herr.2]
    have h2 : f64 (f64 (1 / (k : ℚ)) * 50) ≤ f64 (1 / (k : ℚ)) * 50 * (1 + 1 / 9007199254740992) := by
      linarith [herr2.2]
    calc f64 (f64 (1 / (k : ℚ)) * 50) ≤ f64 (1 / (k : ℚ)) * 50 * (1 + 1 / 9007199254740992) := h2
      _ ≤ (1 / (k : ℚ) * (1 + 1 / 9007199254740992)) * 50 * (1 + 1 / 9007199254740992) := by
          apply mul_le_mul_of_nonneg_right _ (by norm_num)
          exact mul_le_mul_of_nonneg_right h1 (by norm_num)
      _ = 50 / (k : ℚ) * (1 + 1 / 9007199254740992) ^ 2 := by ring

theorem boostF64_one : boostF64 1 = 50 := by
  unfold boostF64
  have h1 : f64 (1 / 1) = 1 := by
    have := f64_exact 1 0 (by norm_num) (by norm_num)
    simpa using this
  have h2 : f64 (1 * 50) = 50 := by
    have := f64_exact 50 0 (by norm_num) (by norm_num)
    simpa using this
  rw [h1, h2]

theorem boostF64_two : boostF64 2 = 25 := by
  unfold boostF64
  have h1 : f64 (1 / 2) = 1 / 2 := by
    have := f64_exact 1 (-1) (by norm_num) (by norm_num)
    norm_num at this ⊢
    exact this
  have h2 : f64 (1 / 2 * 50) = 25 := by
    have := f64_exact 25 0 (by norm_num) (by norm_num)
    norm_num at this ⊢
    exact this
  rw [h1, h2]

theorem boostF64_five : boostF64 5 = 10 := by
  unfold boostF64
  have h1 : f64 (1 / 5) = 7205759403792794 * 2 ^ ((-3 : Int) - 52) := by
    have := f64_eval (1 / 5) (-3) 7205759403792794 (by norm_num) (by norm_num) (by norm_num)
      (by norm_num)
    exact_mod_cast this
  have h2 : f64 (7205759403792794 * 2 ^ ((-3 : Int) - 52) * 50) = 10 := by
    have := f64_eval (7205759403792794 * 2 ^ ((-3 : Int) - 52) * 50) 3 5629499534213120
      (by norm_num) (by norm_num) (by norm_num) (by norm_num)
    rw [this]
    norm_num
  rw [h1, h2]

theorem boostF64_ten : boostF64 10 = 5 := by
  unfold boostF64
  have h1 : f64 (1 / 10) = 7205759403792794 * 2 ^ ((-4 : Int) - 52) := by
    have := f64_eval (1 / 10) (-4) 7205759403792794 (by norm_num) (by norm_num) (by norm_num)
      (by norm_num)
    exact_mod_cast this
  have h2 : f64 (7205759403792794 * 2 ^ ((-4 : Int) - 52) * 50) = 5 := by
    have := f64_eval (7205759403792794 * 2 ^ ((-4 : Int) - 52) * 50) 2 5629499534213120
      (by norm_num) (by norm_num) (by norm_num) (by norm_num)
    rw [this]
    norm_num
  rw [h1, h2]

theorem boostF64_twentyfive : boostF64 25 = 2 := by
  unfold boostF64
  have h1 : f64 (1 / 25) = 5764607523034235 * 2 ^ ((-5 : Int) - 52) := by
    have := f64_eval (1 / 25) (-5) 5764607523034235 (by norm_num) (by norm_num) (by norm_num)
      (by norm_num)
    exact_mod_cast this
  have h2 : f64 (5764607523034235 * 2 ^ ((-5 : Int) - 52) * 50) = 2 := by
    have := f64_eval (5764607523034235 * 2 ^ ((-5 : Int) - 52) * 50) 1 4503599627370496
      (by norm_num) (by norm_num) (by norm_num) (by norm_num)
    rw [this]
    norm_num
  rw [h1, h2]

theorem boostF64_fifty : boostF64 50 = 1 := by
  unfold boostF64
  have h1 : f64 (1 / 50) = 5764607523034235 * 2 ^ ((-6 : Int) - 52) := by
    have := f64_eval (1 / 50) (-6) 5764607523034235 (by norm_num) (by norm_num) (by norm_num)
      (by norm_num)
    exact_mod_cast this
  have h2 : f64 (5764607523034235 * 2 ^ ((-6 : Int) - 52) * 50) = 1 := by
    have := f64_eval (5764607523034235 * 2 ^ ((-6 : Int) - 52) * 50) 0 4503599627370496
      (by norm_num) (by norm_num) (by norm_num) (by norm_num)
    rw [this]
    norm_num
  rw [h1, h2]

theorem truncToInt_of_pos (z : ℚ) (q : Int) (h1 : (q : ℚ) ≤ z) (h2 : z < (q : ℚ) + 1)
    (hq : 0 ≤ q) : truncToInt z = q := by
  have hz : (0 : ℚ) ≤ z := le_trans (by exact_mod_cast hq) h1
  unfold truncToInt
  rw [if_pos hz, Int.floor_eq_iff]
  exact ⟨h1, h2⟩

theorem truncToInt_boostF64_of_bounds (k : ℕ) (hk : 1 ≤ k)
    (hlo : (((50 / k : ℕ) : Int) : ℚ) ≤ (50 / (k : ℚ)) * (1 - 2 ^ (-53 : Int)) ^ 2)
    (hhi : (50 / (k : ℚ)) * (1 + 2 ^ (-53 : Int)) ^ 2 < (((50 / k : ℕ) : Int) : ℚ) + 1) :
    truncToInt (boostF64 (k : ℚ)) = ((50 / k : ℕ) : Int) := by
  obtain ⟨_, h1, h2⟩ := boostF64_bounds k hk
  exact truncToInt_of_pos _ _ (le_trans hlo h1) (lt_of_le_of_lt h2 hhi) (by positivity)

theorem truncToInt_boostF64_large (k : ℕ) (hk : 51 ≤ k) :
    truncToInt (boostF64 (k : ℚ)) = ((50 / k : ℕ) : Int) := by
  have h0 : 50 / k = 0 := Nat.div_eq_of_lt (by omega)
  obtain ⟨hpos, _, h2⟩ := boostF64_bounds k (by omega)
  rw [h0]
  apply truncToInt_of_pos _ _ (by simpa using hpos.le) _ (by simp)
  have hk51 : (51 : ℚ) ≤ (k : ℚ) := by exact_mod_cast hk
  have hkq : (0 : ℚ) < (k : ℚ) := by linarith
  have h3 : 50 / (k : ℚ) ≤ 50 / 51 := by
    rw [div_le_div_iff₀ hkq (by norm_num)]
    linarith
  have h4 : 50 / (k : ℚ) * (1 + 2 ^ (-53 : Int)) ^ 2 ≤ 50 / 51 * (1 + 2 ^ (-53 : Int)) ^ 2 :=
    mul_le_mul_of_nonneg_right h3 (by positivity)
  have h5 : (50 : ℚ) / 51 * (1 + 2 ^ (-53 : Int)) ^ 2 < 1 := by norm_num
  simp only [Int.cast_zero, Nat.cast_zero, zero_add]
  linarith

/-- Binary64 evaluation of the boost gives the same integer as the exact reading: rounding the quotient
`1.0 / startingBoost` and the product with 50 never moves the value across an integer. -/
theorem truncToInt_boostF64 (k : ℕ) (hk : 1 ≤ k) :
    truncToInt (boostF64 (k : ℚ)) = ((50 / k : ℕ) : Int) := by
  by_cases h51 : 51 ≤ k
  · exact truncToInt_boostF64_large k h51
  · have hk50 : k ≤ 50 := by omega
    interval_cases k
    all_goals first
      | (rw [show ((1 : ℕ) : ℚ) = 1 by norm_num, boostF64_one]; rfl)
      | (rw [show ((2 : ℕ) : ℚ) = 2 by norm_num, boostF64_two]; rfl)
      | (rw [show ((5 : ℕ) : ℚ) = 5 by norm_num, boostF64_five]; rfl)
      | (rw [show ((10 : ℕ) : ℚ) = 10 by norm_num, boostF64_ten]; rfl)
      | (rw [show ((25 : ℕ) : ℚ) = 25 by norm_num, boostF64_twentyfive]; rfl)
      | (rw [show ((50 : ℕ) : ℚ) = 50 by norm_num, boostF64_fifty]; rfl)
      | exact truncToInt_boostF64_of_bounds _ (by norm_num) (by norm_num) (by norm_num)

theorem f64_scaled (m k : Int) (h0 : 0 ≤ m) (h : m < 2 ^ 53) :
    f64 ((m : ℚ) * 2 ^ k) = (m : ℚ) * 2 ^ k := by
  rcases h0.eq_or_lt with h0 | h0
  · subst h0
    simp [f64_zero]
  · exact f64_exact m k h0 h

theorem f64_intCast (m : Int) (h0 : 0 ≤ m) (h : m < 2 ^ 53) : f64 (m : ℚ) = m := by
  have := f64_scaled m 0 h0 h
  simpa using this

theorem tailBoostF64_eq (n i : Int) (hi : 0 ≤ i) (hin : i < n) (hn : n < 2 ^ 24)
    (htail : ((n - i : Int) : ℚ) ≤ (n : ℚ) * (1 / 4)) :
    tailBoostF64 n i = -(((n : ℚ) * (1 / 4) - ((n - i : Int) : ℚ)) ^ 2) := by
  have hm0 : 0 ≤ 4 * i - 3 * n := by
    have : ((n - i : Int) : ℚ) * 4 ≤ (n : ℚ) := by linarith
    have h : (n - i) * 4 ≤ n := by exact_mod_cast this
    omega
  have hm1 : 4 * i - 3 * n < 2 ^ 26 := by
    have : (2 : Int) ^ 26 = 4 * 2 ^ 24 := by norm_num
    omega
  have e1 : f64 (n : ℚ) = n := f64_intCast n (by omega) (by
    have : (2 : Int) ^ 24 < 2 ^ 53 := by norm_num
    omega)
  have e2 : f64 ((n : ℚ) * (1 / 4)) = (n : ℚ) * (1 / 4) := by
    have := f64_scaled n (-2) (by omega) (by
      have : (2 : Int) ^ 24 < 2 ^ 53 := by norm_num
      omega)
    have h2 : (2 : ℚ) ^ (-2 : Int) = 1 / 4 := by norm_num
    rwa [h2] at this
  have e3 : f64 ((n - i : Int) : ℚ) = ((n - i : Int) : ℚ) := f64_intCast _ (by omega) (by
    have : (2 : Int) ^ 24 < 2 ^ 53 := by norm_num
    omega)
  have e4 : (n : ℚ) * (1 / 4) - ((n - i : Int) : ℚ) = ((4 * i - 3 * n : Int) : ℚ) * 2 ^ (-2 : Int) := by
    have h2 : (2 : ℚ) ^ (-2 : Int) = 1 / 4 := by norm_num
    rw [h2]
    push_cast
    ring
  have e5 : f64 ((n : ℚ) * (1 / 4) - ((n - i : Int) : ℚ))
      = (n : ℚ) * (1 / 4) - ((n - i : Int) : ℚ) := by
    rw [e4]
    exact f64_scaled _ _ hm0 (by
      have : (2 : Int) ^ 26 < 2 ^ 53 := by norm_num
      omega)
  have e6 : ((n : ℚ) * (1 / 4) - ((n - i : Int) : ℚ)) ^ 2
      = (((4 * i - 3 * n) * (4 * i - 3 * n) : Int) : ℚ) * 2 ^ (-4 : Int) := by
    have h4 : (2 : ℚ) ^ (-4 : Int) = 1 / 16 := by norm_num
    rw [h4]
    push_cast
    ring
  have e7 : f64 (((n : ℚ) * (1 / 4) - ((n - i : Int) : ℚ)) ^ 2)
      = ((n : ℚ) * (1 / 4) - ((n - i : Int) : ℚ)) ^ 2 := by
    rw [e6]
    refine f64_scaled _ _ (mul_nonneg hm0 hm0) ?_
    have h26 : (2 : Int) ^ 53 = 2 * (2 ^ 26 * 2 ^ 26) := by norm_num
    rw [h26]
    have : (4 * i - 3 * n) * (4 * i - 3 * n) ≤ 2 ^ 26 * 2 ^ 26 :=
      mul_le_mul hm1.le hm1.le hm0 (by norm_num)
    have hpos : (0 : Int) < 2 ^ 26 * 2 ^ 26 := by norm_num
    omega
  unfold tailBoostF64
  simp only [e1, e2, e3, e5, e7]

/-- The boost as binary64 computes it has the integer part of the exact reading
`(1 / startingBoost) * 50` used in `boostOf`. -/
theorem truncToInt_boostF64_eq_exact (k : ℕ) (hk : 1 ≤ k) :
    truncToInt (boostF64 (k : ℚ)) = truncToInt ((1 / (k : ℚ)) * 50) := by
  rw [truncToInt_boostF64 k hk, show (1 / (k : ℚ)) * 50 = (50 : ℚ) / (k : ℚ) by ring,
    truncToInt_fifty_div]
  norm_cast

/-- The boost as binary64 computes it is strictly decreasing in `startingBoost`, as the exact
reading is, for every count of boostable candidates up to `2 ^ 50`. -/
theorem boostF64_succ_lt (k : ℕ) (hk : 1 ≤ k) (hk2 : k ≤ 2 ^ 50) :
    boostF64 ((k + 1 : ℕ) : ℚ) < boostF64 (k : ℚ) := by
  obtain ⟨_, hlo, _⟩ := boostF64_bounds k hk
  obtain ⟨_, _, hhi⟩ := boostF64_bounds (k + 1) (by omega)
  have hkq : (0 : ℚ) < (k : ℚ) := by exact_mod_cast hk
  have hk2q : (k : ℚ) ≤ 1125899906842624 := by exact_mod_cast hk2
  have hε : (2 : ℚ) ^ (-53 : Int) = 1 / 9007199254740992 := by norm_num
  rw [hε] at hlo hhi
  have hmid : 50 / ((k + 1 : ℕ) : ℚ) * (1 + 1 / 9007199254740992) ^ 2
      < 50 / (k : ℚ) * (1 - 1 / 9007199254740992) ^ 2 := by
    push_cast
    rw [div_mul_eq_mul_div, div_mul_eq_mul_div, div_lt_div_iff₀ (by linarith) hkq]
    norm_num
    linarith
  linarith

/-- The test of `isHighLinkDensity` with the score computed in binary64 gives the result of the
function as embedded, for a node with fewer than `2 ^ 51` words. -/
theorem isHighLinkDensity_binary64 (doc : Document) (node : Selection)
    (hA : (Find doc node "a").length ≠ 0)
    (hW : nwordsOf (Text doc node) ≤ 2 ^ 51)
    (hL : nwordsOf (stringsJoin ((Find doc node "a").map (fun s => Text doc [s]))) < 2 ^ 53)
    (hA2 : (Find doc node "a").length < 2 ^ 53) :
    isHighLinkDensity doc node = true ↔
      linkScoreF64 (nwordsOf (stringsJoin ((Find doc node "a").map (fun s => Text doc [s]))))
        (nwordsOf (Text doc node)) (Find doc node "a").length > 1 := by
  rw [linkScoreF64_gt_one_iff _ _ _ (nwordsOf_pos _) hW hL hA2]
  have hdef : isHighLinkDensity doc node =
      if (Find doc node "a").length = 0 then false
      else if ((nwordsOf (stringsJoin ((Find doc node "a").map (fun s => Text doc [s]))) : ℚ)
        / (nwordsOf (Text doc node) : ℚ)) * ((Find doc node "a").length : ℚ) > 1 then true
      else false := rfl
  rw [hdef, if_neg hA]
  simp

/-! ## Binary64 rounding of the thresholds 0.08 and 0.30 -/

theorem roundHalfEven_neg (q : ℚ) : roundHalfEven (-q) = -roundHalfEven q := by
  by_cases hint : (⌊q⌋ : ℚ) = q
  · -- an integer
    rw [← hint, ← Int.cast_neg, roundHalfEven_intCast, roundHalfEven_intCast]
  · have hfl : (⌊q⌋ : ℚ) < q := lt_of_le_of_ne (Int.floor_le q) hint
    have hfu : q < (⌊q⌋ : ℚ) + 1 := Int.lt_floor_add_one q
    have hneg : ⌊-q⌋ = -⌊q⌋ - 1 := by
      rw [Int.floor_eq_iff]
      push_cast
      constructor <;> linarith
    rcases lt_trichotomy (q - ⌊q⌋) (1 / 2) with h | h | h
    · -- below the middle
      have h1 : roundHalfEven q = ⌊q⌋ := by
        unfold roundHalfEven
        rw [if_pos h]
      rw [h1]
      apply roundHalfEven_eq_of_near
      · push_cast; linarith
      · push_cast; linarith
    · -- the middle
      have h1 : roundHalfEven q = if ⌊q⌋ % 2 = 0 then ⌊q⌋ else ⌊q⌋ + 1 := by
        unfold roundHalfEven
        rw [if_neg (by linarith), if_neg (by linarith)]
      have h2 : roundHalfEven (-q) = if ⌊-q⌋ % 2 = 0 then ⌊-q⌋ else ⌊-q⌋ + 1 := by
        unfold roundHalfEven
        have : -q - (⌊-q⌋ : ℚ) = 1 / 2 := by
          rw [hneg]; push_cast; linarith
        rw [if_neg (by linarith), if_neg (by linarith)]
      rw [h1, h2, hneg]
      by_cases hev : ⌊q⌋ % 2 = 0
      · have : ¬ (-⌊q⌋ - 1) % 2 = 0 := by omega
        rw [if_pos hev, if_neg this]
        ring
      · have : (-⌊q⌋ - 1) % 2 = 0 := by omega
        rw [if_neg hev, if_pos this]
        ring
    · -- above the middle
      have h1 : roundHalfEven q = ⌊q⌋ + 1 := by
        unfold roundHalfEven
        rw [if_neg (by linarith), if_pos h]
      rw [h1]
      apply roundHalfEven_eq_of_near
      · push_cast; linarith
      · push_cast; linarith

/-- Rounding to binary64 commutes with the sign. -/
theorem f64_neg (x : ℚ) : f64 (-x) = -f64 x := by
  unfold f64
  by_cases hx : x = 0
  · simp [hx]
  · rw [if_neg hx, if_neg (neg_ne_zero.2 hx), abs_neg, neg_div, roundHalfEven_neg]
    push_cast
    ring

/-- An integer of absolute value below `2 ^ 53` is a binary64 number. -/
theorem f64_intCast_abs (m : Int) (h : |m| < 2 ^ 53) : f64 (m : ℚ) = m := by
  rcases le_or_lt 0 m with h0 | h0
  · exact f64_intCast m h0 (by rwa [abs_of_nonneg h0] at h)
  · have h1 : f64 ((-m : Int) : ℚ) = ((-m : Int) : ℚ) :=
      f64_intCast (-m) (by omega) (by rwa [abs_of_neg h0] at h)
    have h2 : f64 (m : ℚ) = -f64 ((-m : Int) : ℚ) := by
      rw [← f64_neg]
      push_cast
      rw [neg_neg]
    rw [h2, h1]
    push_cast
    ring

/-- A rational within one part in `2 ^ 54` of a positive integer below `2 ^ 52` is rounded to
that integer. -/
theorem f64_near_natCast (n : ℕ) (hn : 0 < n) (hn2 : n < 2 ^ 52) (x : ℚ)
    (hlo : (n : ℚ) * (1 - 2 ^ (-54 : Int)) < x) (hhi : x < (n : ℚ) * (1 + 2 ^ (-54 : Int))) :
    f64 x = n := by
  have h54 : (2 : ℚ) ^ (-54 : Int) = 1 / 18014398509481984 := by norm_num
  rw [h54] at hlo hhi
  -- the binade of `n`
  have he1 : 2 ^ Nat.log 2 n ≤ n := Nat.pow_log_le_self 2 (by omega)
  have he2 : n < 2 ^ (Nat.log 2 n + 1) := Nat.lt_pow_succ_log_self (by norm_num) n
  generalize Nat.log 2 n = e at he1 he2
  have he52 : e < 52 := by
    have : 2 ^ e < 2 ^ 52 := lt_of_le_of_lt he1 hn2
    exact (Nat.pow_lt_pow_iff_right (by norm_num)).1 this
  obtain ⟨d, hd⟩ : ∃ d : ℕ, e + d = 52 := ⟨52 - e, by omega⟩
  have hnq : (0 : ℚ) < (n : ℚ) := by exact_mod_cast hn
  have hP : (0 : ℚ) < (2 : ℚ) ^ d := by positivity
  -- the scaled integer lies below `2 ^ 53`
  have hM2 : (n : ℚ) * 2 ^ d < 9007199254740992 := by
    have h1 : n * 2 ^ d < 2 ^ (e + 1) * 2 ^ d := Nat.mul_lt_mul_of_pos_right he2 (by positivity)
    have h2 : 2 ^ (e + 1) * 2 ^ d = 2 ^ 53 := by
      rw [← pow_add]
      congr 1
      omega
    rw [h2] at h1
    have : ((n * 2 ^ d : ℕ) : ℚ) < ((2 ^ 53 : ℕ) : ℚ) := by exact_mod_cast h1
    push_cast at this
    exact this
  have hscale : ∀ E : Int, E = (e : Int) → ∀ y : ℚ, y / 2 ^ (E - 52) = y * 2 ^ d := by
    intro E hE y
    have : E - 52 = -(d : Int) := by omega
    rw [this, zpow_neg, zpow_natCast, div_eq_mul_inv, inv_inv]
  have hback : ((n * 2 ^ d : ℕ) : ℚ) * 2 ^ ((e : Int) - 52) = n := by
    have : (e : Int) - 52 = -(d : Int) := by omega
    rw [this, zpow_neg, zpow_natCast]
    push_cast
    field_simp
  have heq1 : (2 : ℚ) ^ (e : Int) = ((2 ^ e : ℕ) : ℚ) := by
    rw [zpow_natCast]; push_cast; rfl
  have heq2 : (2 : ℚ) ^ ((e : Int) + 1) = ((2 ^ (e + 1) : ℕ) : ℚ) := by
    have : (e : Int) + 1 = ((e + 1 : ℕ) : Int) := by push_cast; rfl
    rw [this, zpow_natCast]; push_cast; rfl
  have hn1 : (n : ℚ) + 1 ≤ ((2 ^ (e + 1) : ℕ) : ℚ) := by exact_mod_cast he2
  have hn0 : ((2 ^ e : ℕ) : ℚ) ≤ (n : ℚ) := by exact_mod_cast he1
  have hsmall : (n : ℚ) * (1 / 18014398509481984) < 1 := by
    have : (n : ℚ) < 4503599627370496 := by exact_mod_cast hn2
    linarith
  by_cases hcase : ((2 ^ e : ℕ) : ℚ) ≤ x
  · -- `x` lies in the binade of `n`
    have h := f64_eval x (e : Int) ((n * 2 ^ d : ℕ) : Int) (by rw [heq1]; exact hcase)
      (by rw [heq2]; linarith) (by
        rw [hscale _ rfl]
        push_cast
        have h1 : (n : ℚ) * (1 - 1 / 18014398509481984) * 2 ^ d < x * 2 ^ d :=
          mul_lt_mul_of_pos_right hlo hP
        nlinarith) (by
        rw [hscale _ rfl]
        push_cast
        have h1 : x * 2 ^ d < (n : ℚ) * (1 + 1 / 18014398509481984) * 2 ^ d :=
          mul_lt_mul_of_pos_right hhi hP
        nlinarith)
    rw [h]
    exact_mod_cast hback
  · -- `n` is a power of two and `x` lies in the binade below
    have hxlt : x < ((2 ^ e : ℕ) : ℚ) := not_le.1 hcase
    have hne : n = 2 ^ e := by
      by_contra hne
      have h1 : 2 ^ e + 1 ≤ n := by omega
      have h2 : ((2 ^ e : ℕ) : ℚ) + 1 ≤ (n : ℚ) := by exact_mod_cast h1
      linarith
    have hnq' : (n : ℚ) = (2 : ℚ) ^ e := by rw [hne]; push_cast; rfl
    have hxlt' : x < (2 : ℚ) ^ e := by rw [← hnq']; push_cast at hxlt; rw [hnq']; exact hxlt
    have hPe : (2 : ℚ) ^ e * 2 ^ d = 4503599627370496 := by
      rw [← pow_add, hd]; norm_num
    have h := f64_eval x ((e : Int) - 1) (2 ^ 53) (by
        have : (2 : ℚ) ^ ((e : Int) - 1) = 2 ^ e / 2 := by
          rw [zpow_sub₀ (by norm_num), zpow_natCast]; norm_num
        rw [this]
        rw [hnq'] at hlo
        have hpos : (0 : ℚ) < 2 ^ e := by positivity
        linarith) (by
        have : (e : Int) - 1 + 1 = (e : Int) := by ring
        rw [this, zpow_natCast]
        exact hxlt') (by
        have hsc : x / 2 ^ ((e : Int) - 1 - 52) = x * 2 ^ d * 2 := by
          have : (e : Int) - 1 - 52 = -((d : Int) + 1) := by omega
          rw [this, zpow_neg, zpow_add₀ (by norm_num), zpow_natCast, div_eq_mul_inv, inv_inv]
          norm_num
          ring
        rw [hsc]
        push_cast
        rw [hnq'] at hlo
        have h1 : (2 : ℚ) ^ e * (1 - 1 / 18014398509481984) * 2 ^ d < x * 2 ^ d :=
          mul_lt_mul_of_pos_right hlo hP
        nlinarith) (by
        have hsc : x / 2 ^ ((e : Int) - 1 - 52) = x * 2 ^ d * 2 := by
          have : (e : Int) - 1 - 52 = -((d : Int) + 1) := by omega
          rw [this, zpow_neg, zpow_add₀ (by norm_num), zpow_natCast, div_eq_mul_inv, inv_inv]
          norm_num
          ring
        rw [hsc]
        push_cast
        have h1 : x * 2 ^ d < (2 : ℚ) ^ e * 2 ^ d := mul_lt_mul_of_pos_right hxlt' hP
        nlinarith)
    rw [h, hnq']
    have : (e : Int) - 1 - 52 = -((d : Int) + 1) := by omega
    rw [this, zpow_neg, zpow_add₀ (by norm_num), zpow_natCast]
    push_cast
    have h2 : (2 : ℚ) ^ d = 4503599627370496 / 2 ^ e := by
      rw [eq_div_iff (by positivity)]
      linarith
    rw [h2]
    field_simp
    ring

/-- The constant `0.08` as a binary64 number. -/
theorem f64_eight_hundredths : f64 (8 / 100) = 5764607523034235 / 72057594037927936 := by
  have := f64_eval (8 / 100) (-4) 5764607523034235 (by norm_num) (by norm_num) (by norm_num)
    (by norm_num)
  rw [this]
  norm_num

/-- The constant `0.30` as a binary64 number. -/
theorem f64_three_tenths : f64 (3 / 10) = 5404319552844595 / 18014398509481984 := by
  have := f64_eval (3 / 10) (-2) 5404319552844595 (by norm_num) (by norm_num) (by norm_num)
    (by norm_num)
  rw [this]
  norm_num

/-- The product of a positive score below `2 ^ 40` with the binary64 constant `0.08`, rounded,
against an integer `n`: it is below, above or equal to `n` as `8 t / 100` is. -/
theorem f64_threshold_pos (t : ℕ) (ht : 0 < t) (ht2 : t < 2 ^ 40) (n : Int) :
    (100 * n < 8 * (t : Int) →
      (n : ℚ) < f64 ((t : ℚ) * (5764607523034235 / 72057594037927936))) ∧
    (8 * (t : Int) < 100 * n →
      f64 ((t : ℚ) * (5764607523034235 / 72057594037927936)) < (n : ℚ)) ∧
    (100 * n = 8 * (t : Int) →
      f64 ((t : ℚ) * (5764607523034235 / 72057594037927936)) = (n : ℚ)) := by
  have htq : (0 : ℚ) < (t : ℚ) := by exact_mod_cast ht
  have htq2 : (t : ℚ) < 1099511627776 := by exact_mod_cast ht2
  have hx : (0 : ℚ) < (t : ℚ) * (5764607523034235 / 72057594037927936) := by positivity
  have herr := abs_f64_sub_le _ hx
  rw [abs_le] at herr
  have h53 : (2 : ℚ) ^ (-53 : Int) = 1 / 9007199254740992 := by norm_num
  rw [h53] at herr
  refine ⟨?_, ?_, ?_⟩
  · intro h
    have h1 : 100 * n + 1 ≤ 8 * (t : Int) := by omega
    have h2 : (100 : ℚ) * (n : ℚ) + 1 ≤ 8 * (t : ℚ) := by exact_mod_cast h1
    -- the bound is `8 t / 100 - 1 / 100`, and `25 n < 2 t` gives room `1 / 25`
    have h3 : 25 * n + 1 ≤ 2 * (t : Int) := by omega
    have h4 : (25 : ℚ) * (n : ℚ) + 1 ≤ 2 * (t : ℚ) := by exact_mod_cast h3
    linarith [herr.1]
  · intro h
    have h3 : 2 * (t : Int) + 1 ≤ 25 * n := by omega
    have h4 : (2 : ℚ) * (t : ℚ) + 1 ≤ 25 * (n : ℚ) := by exact_mod_cast h3
    linarith [herr.2]
  · intro h
    have hn0 : 0 < n := by omega
    obtain ⟨m, rfl⟩ := Int.eq_ofNat_of_zero_le hn0.le
    have hm0 : 0 < m := by exact_mod_cast hn0
    have hmt : 25 * m = 2 * t := by omega
    have hmq : (25 : ℚ) * (m : ℚ) = 2 * (t : ℚ) := by exact_mod_cast hmt
    have hm2 : m < 2 ^ 52 := by
      have : (2 : ℕ) ^ 40 < 2 ^ 52 := by norm_num
      omega
    have hmq0 : (0 : ℚ) < (m : ℚ) := by exact_mod_cast hm0
    have h54 : (2 : ℚ) ^ (-54 : Int) = 1 / 18014398509481984 := by norm_num
    have := f64_near_natCast m hm0 hm2 ((t : ℚ) * (5764607523034235 / 72057594037927936))
      (by rw [h54]; nlinarith) (by rw [h54]; nlinarith)
    rw [this]
    push_cast
    rfl

/-- The product of the binary64 constant `0.30` with a positive baseline below `2 ^ 40`,
rounded, against an integer `n`: it is below, above or equal to `n` as `3 b / 10` is. -/
theorem f64_sibling_pos (b : ℕ) (hb : 0 < b) (hb2 : b < 2 ^ 40) (n : Int) :
    (3 * (b : Int) < 10 * n →
      f64 (5404319552844595 / 18014398509481984 * (b : ℚ)) < (n : ℚ)) ∧
    (10 * n < 3 * (b : Int) →
      (n : ℚ) < f64 (5404319552844595 / 18014398509481984 * (b : ℚ))) ∧
    (3 * (b : Int) = 10 * n →
      f64 (5404319552844595 / 18014398509481984 * (b : ℚ)) = (n : ℚ)) := by
  have hbq : (0 : ℚ) < (b : ℚ) := by exact_mod_cast hb
  have hbq2 : (b : ℚ) < 1099511627776 := by exact_mod_cast hb2
  have hx : (0 : ℚ) < 5404319552844595 / 18014398509481984 * (b : ℚ) := by positivity
  have herr := abs_f64_sub_le _ hx
  rw [abs_le] at herr
  have h53 : (2 : ℚ) ^ (-53 : Int) = 1 / 9007199254740992 := by norm_num
  rw [h53] at herr
  refine ⟨?_, ?_, ?_⟩
  · intro h
    have h3 : 3 * (b : Int) + 1 ≤ 10 * n := by omega
    have h4 : (3 : ℚ) * (b : ℚ) + 1 ≤ 10 * (n : ℚ) := by exact_mod_cast h3
    linarith [herr.2]
  · intro h
    have h3 : 10 * n + 1 ≤ 3 * (b : Int) := by omega
    have h4 : (10 : ℚ) * (n : ℚ) + 1 ≤ 3 * (b : ℚ) := by exact_mod_cast h3
    linarith [herr.1]
  · intro h
    have hn0 : 0 < n := by omega
    obtain ⟨m, rfl⟩ := Int.eq_ofNat_of_zero_le hn0.le
    have hm0 : 0 < m := by exact_mod_cast hn0
    have hmt : 3 * b = 10 * m := by omega
    have hmq : (3 : ℚ) * (b : ℚ) = 10 * (m : ℚ) := by exact_mod_cast hmt
    have hm2 : m < 2 ^ 52 := by
      have : (2 : ℕ) ^ 40 < 2 ^ 52 := by norm_num
      omega
    have hmq0 : (0 : ℚ) < (m : ℚ) := by exact_mod_cast hm0
    have h54 : (2 : ℚ) ^ (-54 : Int) = 1 / 18014398509481984 := by norm_num
    have := f64_near_natCast m hm0 hm2 (5404319552844595 / 18014398509481984 * (b : ℚ))
      (by rw [h54]; nlinarith) (by rw [h54]; nlinarith)
    rw [this]
    push_cast
    rfl

/-- The test `float64(currentNodeScore) < threasholdScore` of `isNodescoreThresholdMet` in
binary64 gives the result of the exact reading `100 * currentNodeScore < 8 * topNodeScore`, for
scores of absolute value below `2 ^ 40`. -/
theorem thresholdF64_lt_iff (t c : Int) (ht : |t| < 2 ^ 40) (hc : |c| < 2 ^ 40) :
    f64 (c : ℚ) < thresholdF64 t ↔ 100 * c < 8 * t := by
  have h4053 : (2 : Int) ^ 40 < 2 ^ 53 := by norm_num
  have hfc : f64 (c : ℚ) = c := f64_intCast_abs c (by omega)
  have hft : f64 (t : ℚ) = t := f64_intCast_abs t (by omega)
  unfold thresholdF64
  rw [hfc, hft, f64_eight_hundredths]
  rcases lt_trichotomy t 0 with hneg | hzero | hpos
  · -- a negative score of the top node
    obtain ⟨u, hu⟩ := Int.eq_ofNat_of_zero_le (show 0 ≤ -t by omega)
    have hu0 : 0 < u := by omega
    have hu2 : u < 2 ^ 40 := by
      have : ((u : Int)) < 2 ^ 40 := by rw [← hu, ← abs_of_neg hneg]; exact ht
      exact_mod_cast this
    have htu : (t : ℚ) = -(u : ℚ) := by
      have : t = -(u : Int) := by omega
      rw [this]; push_cast; rfl
    obtain ⟨h1, h2, h3⟩ := f64_threshold_pos u hu0 hu2 (-c)
    rw [htu, neg_mul, f64_neg]
    constructor
    · intro hlt
      by_contra hnot
      rcases (not_lt.1 hnot).lt_or_eq with h | h
      · have := h1 (by omega)
        push_cast at this
        linarith
      · have := h3 (by omega)
        push_cast at this
        linarith
    · intro hlt
      have := h2 (by omega)
      push_cast at this
      linarith
  · subst hzero
    simp only [Int.cast_zero, zero_mul, f64_zero, mul_zero]
    constructor
    · intro h
      have : c < 0 := by exact_mod_cast h
      omega
    · intro h
      have : c < 0 := by omega
      exact_mod_cast this
  · obtain ⟨u, hu⟩ := Int.eq_ofNat_of_zero_le hpos.le
    have hu0 : 0 < u := by omega
    have hu2 : u < 2 ^ 40 := by
      have : ((u : Int)) < 2 ^ 40 := by rw [← hu, ← abs_of_pos hpos]; exact ht
      exact_mod_cast this
    have htu : (t : ℚ) = (u : ℚ) := by rw [hu]; push_cast; rfl
    obtain ⟨h1, h2, h3⟩ := f64_threshold_pos u hu0 hu2 c
    rw [htu]
    constructor
    · intro hlt
      by_contra hnot
      rcases (not_lt.1 hnot).lt_or_eq with h | h
      · have := h2 (by omega)
        linarith
      · have := h3 (by omega)
        linarith
    · intro hlt
      exact h1 (by omega)

/-- The test `score < float64(paragraphScore)` of `getSiblingsContent` in binary64 gives the
result of the exact reading `3 * baseline < 10 * paragraphScore`, for a baseline that is not
negative (as `getSiblingsScore` returns it) and numbers below `2 ^ 40`. -/
theorem siblingScoreF64_lt_iff (b s : Int) (hb0 : 0 ≤ b) (hb : b < 2 ^ 40) (hs : |s| < 2 ^ 40) :
    siblingScoreF64 b < f64 (s : ℚ) ↔ 3 * b < 10 * s := by
  have h4053 : (2 : Int) ^ 40 < 2 ^ 53 := by norm_num
  have hfs : f64 (s : ℚ) = s := f64_intCast_abs s (by omega)
  have hfb : f64 (b : ℚ) = b := f64_intCast b hb0 (by omega)
  unfold siblingScoreF64
  rw [hfs, hfb, f64_three_tenths]
  rcases hb0.lt_or_eq with hpos | hzero
  · obtain ⟨u, hu⟩ := Int.eq_ofNat_of_zero_le hb0
    have hu0 : 0 < u := by omega
    have hu2 : u < 2 ^ 40 := by
      have : ((u : Int)) < 2 ^ 40 := by rw [← hu]; exact hb
      exact_mod_cast this
    have hbu : (b : ℚ) = (u : ℚ) := by rw [hu]; push_cast; rfl
    obtain ⟨h1, h2, h3⟩ := f64_sibling_pos u hu0 hu2 s
    rw [hbu]
    constructor
    · intro hlt
      by_contra hnot
      rcases (not_lt.1 hnot).lt_or_eq with h | h
      · have := h2 (by omega)
        linarith
      · have := h3 (by omega)
        linarith
    · intro hlt
      exact h1 (by omega)
  · subst hzero
    simp only [Int.cast_zero, mul_zero, f64_zero]
    constructor
    · intro h
      have : 0 < s := by exact_mod_cast h
      omega
    · intro h
      have : 0 < s := by omega
      exact_mod_cast this

/-! ## Lemmas on the tree -/

mutual
theorem descendants_path (det : Path → Bool) :
    ∀ (n : Node) (p : Path) (d : Path × Node), d ∈ n.descendants det p →
      ∃ j rest, d.1 = p ++ j :: rest
  | .mk t dd cs, p, d, h => by
    rw [Node.descendants] at h
    obtain ⟨j, rest, _, hj⟩ := descendantsList_path det cs p 0 d h
    exact ⟨j, rest, hj⟩
theorem descendantsList_path (det : Path → Bool) :
    ∀ (cs : List Node) (p : Path) (i : Nat) (d : Path × Node),
      d ∈ Node.descendantsList det cs p i → ∃ j rest, i ≤ j ∧ d.1 = p ++ j :: rest
  | [], p, i, d, h => by simp [Node.descendantsList] at h
  | c :: cs, p, i, d, h => by
    rw [Node.descendantsList, List.mem_append] at h
    rcases h with h | h
    · split at h
      · simp at h
      · rcases List.mem_cons.1 h with h | h
        · exact ⟨i, [], le_refl _, by rw [h]⟩
        · obtain ⟨j, rest, hj⟩ := descendants_path det c (p ++ [i]) d h
          exact ⟨i, j :: rest, le_refl _, by rw [hj]; simp⟩
    · obtain ⟨j, rest, hij, hj⟩ := descendantsList_path det cs p (i + 1) d h
      exact ⟨j, rest, by omega, hj⟩
end

/-- The subtree of the child with index `i` holds positions that start with `p ++ [i]`. -/
theorem descendants_child_path (det : Path → Bool) (c : Node) (p : Path) (i : Nat)
    (d : Path × Node)
    (h : d ∈ (if det (p ++ [i]) then [] else (p ++ [i], c) :: c.descendants det (p ++ [i]))) :
    ∃ rest, d.1 = p ++ i :: rest := by
  split at h
  · simp at h
  · rcases List.mem_cons.1 h with h | h
    · exact ⟨[], by rw [h]⟩
    · obtain ⟨j, rest, hj⟩ := descendants_path det c (p ++ [i]) d h
      exact ⟨j :: rest, by rw [hj]; simp⟩

mutual
/-- Document order: a node is listed before the nodes of its subtree, so no position is a prefix
of a position listed before it. -/
theorem descendants_pairwise (det : Path → Bool) :
    ∀ (n : Node) (p : Path),
      (n.descendants det p).Pairwise (fun a b => ¬ b.1 <+: a.1)
  | .mk t dd cs, p => by
    rw [Node.descendants]
    exact descendantsList_pairwise det cs p 0
theorem descendantsList_pairwise (det : Path → Bool) :
    ∀ (cs : List Node) (p : Path) (i : Nat),
      (Node.descendantsList det cs p i).Pairwise (fun a b => ¬ b.1 <+: a.1)
  | [], p, i => by simp [Node.descendantsList]
  | c :: cs, p, i => by
    rw [Node.descendantsList, List.pairwise_append]
    refine ⟨?_, descendantsList_pairwise det cs p (i + 1), ?_⟩
    · split
      · exact List.Pairwise.nil
      · rw [List.pairwise_cons]
        refine ⟨?_, descendants_pairwise det c (p ++ [i])⟩
        intro b hb hpre
        obtain ⟨j, rest, hj⟩ := descendants_path det c (p ++ [i]) b hb
        have hlen := hpre.length_le
        rw [hj] at hlen
        simp at hlen
    · intro a ha b hb hpre
      obtain ⟨s, hs⟩ := descendants_child_path det c p i a ha
      obtain ⟨j, rest, hij, hj⟩ := descendantsList_path det cs p (i + 1) b hb
      obtain ⟨t, ht⟩ := hpre
      rw [hs, hj, List.append_assoc, List.append_cancel_left_eq] at ht
      simp only [List.cons_append, List.cons.injEq] at ht
      omega
end

/-- No position is listed twice. -/
theorem descendants_nodup (det : Path → Bool) (n : Node) (p : Path) :
    ((n.descendants det p).map (fun d => d.1)).Nodup := by
  rw [List.Nodup, List.pairwise_map]
  refine (descendants_pairwise det n p).imp ?_
  intro a b h heq
  exact h (heq ▸ List.prefix_refl _)

mutual
/-- Membership in the list of the descendants: the node is reached from `n` by a non-empty
sequence of steps to linked children. -/
theorem mem_descendants (det : Path → Bool) :
    ∀ (n : Node) (p : Path) (q : Path) (m : Node),
      (q, m) ∈ n.descendants det p ↔
        ∃ r, r ≠ [] ∧ q = p ++ r ∧ Node.reach? det n p r = some m
  | .mk t dd cs, p, q, m => by
    rw [Node.descendants, mem_descendantsList det cs p 0 q m]
    constructor
    · rintro ⟨j, rest, c, _, hc, hdet, hq, hr⟩
      refine ⟨j :: rest, by simp, hq, ?_⟩
      simp only [Nat.sub_zero] at hc
      simp [Node.reach?, hc, hdet, hr]
    · rintro ⟨r, hne, hq, hr⟩
      cases r with
      | nil => exact absurd rfl hne
      | cons j rest =>
        simp only [Node.reach?] at hr
        cases hc : cs[j]? with
        | none => simp [hc] at hr
        | some c =>
          simp only [hc] at hr
          by_cases hdet : det (p ++ [j]) = true
          · simp [hdet] at hr
          · simp only [hdet, Bool.false_eq_true, if_false] at hr
            exact ⟨j, rest, c, Nat.zero_le _, by simpa using hc, by simpa using hdet, hq, hr⟩
theorem mem_descendantsList (det : Path → Bool) :
    ∀ (cs : List Node) (p : Path) (i : Nat) (q : Path) (m : Node),
      (q, m) ∈ Node.descendantsList det cs p i ↔
        ∃ j rest c, i ≤ j ∧ cs[j - i]? = some c ∧ det (p ++ [j]) = false ∧ q = p ++ j :: rest ∧
          Node.reach? det c (p ++ [j]) rest = some m
  | [], p, i, q, m => by simp [Node.descendantsList]
  | c :: cs, p, i, q, m => by
    rw [Node.descendantsList, List.mem_append, mem_descendantsList det cs p (i + 1) q m]
    constructor
    · rintro (h | ⟨j, rest, c', hij, hc, hdet, hq, hr⟩)
      · by_cases hdet : det (p ++ [i]) = true
        · simp [hdet] at h
        · simp only [hdet, Bool.false_eq_true, if_false, List.mem_cons, Prod.mk.injEq] at h
          rcases h with ⟨hq, hm⟩ | h
          · exact ⟨i, [], c, le_refl _, by simp, by simpa using hdet, hq, by simp [Node.reach?, hm]⟩
          · obtain ⟨r, hne, hq, hr⟩ := (mem_descendants det c (p ++ [i]) q m).1 h
            cases r with
            | nil => exact absurd rfl hne
            | cons k rest =>
              refine ⟨i, k :: rest, c, le_refl _, by simp, by simpa using hdet, ?_, hr⟩
              rw [hq]; simp
      · refine ⟨j, rest, c', by omega, ?_, hdet, hq, hr⟩
        have : j - i = (j - (i + 1)) + 1 := by omega
        rw [this, List.getElem?_cons_succ]
        exact hc
    · rintro ⟨j, rest, c', hij, hc, hdet, hq, hr⟩
      rcases Nat.eq_or_lt_of_le hij with hji | hji
      · subst hji
        left
        simp only [Nat.sub_self, List.getElem?_cons_zero, Option.some.injEq] at hc
        subst hc
        simp only [hdet, Bool.false_eq_true, if_false, List.mem_cons, Prod.mk.injEq]
        cases rest with
        | nil =>
          left
          simp only [Node.reach?, Option.some.injEq] at hr
          exact ⟨hq, hr.symm⟩
        | cons k rest =>
          right
          exact (mem_descendants det c (p ++ [i]) q m).2
            ⟨k :: rest, by simp, by rw [hq]; simp, hr⟩
      · right
        refine ⟨j, rest, c', by omega, ?_, hdet, hq, hr⟩
        have : j - i = (j - (i + 1)) + 1 := by omega
        rw [this, List.getElem?_cons_succ] at hc
        exact hc
end

theorem reach?_get? (det : Path → Bool) :
    ∀ (r : Path) (n : Node) (p : Path) (m : Node),
      Node.reach? det n p r = some m → n.get? r = some m
  | [], n, p, m, h => by
    cases n
    simpa [Node.reach?, Node.get?] using h
  | i :: rest, .mk t dd cs, p, m, h => by
    simp only [Node.reach?] at h
    simp only [Node.get?]
    cases hc : cs[i]? with
    | none => simp [hc] at h
    | some c =>
      simp only [hc] at h ⊢
      split at h
      · simp at h
      · exact reach?_get? det rest c _ m h

/-- The last node of a walk along linked children is linked. -/
theorem reach?_linked (det : Path → Bool) :
    ∀ (r : Path) (n : Node) (p : Path) (m : Node), r ≠ [] →
      Node.reach? det n p r = some m → det (p ++ r) = false
  | [], _, _, _, hne, _ => absurd rfl hne
  | i :: rest, .mk t dd cs, p, m, _, h => by
    simp only [Node.reach?] at h
    cases hc : cs[i]? with
    | none => simp [hc] at h
    | some c =>
      simp only [hc] at h
      by_cases hdet : det (p ++ [i]) = true
      · simp [hdet] at h
      · simp only [hdet, Bool.false_eq_true, if_false] at h
        cases rest with
        | nil => simpa using hdet
        | cons k rest =>
          have := reach?_linked det (k :: rest) c (p ++ [i]) m (by simp) h
          simpa using this

theorem reach?_append (det : Path → Bool) :
    ∀ (r1 r2 : Path) (n : Node) (p : Path),
      Node.reach? det n p (r1 ++ r2) =
        (Node.reach? det n p r1).bind (fun m => Node.reach? det m (p ++ r1) r2)
  | [], r2, n, p => by
    cases n
    simp [Node.reach?]
  | i :: rest, r2, .mk t dd cs, p => by
    simp only [List.cons_append, Node.reach?]
    cases hc : cs[i]? with
    | none => simp
    | some c =>
      simp only
      split
      · simp
      · have ih := reach?_append det rest r2 c (p ++ [i])
        simp only [List.append_assoc, List.singleton_append] at ih
        simpa using ih

/-- A node in the list of the descendants of the document node is the node at its position, and
it is linked. -/
theorem mem_descendants_root (doc : Document) (q : Path) (m : Node)
    (h : (q, m) ∈ doc.root.descendants doc.Detached []) :
    doc.root.get? q = some m ∧ doc.Detached q = false ∧ q ≠ [] := by
  obtain ⟨r, hne, hq, hr⟩ := (mem_descendants _ _ _ _ _).1 h
  simp only [List.nil_append] at hq
  subst hq
  refine ⟨reach?_get? _ _ _ _ _ hr, ?_, hne⟩
  simpa using reach?_linked _ _ _ _ _ hne hr

theorem appendWithoutDuplicates_nodup (nodes : List NodeRef) :
    ∀ (target : List NodeRef), (target ++ nodes).Nodup →
      appendWithoutDuplicates target nodes = target ++ nodes := by
  induction nodes with
  | nil => intro target _; simp [appendWithoutDuplicates]
  | cons n rest ih =>
    intro target h
    have hn : n ∉ target := by
      intro hmem
      rw [List.nodup_append] at h
      exact h.2.2 hmem (List.mem_cons_self _ _)
    have h2 : ((target ++ [n]) ++ rest).Nodup := by simpa using h
    have := ih (target ++ [n]) h2
    unfold appendWithoutDuplicates at this ⊢
    rw [List.foldl_cons, if_neg hn, this]
    simp

/-- On a selection of one node, `mapNodes` returns the result of the function when it has no
repeated node. -/
theorem mapNodes_single (f : NodeRef → List NodeRef) (r : NodeRef) (h : (f r).Nodup) :
    mapNodes [r] f = f r := by
  unfold mapNodes
  simp only [List.foldl_cons, List.foldl_nil]
  rw [appendWithoutDuplicates_nodup _ _ (by simpa using h)]
  simp

theorem mapNodes_nil (f : NodeRef → List NodeRef) : mapNodes [] f = [] := rfl

theorem inDoc_injective : Function.Injective NodeRef.inDoc := by
  intro a b h
  cases h
  rfl

theorem findNode_nodup (doc : Document) (tag : String) (r : NodeRef) :
    (findNode doc tag r).Nodup := by
  cases r with
  | synthesized t => simp [findNode]
  | inDoc p =>
    unfold findNode
    cases hn : doc.root.get? p with
    | none => simp [hn]
    | some n =>
      simp only [hn]
      have h := descendants_nodup doc.Detached n p
      have h2 : (((n.descendants doc.Detached p).filter
          (fun d => d.2.Typ = NodeType.ElementNode ∧ d.2.Data = tag)).map (fun d => d.1)).Nodup :=
        (List.Sublist.map _ (List.filter_sublist _)).nodup h
      have h3 := h2.map inDoc_injective
      simpa [List.map_map] using h3

/-- The function `Find` on a selection of one node lists the elements with the tag among the
descendants of the node, in document order. -/
theorem Find_single (doc : Document) (r : NodeRef) (tag : String) :
    Find doc [r] tag = findNode doc tag r :=
  mapNodes_single _ _ (findNode_nodup doc tag r)

theorem docOrder_nodup (doc : Document) : (docOrder doc).Nodup := by
  unfold docOrder
  have h := (descendants_nodup doc.Detached doc.root []).map inDoc_injective
  simpa [List.map_map] using h

theorem mem_docOrder (doc : Document) (r : NodeRef) :
    r ∈ docOrder doc ↔ ∃ q m, r = .inDoc q ∧ (q, m) ∈ doc.root.descendants doc.Detached [] := by
  unfold docOrder
  simp only [List.mem_map, Prod.exists]
  constructor
  · rintro ⟨q, m, h, rfl⟩
    exact ⟨q, m, rfl, h⟩
  · rintro ⟨q, m, rfl, h⟩
    exact ⟨q, m, h, rfl⟩

theorem atomString_eq_iff (m : Node) (tag : String) (htag : tag ≠ "") :
    m.atomString = tag ↔ m.Typ = NodeType.ElementNode ∧ m.Data = tag := by
  unfold Node.atomString
  by_cases h : m.Typ = NodeType.ElementNode
  · simp [h]
  · simp only [h, if_false, false_and, iff_false]
    exact fun h' => htag h'.symm

/-- The elements with a tag below the document node are the members of the document order with
this tag. -/
theorem findNode_root (doc : Document) (tag : String) (htag : tag ≠ "") :
    findNode doc tag (.inDoc []) = elementsByTag doc tag := by
  unfold findNode elementsByTag docOrder
  simp only [Node.get?]
  rw [List.filter_map]
  congr 1
  apply List.filter_congr
  intro d hd
  obtain ⟨hget, _, _⟩ := mem_descendants_root doc d.1 d.2 hd
  have hatom : atomOf doc (.inDoc d.1) = d.2.atomString := by simp [atomOf, hget]
  simp only [Function.comp, hatom]
  have := atomString_eq_iff d.2 tag htag
  by_cases h1 : d.2.atomString = tag
  · simp [h1, this.1 h1]
  · have h2 : ¬ (d.2.Typ = NodeType.ElementNode ∧ d.2.Data = tag) := fun h => h1 (this.2 h)
    simp only [h1, decide_False]
    simpa using h2

theorem nodesToCheck_eq (doc : Document) :
    nodesToCheck doc =
      (elementsByTag doc "p" ++ elementsByTag doc "pre" ++ elementsByTag doc "td").map
        (fun r => [r]) := by
  unfold nodesToCheck
  simp only [List.flatMap_cons, List.flatMap_nil, List.append_nil, Find_single]
  rw [findNode_root doc "p" (by decide), findNode_root doc "pre" (by decide),
    findNode_root doc "td" (by decide)]
  simp

theorem elementsByTag_disjoint (doc : Document) (t1 t2 : String) (h : t1 ≠ t2) :
    List.Disjoint (elementsByTag doc t1) (elementsByTag doc t2) := by
  intro r h1 h2
  unfold elementsByTag at h1 h2
  simp only [List.mem_filter, decide_eq_true_eq] at h1 h2
  exact h (h1.2.symm.trans h2.2)

theorem elementsByTag_nodup (doc : Document) (tag : String) : (elementsByTag doc tag).Nodup :=
  (docOrder_nodup doc).sublist (List.filter_sublist _)

/-! ## C11: the sequence of the candidates -/

/-- C11 (counterexample): in a document with a `pre` element followed by a paragraph,
`nodesToCheck` lists the paragraph (position `[0, 1, 1]`) before the `pre` element (position
`[0, 1, 0]`), which comes first in the document: the sequence is not in document order. -/
theorem nodesToCheck_not_in_document_order :
    nodesToCheck preThenParagraph = [[.inDoc [0, 1, 1]], [.inDoc [0, 1, 0]]] ∧
    docOrder preThenParagraph =
      [.inDoc [0], .inDoc [0, 0], .inDoc [0, 1], .inDoc [0, 1, 0], .inDoc [0, 1, 0, 0],
        .inDoc [0, 1, 1], .inDoc [0, 1, 1, 0]] ∧
    ¬ List.Sublist (nodesToCheck preThenParagraph).flatten (docOrder preThenParagraph) := by
  decide

/-- C11 (amended).  For every document, `nodesToCheck` returns the `p` elements in document
order, then the `pre` elements in document order, then the `td` elements in document order:
the sequence is grouped by tag, and document order holds within one tag only.  It holds exactly
the `p`, `pre` and `td` elements that are linked to the tree, each exactly once. -/
theorem nodesToCheck_grouped_by_tag (doc : Document) :
    nodesToCheck doc =
      (elementsByTag doc "p" ++ elementsByTag doc "pre" ++ elementsByTag doc "td").map
        (fun r => [r]) ∧
    (∀ tag, List.Sublist (elementsByTag doc tag) (docOrder doc)) ∧
    (docOrder doc).Nodup ∧
    (nodesToCheck doc).Nodup ∧
    (∀ node, node ∈ nodesToCheck doc ↔ ∃ p, node = [.inDoc p] ∧ IsCandidateElement doc p) := by
  refine ⟨nodesToCheck_eq doc, fun tag => List.filter_sublist _, docOrder_nodup doc, ?_,
    mem_nodesToCheck doc⟩
  rw [nodesToCheck_eq]
  apply List.Nodup.map
  · intro a b h
    simpa using h
  · rw [List.nodup_append, List.nodup_append]
    refine ⟨⟨elementsByTag_nodup doc _, elementsByTag_nodup doc _,
      elementsByTag_disjoint doc _ _ (by decide)⟩, elementsByTag_nodup doc _, ?_⟩
    intro r h1 h2
    rcases List.mem_append.1 h1 with h | h
    · exact elementsByTag_disjoint doc "p" "td" (by decide) h h2
    · exact elementsByTag_disjoint doc "pre" "td" (by decide) h h2

/-! ## Lemmas on the children of a node -/

theorem get?_append :
    ∀ (r1 r2 : Path) (n : Node), n.get? (r1 ++ r2) = (n.get? r1).bind (fun m => m.get? r2)
  | [], r2, n => by
    cases n
    simp [Node.get?]
  | i :: rest, r2, .mk t dd cs => by
    simp only [List.cons_append, Node.get?]
    cases hc : cs[i]? with
    | none => simp
    | some c => simpa using get?_append rest r2 c

theorem get?_child (n c : Node) (j : Nat) (h : n.Children[j]? = some c) :
    n.get? [j] = some c := by
  cases n with
  | mk t dd cs =>
    simp only [Node.Children] at h
    simp [Node.get?, h]

theorem mem_linkedChildren (det : Path → Bool) :
    ∀ (cs : List Node) (p : Path) (i : Nat) (d : Path × Node),
      d ∈ Node.linkedChildren det cs p i →
        ∃ j, i ≤ j ∧ d.1 = p ++ [j] ∧ cs[j - i]? = some d.2 ∧ det (p ++ [j]) = false
  | [], p, i, d, h => by simp [Node.linkedChildren] at h
  | c :: cs, p, i, d, h => by
    rw [Node.linkedChildren, List.mem_append] at h
    rcases h with h | h
    · by_cases hdet : det (p ++ [i]) = true
      · simp [hdet] at h
      · simp only [hdet, Bool.false_eq_true, if_false, List.mem_singleton] at h
        subst h
        exact ⟨i, le_refl _, rfl, by simp, by simpa using hdet⟩
    · obtain ⟨j, hij, hp, hc, hdet⟩ := mem_linkedChildren det cs p (i + 1) d h
      refine ⟨j, by omega, hp, ?_, hdet⟩
      have : j - i = (j - (i + 1)) + 1 := by omega
      rw [this, List.getElem?_cons_succ]
      exact hc

theorem siblingIndex_snoc (p : Path) (k : Nat) : siblingIndex (.inDoc (p ++ [k])) = k := by
  simp [siblingIndex]

theorem linkedChildren_sorted (det : Path → Bool) :
    ∀ (cs : List Node) (p : Path) (i : Nat),
      (Node.linkedChildren det cs p i).Pairwise
        (fun a b => siblingIndex (.inDoc a.1) < siblingIndex (.inDoc b.1))
  | [], p, i => by simp [Node.linkedChildren]
  | c :: cs, p, i => by
    rw [Node.linkedChildren, List.pairwise_append]
    refine ⟨?_, linkedChildren_sorted det cs p (i + 1), ?_⟩
    · split
      · exact List.Pairwise.nil
      · exact List.pairwise_singleton _ _
    · intro a ha b hb
      have ha' : a.1 = p ++ [i] := by
        split at ha
        · simp at ha
        · rw [List.mem_singleton.1 ha]
      obtain ⟨j, hij, hp, _, _⟩ := mem_linkedChildren det cs p (i + 1) b hb
      rw [ha', hp, siblingIndex_snoc, siblingIndex_snoc]
      omega

/-- The members of `Children()` of the node at `p`: linked element children, at the positions
`p ++ [j]`. -/
theorem mem_childrenNode (doc : Document) (p : Path) (r : NodeRef)
    (h : r ∈ childrenNode doc (.inDoc p)) :
    ∃ j c, r = .inDoc (p ++ [j]) ∧ doc.root.get? (p ++ [j]) = some c ∧
      c.Typ = NodeType.ElementNode ∧ doc.Detached (p ++ [j]) = false := by
  unfold childrenNode at h
  cases hn : doc.root.get? p with
  | none => simp [hn] at h
  | some n =>
    simp only [hn, List.mem_map, List.mem_filter, decide_eq_true_eq] at h
    obtain ⟨d, ⟨hd, hty⟩, rfl⟩ := h
    obtain ⟨j, _, hp, hc, hdet⟩ := mem_linkedChildren _ _ _ _ _ hd
    refine ⟨j, d.2, by rw [hp], ?_, hty, hdet⟩
    rw [get?_append, hn]
    exact get?_child n d.2 j (by simpa using hc)

theorem childrenNode_sorted (doc : Document) (p : Path) :
    (childrenNode doc (.inDoc p)).Pairwise (fun a b => siblingIndex a < siblingIndex b) := by
  unfold childrenNode
  cases hn : doc.root.get? p with
  | none => simp [hn]
  | some n =>
    simp only [hn]
    rw [List.pairwise_map]
    exact (linkedChildren_sorted doc.Detached n.Children p 0).sublist (List.filter_sublist _)

/-! ## Lemmas on `walkSiblings` -/

/-- The function `Prev` on one linked node: the last of the element siblings before it. -/
theorem Prev_single (doc : Document) (p : Path) (k : Nat) (c : Node)
    (hget : doc.root.get? (p ++ [k]) = some c) (hdet : doc.Detached (p ++ [k]) = false) :
    Prev doc [.inDoc (p ++ [k])] =
      ((childrenNode doc (.inDoc p)).filter (fun r => siblingIndex r < k)).getLast?.toList := by
  have h : prevNode doc (.inDoc (p ++ [k])) =
      ((childrenNode doc (.inDoc p)).filter (fun r => siblingIndex r < k)).getLast?.toList := by
    unfold prevNode
    simp only [hget, hdet, List.dropLast_concat, siblingIndex_snoc]
    have hne : ¬ (p ++ [k] = [] ∨ false = true) := by simp
    rw [if_neg hne]
    cases ((childrenNode doc (.inDoc p)).filter (fun r => siblingIndex r < k)).getLast? <;> rfl
  unfold Prev
  rw [mapNodes_single, h]
  rw [h]
  cases ((childrenNode doc (.inDoc p)).filter (fun r => siblingIndex r < k)).getLast? <;> simp

/-- In a list sorted by index, the members before the last member below `k` are the members
below the index of that member. -/
theorem filter_lt_of_sorted (L L' : List NodeRef) (r : NodeRef) (k : Nat)
    (hs : L.Pairwise (fun a b => siblingIndex a < siblingIndex b))
    (h : L.filter (fun x => siblingIndex x < k) = L' ++ [r]) :
    L.filter (fun x => siblingIndex x < siblingIndex r) = L' := by
  have hr : r ∈ L.filter (fun x => siblingIndex x < k) := by rw [h]; simp
  have hrk : siblingIndex r < k := by simpa using (List.mem_filter.1 hr).2
  have hpw : (L' ++ [r]).Pairwise (fun a b => siblingIndex a < siblingIndex b) :=
    h ▸ hs.sublist (List.filter_sublist _)
  have hlt : ∀ a ∈ L', siblingIndex a < siblingIndex r := fun a ha =>
    (List.pairwise_append.1 hpw).2.2 a ha r (List.mem_singleton_self r)
  have h1 : L.filter (fun x => siblingIndex x < siblingIndex r) =
      (L.filter (fun x => siblingIndex x < k)).filter (fun x => siblingIndex x < siblingIndex r) := by
    rw [List.filter_filter]
    apply List.filter_congr
    intro x _
    by_cases hx : siblingIndex x < siblingIndex r
    · have : siblingIndex x < k := by omega
      simp [hx, this]
    · simp [hx]
  rw [h1, h, List.filter_append]
  simp only [List.filter_cons, lt_self_iff_false, decide_False, List.filter_nil,
    List.append_nil, Bool.false_eq_true, if_false]
  rw [List.filter_eq_self]
  intro a ha
  simpa using hlt a ha

theorem walkSiblingsLoop_eq (doc : Document) (p : Path) :
    ∀ (fuel k : Nat), k ≤ fuel →
      walkSiblingsLoop doc fuel
          ((childrenNode doc (.inDoc p)).filter (fun r => siblingIndex r < k)).getLast?.toList =
        (((childrenNode doc (.inDoc p)).filter (fun r => siblingIndex r < k)).reverse).map
          (fun r => [r]) := by
  intro fuel
  induction fuel with
  | zero =>
    intro k hk
    have hk0 : k = 0 := by omega
    subst hk0
    simp [walkSiblingsLoop]
  | succ fuel ih =>
    intro k hk
    rcases List.eq_nil_or_concat
      ((childrenNode doc (.inDoc p)).filter (fun r => siblingIndex r < k)) with h | ⟨L', r, h⟩
    · rw [h]
      simp [walkSiblingsLoop]
    · rw [List.concat_eq_append] at h
      rw [h]
      have hr : r ∈ (childrenNode doc (.inDoc p)).filter (fun r => siblingIndex r < k) := by
        rw [h]; simp
      obtain ⟨hrmem, hrk⟩ := List.mem_filter.1 hr
      obtain ⟨j, c, rfl, hget, _, hdet⟩ := mem_childrenNode doc p r hrmem
      rw [siblingIndex_snoc] at hrk
      have hjk : j < k := by simpa using hrk
      have hF := filter_lt_of_sorted _ L' _ k (childrenNode_sorted doc p) h
      rw [siblingIndex_snoc] at hF
      have hlast : (L' ++ [NodeRef.inDoc (p ++ [j])]).getLast? = some (.inDoc (p ++ [j])) := by
        simp
      rw [hlast]
      simp only [Option.toList_some, walkSiblingsLoop, List.length_singleton, ne_eq,
        one_ne_zero, not_false_eq_true, if_true, List.reverse_append, List.reverse_singleton,
        List.singleton_append, List.map_cons]
      rw [Prev_single doc p j c hget hdet, ih j (by omega), hF]

/-- The function `walkSiblings` on one linked node returns the element siblings before it, the
nearest first. -/
theorem walkSiblings_single (doc : Document) (q : Path) (c : Node) (hq : q ≠ [])
    (hget : doc.root.get? q = some c) (hdet : doc.Detached q = false) :
    walkSiblings doc [.inDoc q] = ((precedingSiblings doc q).reverse).map (fun r => [r]) := by
  obtain ⟨p, k, rfl⟩ : ∃ p k, q = p ++ [k] :=
    ⟨q.dropLast, q.getLast hq, (List.dropLast_append_getLast hq).symm⟩
  unfold walkSiblings precedingSiblings
  simp only [List.map_cons, List.map_nil, List.sum_cons, List.sum_nil, add_zero,
    siblingIndex_snoc, List.dropLast_concat]
  rw [Prev_single doc p k c hget hdet]
  exact walkSiblingsLoop_eq doc p (k + 1) k (by omega)

/-! ## Lemmas on `addSiblings` -/

theorem prependAll_singletons (l : List NodeRef) :
    ∀ (topNode : Selection),
      prependAll (l.map (fun r => [r])) topNode = .ok (l.reverse ++ topNode) := by
  induction l with
  | nil => intro topNode; rfl
  | cons r rest ih =>
    intro topNode
    simp only [List.map_cons, prependAll, Get0]
    rw [ih]
    simp

theorem utf8ByteSize_pos_iff (s : String) : s.utf8ByteSize > 0 ↔ s ≠ "" := by
  constructor
  · intro h hs
    subst hs
    simp [String.utf8ByteSize, String.utf8ByteSize.go] at h
  · intro h
    cases s with
    | mk data =>
      cases data with
      | nil => exact absurd rfl h
      | cons c cs =>
        simp only [String.utf8ByteSize, String.utf8ByteSize.go]
        have := Char.utf8Size_pos c
        omega

theorem filterMap_if {α β : Type} (P : α → Bool) (f : α → β) (l : List α) :
    l.filterMap (fun s => if P s = true then some (f s) else none) = (l.filter P).map f := by
  induction l with
  | nil => rfl
  | cons x rest ih =>
    by_cases h : P x = true
    · simp [List.filterMap_cons, List.filter_cons, h, ih]
    · simp [List.filterMap_cons, List.filter_cons, h, ih]

/-- The function `getSiblingsContent` on one sibling returns the nodes the specification
describes, each as a selection of one node. -/
theorem getSiblingsContent_single (sw : String → Int) (doc : Document) (baseline : Int)
    (s : NodeRef) :
    getSiblingsContent sw doc [s] (baseline : ℚ) =
      .ok ((recoveredNodes sw doc baseline s).map (fun r => [r])) := by
  unfold getSiblingsContent recoveredNodes
  simp only [Get0, utf8ByteSize_pos_iff]
  by_cases h : atomOf doc s = "p" ∧ Text doc [s] ≠ ""
  · rw [if_pos h, if_pos h]
    rfl
  · rw [if_neg h, if_neg h, Find_single, List.map_map, ← filterMap_if]
    congr 2
    funext c
    have hq : ((3 : ℚ) / 10 * (baseline : ℚ) < ((sw (Text doc [c]) : Int) : ℚ)) ↔
        3 * baseline < 10 * sw (Text doc [c]) := by
      constructor
      · intro hlt
        have : (3 : ℚ) * (baseline : ℚ) < 10 * ((sw (Text doc [c]) : Int) : ℚ) := by linarith
        exact_mod_cast this
      · intro hlt
        have : (3 : ℚ) * (baseline : ℚ) < 10 * ((sw (Text doc [c]) : Int) : ℚ) := by
          exact_mod_cast hlt
        linarith
    by_cases h1 : Text doc [c] ≠ ""
    · by_cases h2 : 3 * baseline < 10 * sw (Text doc [c])
      · by_cases h3 : isHighLinkDensity doc [c] = false
        · simp [h1, h2, h3, hq]
        · simp [h1, h2, h3, hq]
      · simp [h1, h2, hq]
    · simp [h1]

theorem addSiblingsLoop_eq (sw : String → Int) (doc : Document) (baseline : Int)
    (sibs : List NodeRef) :
    ∀ (topNode : Selection),
      addSiblingsLoop sw doc baseline (sibs.map (fun r => [r])) topNode =
        .ok ((sibs.flatMap (recoveredNodes sw doc baseline)).reverse ++ topNode) := by
  induction sibs with
  | nil => intro topNode; rfl
  | cons s rest ih =>
    intro topNode
    simp only [List.map_cons, addSiblingsLoop, getSiblingsContent_single,
      prependAll_singletons]
    rw [ih]
    simp

theorem reverse_flatMap_reverse (l : List NodeRef) (f : NodeRef → List NodeRef) :
    (l.reverse.flatMap f).reverse = l.flatMap (fun x => (f x).reverse) := by
  induction l with
  | nil => rfl
  | cons x rest ih =>
    simp only [List.reverse_cons, List.flatMap_append, List.flatMap_cons, List.flatMap_nil,
      List.append_nil, List.reverse_append, ih]

/-- The function `addSiblings` on one linked node: the siblings before it are taken in document
order, the nodes recovered from one sibling in the reverse of the order `getSiblingsContent`
returns them, and the node itself comes last. -/
theorem addSiblings_single (sw : String → Int) (doc : Document) (q : Path) (c : Node)
    (hq : q ≠ []) (hget : doc.root.get? q = some c) (hdet : doc.Detached q = false) :
    addSiblings sw doc [.inDoc q] =
      .ok ((precedingSiblings doc q).flatMap
        (fun s => (recoveredNodes sw doc (getSiblingsScore sw doc [.inDoc q]) s).reverse) ++
          [.inDoc q]) := by
  unfold addSiblings
  simp only [walkSiblings_single doc q c hq hget hdet, addSiblingsLoop_eq,
    reverse_flatMap_reverse]

theorem eq_ok_of_okValue {α : Type} (r : Except Panic α) (a : α) (h : okValue r = some a) :
    r = .ok a := by
  cases r with
  | error e => simp [okValue] at h
  | ok b =>
    simp only [okValue, Option.some.injEq] at h
    rw [h]

theorem mem_linkedChildren_iff (det : Path → Bool) :
    ∀ (cs : List Node) (p : Path) (i : Nat) (d : Path × Node),
      d ∈ Node.linkedChildren det cs p i ↔
        ∃ j, i ≤ j ∧ d.1 = p ++ [j] ∧ cs[j - i]? = some d.2 ∧ det (p ++ [j]) = false
  | [], p, i, d => by simp [Node.linkedChildren]
  | c :: cs, p, i, d => by
    constructor
    · exact mem_linkedChildren det (c :: cs) p i d
    · rintro ⟨j, hij, hp, hc, hdet⟩
      rw [Node.linkedChildren, List.mem_append]
      rcases Nat.eq_or_lt_of_le hij with hji | hji
      · subst hji
        left
        simp only [Nat.sub_self, List.getElem?_cons_zero, Option.some.injEq] at hc
        simp only [hdet, Bool.false_eq_true, if_false, List.mem_singleton]
        exact Prod.ext hp hc.symm
      · right
        refine (mem_linkedChildren_iff det cs p (i + 1) d).2 ⟨j, by omega, hp, ?_, hdet⟩
        have : j - i = (j - (i + 1)) + 1 := by omega
        rw [this, List.getElem?_cons_succ] at hc
        exact hc

theorem get?_snoc (n : Node) (p : Path) (j : Nat) (c : Node) :
    n.get? (p ++ [j]) = some c ↔ ∃ m, n.get? p = some m ∧ m.Children[j]? = some c := by
  rw [get?_append]
  constructor
  · intro h
    cases hm : n.get? p with
    | none => simp [hm] at h
    | some m =>
      refine ⟨m, rfl, ?_⟩
      simp only [hm, Option.some_bind] at h
      cases m with
      | mk t dd cs =>
        simp only [Node.get?] at h
        simp only [Node.Children]
        cases hc : cs[j]? with
        | none => simp [hc] at h
        | some c' => simpa [hc] using h
  · rintro ⟨m, hm, hc⟩
    simp only [hm, Option.some_bind]
    exact get?_child m c j hc

/-- The members of `Children()` of the node at `p` are exactly its linked element children. -/
theorem mem_childrenNode_iff (doc : Document) (p : Path) (r : NodeRef) :
    r ∈ childrenNode doc (.inDoc p) ↔
      ∃ j c, r = .inDoc (p ++ [j]) ∧ doc.root.get? (p ++ [j]) = some c ∧
        c.Typ = NodeType.ElementNode ∧ doc.Detached (p ++ [j]) = false := by
  constructor
  · exact mem_childrenNode doc p r
  · rintro ⟨j, c, rfl, hget, hty, hdet⟩
    obtain ⟨m, hm, hc⟩ := (get?_snoc _ _ _ _).1 hget
    unfold childrenNode
    simp only [hm, List.mem_map, List.mem_filter, decide_eq_true_eq]
    exact ⟨(p ++ [j], c), ⟨(mem_linkedChildren_iff _ _ _ _ _).2
      ⟨j, Nat.zero_le _, rfl, by simpa using hc, hdet⟩, hty⟩, rfl⟩

/-- The element siblings before the node at `p ++ [k]` are the linked element children of the
node at `p` with an index below `k`. -/
theorem mem_precedingSiblings (doc : Document) (p : Path) (k : Nat) (r : NodeRef) :
    r ∈ precedingSiblings doc (p ++ [k]) ↔
      ∃ j c, j < k ∧ r = .inDoc (p ++ [j]) ∧ doc.root.get? (p ++ [j]) = some c ∧
        c.Typ = NodeType.ElementNode ∧ doc.Detached (p ++ [j]) = false := by
  unfold precedingSiblings
  simp only [List.dropLast_concat, siblingIndex_snoc, List.mem_filter, decide_eq_true_eq,
    mem_childrenNode_iff]
  constructor
  · rintro ⟨⟨j, c, rfl, hget, hty, hdet⟩, hlt⟩
    rw [siblingIndex_snoc] at hlt
    exact ⟨j, c, hlt, rfl, hget, hty, hdet⟩
  · rintro ⟨j, c, hlt, rfl, hget, hty, hdet⟩
    exact ⟨⟨j, c, rfl, hget, hty, hdet⟩, by rw [siblingIndex_snoc]; exact hlt⟩

theorem precedingSiblings_sorted (doc : Document) (q : Path) :
    (precedingSiblings doc q).Pairwise (fun a b => siblingIndex a < siblingIndex b) :=
  (childrenNode_sorted doc q.dropLast).sublist (List.filter_sublist _)

/-! ## C12: sibling recovery with one paragraph for each sibling -/

/-- C12.  For a top node at the position `p ++ [k]`: `walkSiblings` returns exactly the element
siblings before it (the linked element children of its parent with an index below `k`), the
nearest first; and when every such sibling yields exactly one recovered paragraph `para s`,
`addSiblings` produces these paragraphs in document order of their siblings (the farthest
sibling first, the nearest last), followed by the top node. -/
theorem addSiblings_single_paragraphs (sw : String → Int) (doc : Document) (p : Path) (k : Nat)
    (c : Node) (para : NodeRef → NodeRef)
    (hget : doc.root.get? (p ++ [k]) = some c) (hdet : doc.Detached (p ++ [k]) = false)
    (hone : ∀ s ∈ precedingSiblings doc (p ++ [k]),
      getSiblingsContent sw doc [s] (getSiblingsScore sw doc [.inDoc (p ++ [k])] : ℚ) =
        .ok [[para s]]) :
    walkSiblings doc [.inDoc (p ++ [k])] =
      ((precedingSiblings doc (p ++ [k])).reverse).map (fun r => [r]) ∧
    (∀ r, r ∈ precedingSiblings doc (p ++ [k]) ↔
      ∃ j n, j < k ∧ r = .inDoc (p ++ [j]) ∧ doc.root.get? (p ++ [j]) = some n ∧
        n.Typ = NodeType.ElementNode ∧ doc.Detached (p ++ [j]) = false) ∧
    (precedingSiblings doc (p ++ [k])).Pairwise (fun a b => siblingIndex a < siblingIndex b) ∧
    addSiblings sw doc [.inDoc (p ++ [k])] =
      .ok ((precedingSiblings doc (p ++ [k])).map para ++ [.inDoc (p ++ [k])]) := by
  refine ⟨walkSiblings_single doc _ c (by simp) hget hdet, mem_precedingSiblings doc p k,
    precedingSiblings_sorted doc _, ?_⟩
  rw [addSiblings_single sw doc _ c (by simp) hget hdet]
  congr 2
  have hrec : ∀ s ∈ precedingSiblings doc (p ++ [k]),
      (recoveredNodes sw doc (getSiblingsScore sw doc [.inDoc (p ++ [k])]) s).reverse =
        [para s] := by
    intro s hs
    have h := hone s hs
    rw [getSiblingsContent_single] at h
    have h2 : (recoveredNodes sw doc (getSiblingsScore sw doc [.inDoc (p ++ [k])]) s).map
        (fun r => [r]) = [[para s]] := by
      injection h
    cases hl : recoveredNodes sw doc (getSiblingsScore sw doc [.inDoc (p ++ [k])]) s with
    | nil => rw [hl] at h2; simp at h2
    | cons a rest =>
      rw [hl] at h2
      simp only [List.map_cons, List.cons.injEq, List.map_eq_nil_iff] at h2
      obtain ⟨⟨ha, _⟩, hrest⟩ := h2
      rw [hrest, ha]
      rfl
  generalize precedingSiblings doc (p ++ [k]) = l at hrec
  induction l with
  | nil => rfl
  | cons s rest ih =>
    simp only [List.flatMap_cons, List.map_cons]
    rw [hrec s (List.mem_cons_self _ _), ih (fun x hx => hrec x (List.mem_cons_of_mem _ hx))]
    rfl

/-- C12 at a concrete input (k = 3): the top node is preceded by a paragraph, a `div` with one
paragraph and another paragraph; the merged sequence is the first paragraph, the plain-text
paragraph made from the `div`, the third paragraph and then the top node. -/
theorem addSiblings_single_paragraphs_witness :
    walkSiblings threeSiblings [.inDoc [0, 1, 3]] =
      [[.inDoc [0, 1, 2]], [.inDoc [0, 1, 1]], [.inDoc [0, 1, 0]]] ∧
    addSiblings demoStopWords threeSiblings [.inDoc [0, 1, 3]] =
      .ok [.inDoc [0, 1, 0], .synthesized "two e", .inDoc [0, 1, 2], .inDoc [0, 1, 3]] := by
  have h := addSiblings_single_paragraphs demoStopWords threeSiblings [0, 1] 3
    (elem "div" [elem "p" [txt "eee"]])
    (fun s => if s = .inDoc [0, 1, 1] then .synthesized "two e" else s) rfl rfl
    (fun s hs => eq_ok_of_okValue _ _ (by revert s; decide!))
  exact ⟨h.1, h.2.2.2⟩

/-! ## C13: sibling recovery in general -/

/-- C13 (code defect) at a concrete input: the sibling before the top node holds two
paragraphs, `ea` and then `eb`.  The function `getSiblingsContent` returns them in document
order, and `addSiblings` puts each in front of the sequence, one at a time, so the merged
sequence has `eb` before `ea`: not the forward document order that the claim states. -/
theorem addSiblings_reverses_two_paragraphs :
    getSiblingsContent demoStopWords siblingWithTwo [.inDoc [0, 1, 0]]
        (getSiblingsScore demoStopWords siblingWithTwo [.inDoc [0, 1, 1]] : ℚ) =
      .ok [[.synthesized "ea"], [.synthesized "eb"]] ∧
    addSiblings demoStopWords siblingWithTwo [.inDoc [0, 1, 1]] =
      .ok [.synthesized "eb", .synthesized "ea", .inDoc [0, 1, 1]] ∧
    addSiblings demoStopWords siblingWithTwo [.inDoc [0, 1, 1]] ≠
      .ok [.synthesized "ea", .synthesized "eb", .inDoc [0, 1, 1]] := by
  have h1 : addSiblings demoStopWords siblingWithTwo [.inDoc [0, 1, 1]] =
      .ok [.synthesized "eb", .synthesized "ea", .inDoc [0, 1, 1]] :=
    eq_ok_of_okValue _ _ (by decide!)
  refine ⟨eq_ok_of_okValue _ _ (by decide!), h1, ?_⟩
  rw [h1]
  intro h
  injection h with h
  revert h
  decide

/-- C13 (code defect): what the code does.  For a top node at the position `p ++ [k]`,
`addSiblings` produces: for the element siblings before the top node in document order (the
farthest first), the nodes recovered from each sibling in the reverse of the order in which
`getSiblingsContent` returns them, which is document order; then the top node.  So the
siblings come in forward document order, as the claim states, but the paragraphs recovered
from one sibling come in backward document order: the claim holds only when every sibling
yields at most one node. -/
theorem addSiblings_order (sw : String → Int) (doc : Document) (p : Path) (k : Nat) (c : Node)
    (hget : doc.root.get? (p ++ [k]) = some c) (hdet : doc.Detached (p ++ [k]) = false) :
    (∀ s, getSiblingsContent sw doc [s] (getSiblingsScore sw doc [.inDoc (p ++ [k])] : ℚ) =
      .ok ((recoveredNodes sw doc (getSiblingsScore sw doc [.inDoc (p ++ [k])]) s).map
        (fun r => [r]))) ∧
    addSiblings sw doc [.inDoc (p ++ [k])] =
      .ok ((precedingSiblings doc (p ++ [k])).flatMap
        (fun s => (recoveredNodes sw doc (getSiblingsScore sw doc [.inDoc (p ++ [k])]) s).reverse)
          ++ [.inDoc (p ++ [k])]) :=
  ⟨fun s => getSiblingsContent_single sw doc _ s,
    addSiblings_single sw doc _ c (by simp) hget hdet⟩

/-- C13 at the failing input: the sibling with the paragraphs `ea` and `eb`. -/
theorem addSiblings_order_witness :
    addSiblings demoStopWords siblingWithTwo [.inDoc [0, 1, 1]] =
      .ok ((precedingSiblings siblingWithTwo [0, 1, 1]).flatMap
        (fun s => (recoveredNodes demoStopWords siblingWithTwo
          (getSiblingsScore demoStopWords siblingWithTwo [.inDoc [0, 1, 1]]) s).reverse)
          ++ [.inDoc [0, 1, 1]]) :=
  (addSiblings_order demoStopWords siblingWithTwo [0, 1] 1 (elem "div" [elem "p" [txt "eee"]])
    rfl rfl).2

/-! ## C14: the relevance threshold -/

/-- The result of `isNodescoreThresholdMet`: it does not panic on a child selection that is not
empty, and it is false exactly when the tag of the child is not `td` and the score of the
child, converted to `float64`, is below the threshold as binary64 computes it. -/
theorem isNodescoreThresholdMet_eq (doc : Document) (node : Selection) (s : NodeRef)
    (rest : Selection) :
    isNodescoreThresholdMet doc node (s :: rest) =
      .ok (!(decide (atomOf doc s ≠ "td") &&
        decide (f64 (getNodeGravityScore doc (s :: rest) : ℚ) <
          thresholdF64 (getNodeGravityScore doc node)))) := by
  unfold isNodescoreThresholdMet thresholdF64
  simp only [Get0]
  by_cases h : f64 (getNodeGravityScore doc (s :: rest) : ℚ) <
      f64 (f64 (getNodeGravityScore doc node : ℚ) * f64 (8 / 100))
  · rw [if_pos h]
    by_cases htd : atomOf doc s = "td" <;> simp [h, htd]
  · rw [if_neg h]
    simp [h]

/-- The result of `isNodescoreThresholdMet` on a child that is one node. -/
theorem isNodescoreThresholdMet_single (doc : Document) (node : Selection) (s : NodeRef) :
    isNodescoreThresholdMet doc node [s] =
      .ok (!(decide (atomOf doc s ≠ "td") &&
        decide (f64 (getNodeGravityScore doc [s] : ℚ) <
          thresholdF64 (getNodeGravityScore doc node)))) :=
  isNodescoreThresholdMet_eq doc node s []

/-- For scores of absolute value below `2 ^ 40` the rounding changes nothing: the result of
`isNodescoreThresholdMet` is that of the comparison `100 * child < 8 * top` of the integers. -/
theorem isNodescoreThresholdMet_small (doc : Document) (node : Selection) (s : NodeRef)
    (rest : Selection) (ht : |getNodeGravityScore doc node| < 2 ^ 40)
    (hc : |getNodeGravityScore doc (s :: rest)| < 2 ^ 40) :
    isNodescoreThresholdMet doc node (s :: rest) =
      .ok (!(decide (atomOf doc s ≠ "td") &&
        decide (100 * getNodeGravityScore doc (s :: rest) < 8 * getNodeGravityScore doc node))) := by
  rw [isNodescoreThresholdMet_eq, decide_eq_decide.2 (thresholdF64_lt_iff _ _ ht hc)]

/-- The score `2 ^ 56 - 1` converted to `float64` is `2 ^ 56`. -/
theorem f64_large_child : f64 ((72057594037927935 : Int) : ℚ) = 72057594037927936 := by
  have h := f64_eval 72057594037927935 55 9007199254740992 (by norm_num) (by norm_num)
    (by norm_num) (by norm_num)
  push_cast
  rw [h]
  norm_num

/-- The threshold for the score `25 * 2 ^ 55` is `2 ^ 56` in binary64. -/
theorem thresholdF64_large_top : thresholdF64 900719925474099200 = 72057594037927936 := by
  have h1 : f64 ((900719925474099200 : Int) : ℚ) = 900719925474099200 := by
    have h := f64_exact 25 55 (by norm_num) (by norm_num)
    have e : ((25 : Int) : ℚ) * 2 ^ (55 : Int) = ((900719925474099200 : Int) : ℚ) := by norm_num
    rw [e] at h
    rw [h]
    norm_num
  have h2 := f64_eval (900719925474099200 * (5764607523034235 / 72057594037927936)) 56
    4503599627370496 (by norm_num) (by norm_num) (by norm_num) (by norm_num)
  unfold thresholdF64
  rw [h1, f64_eight_hundredths, h2]
  norm_num

/-- C14 (counterexample): a top node with the score `25 * 2 ^ 55 = 900719925474099200` and a
child `div` with the score `2 ^ 56 - 1 = 72057594037927935`.  The child is no `td` and
`100 * child < 8 * top`, so the claim says the test is false; but `float64(child)` is `2 ^ 56`
and the threshold `float64(top) * 0.08` is `2 ^ 56` too, so the test is true: the child
passes. -/
theorem isNodescoreThresholdMet_rounds_large_scores :
    atomOf largeScores (.inDoc [0, 1, 0, 0]) ≠ "td" ∧
    getNodeGravityScore largeScores [.inDoc [0, 1, 0]] = 900719925474099200 ∧
    getNodeGravityScore largeScores [.inDoc [0, 1, 0, 0]] = 72057594037927935 ∧
    100 * getNodeGravityScore largeScores [.inDoc [0, 1, 0, 0]] <
      8 * getNodeGravityScore largeScores [.inDoc [0, 1, 0]] ∧
    isNodescoreThresholdMet largeScores [.inDoc [0, 1, 0]] [.inDoc [0, 1, 0, 0]] = .ok true := by
  have ht : getNodeGravityScore largeScores [.inDoc [0, 1, 0]] = 900719925474099200 := by decide
  have hc : getNodeGravityScore largeScores [.inDoc [0, 1, 0, 0]] = 72057594037927935 := by
    decide
  refine ⟨by decide, ht, hc, by rw [ht, hc]; decide, ?_⟩
  rw [isNodescoreThresholdMet_eq, ht, hc, f64_large_child, thresholdF64_large_top]
  simp

/-- C14 (amended).  For every top node and every child, `isNodescoreThresholdMet(top, child)`
does not panic and is false exactly when the tag of the child is not `td` and
`float64(score(child)) < float64(score(top)) * 0.08` as binary64 computes it.  For scores of
absolute value below `2 ^ 40` this is `gravityScore(child) < 0.08 * gravityScore(top)` in exact
arithmetic, which in whole numbers is `100 * score(child) < 8 * score(top)`.  A missing
attribute and an attribute that `Atoi` does not accept are read as the score 0, an attribute
that `Atoi` accepts as its value: the decimal numeral of a number in the range of `int` is
read as that number; the numeral of a number outside the range, a text with a character that
is no decimal digit (a sign in front apart) and a text without digits are read as 0.
So under a top node with the score 100 a child that is no `td` fails with the score 7 and
passes with the score 8, and a `td` child passes always. -/
theorem isNodescoreThresholdMet_iff (doc : Document) (top : Selection) (child : NodeRef)
    (rest : Selection) :
    isNodescoreThresholdMet doc top (child :: rest) =
      .ok (!(decide (atomOf doc child ≠ "td") &&
        decide (f64 (getNodeGravityScore doc (child :: rest) : ℚ) <
          thresholdF64 (getNodeGravityScore doc top)))) ∧
    (|getNodeGravityScore doc top| < 2 ^ 40 →
      |getNodeGravityScore doc (child :: rest)| < 2 ^ 40 →
      (isNodescoreThresholdMet doc top (child :: rest) = .ok false ↔
        atomOf doc child ≠ "td" ∧
          100 * getNodeGravityScore doc (child :: rest) < 8 * getNodeGravityScore doc top) ∧
      (isNodescoreThresholdMet doc top (child :: rest) = .ok true ↔
        ¬ (atomOf doc child ≠ "td" ∧
          100 * getNodeGravityScore doc (child :: rest) < 8 * getNodeGravityScore doc top))) ∧
    ((100 * getNodeGravityScore doc (child :: rest) < 8 * getNodeGravityScore doc top) ↔
      ((getNodeGravityScore doc (child :: rest) : ℚ) <
        (getNodeGravityScore doc top : ℚ) * (8 / 100))) ∧
    (∀ s, (Attr doc s "gravityScore").2 = false → getNodeGravityScore doc s = 0) ∧
    (∀ s, (Atoi (Attr doc s "gravityScore").1).2 = false → getNodeGravityScore doc s = 0) ∧
    (∀ s, (Attr doc s "gravityScore").2 = true → (Atoi (Attr doc s "gravityScore").1).2 = true →
      getNodeGravityScore doc s = (Atoi (Attr doc s "gravityScore").1).1) ∧
    (∀ s n, Attr doc s "gravityScore" = (Itoa n, true) → -2 ^ 63 ≤ n → n < 2 ^ 63 →
      getNodeGravityScore doc s = n) ∧
    (∀ s n, Attr doc s "gravityScore" = (Itoa n, true) → ¬ (-2 ^ 63 ≤ n ∧ n < 2 ^ 63) →
      getNodeGravityScore doc s = 0) ∧
    (∀ s v, Attr doc s "gravityScore" = (v, true) →
      (afterSign v = [] ∨ ∃ c ∈ afterSign v, c.isDigit = false) →
      getNodeGravityScore doc s = 0) ∧
    (getNodeGravityScore doc top = 100 → getNodeGravityScore doc (child :: rest) = 7 →
      atomOf doc child ≠ "td" → isNodescoreThresholdMet doc top (child :: rest) = .ok false) ∧
    (getNodeGravityScore doc top = 100 → getNodeGravityScore doc (child :: rest) = 8 →
      isNodescoreThresholdMet doc top (child :: rest) = .ok true) ∧
    (atomOf doc child = "td" → isNodescoreThresholdMet doc top (child :: rest) = .ok true) := by
  have hq : (100 * getNodeGravityScore doc (child :: rest) < 8 * getNodeGravityScore doc top) ↔
      ((getNodeGravityScore doc (child :: rest) : ℚ) <
        (getNodeGravityScore doc top : ℚ) * (8 / 100)) := by
    constructor
    · intro h
      have : (100 : ℚ) * (getNodeGravityScore doc (child :: rest) : ℚ) <
          8 * (getNodeGravityScore doc top : ℚ) := by exact_mod_cast h
      linarith
    · intro h
      have : (100 : ℚ) * (getNodeGravityScore doc (child :: rest) : ℚ) <
          8 * (getNodeGravityScore doc top : ℚ) := by linarith
      exact_mod_cast this
  have hsmall := isNodescoreThresholdMet_small doc top child rest
  have h63 : ((2 : Int) ^ 63) = 9223372036854775808 := by norm_num
  refine ⟨isNodescoreThresholdMet_eq doc top child rest, ?_, hq, ?_, ?_, ?_, ?_, ?_, ?_, ?_, ?_,
    ?_⟩
  · intro ht hc
    rw [hsmall ht hc]
    constructor
    · constructor
      · intro h
        injection h with h
        simpa using h
      · intro h
        congr 1
        simp [h.1, h.2]
    · constructor
      · intro h
        injection h with h
        intro h2
        simp [h2.1, h2.2] at h
      · intro h
        congr 1
        by_cases h1 : atomOf doc child ≠ "td"
        · have h2 : ¬ 100 * getNodeGravityScore doc (child :: rest) <
              8 * getNodeGravityScore doc top := fun h2 => h ⟨h1, h2⟩
          simp [h2]
        · simp [h1]
  · intro s h
    unfold getNodeGravityScore
    simp [h]
  · intro s h
    unfold getNodeGravityScore
    by_cases hp : (Attr doc s "gravityScore").2 = true <;> simp [hp, h]
  · intro s hp hok
    unfold getNodeGravityScore
    simp [hp, hok]
  · intro s n hv hlo hhi
    rw [h63] at hlo hhi
    unfold getNodeGravityScore
    simp [hv, Atoi_Itoa, hlo, hhi]
  · intro s n hv hr
    rw [h63] at hr
    unfold getNodeGravityScore
    simp [hv, Atoi_Itoa, hr]
  · intro s v hv hd
    unfold getNodeGravityScore
    simp [hv, Atoi_of_not_digit v hd]
  · intro ht hc htd
    rw [hsmall (by rw [ht]; norm_num) (by rw [hc]; norm_num), ht, hc]
    simp [htd]
  · intro ht hc
    rw [hsmall (by rw [ht]; norm_num) (by rw [hc]; norm_num), ht, hc]
    simp
  · intro htd
    rw [isNodescoreThresholdMet_eq]
    simp [htd]

/-- C14 (amended) at a concrete input: under the top node with the score 100 the child with the
score 7 fails, the child with the score 8 passes, the `td` child without score passes, and the
children whose attributes are `1.5` (no integer) and `99999999999999999999` (outside the range
of `int`) are read as 0 and fail. -/
theorem isNodescoreThresholdMet_iff_witness :
    isNodescoreThresholdMet thresholdExample [.inDoc [0, 1, 0]] [.inDoc [0, 1, 0, 0]] = .ok false ∧
    isNodescoreThresholdMet thresholdExample [.inDoc [0, 1, 0]] [.inDoc [0, 1, 0, 1]] = .ok true ∧
    isNodescoreThresholdMet thresholdExample [.inDoc [0, 1, 0]] [.inDoc [0, 1, 0, 2]] = .ok true ∧
    getNodeGravityScore thresholdExample [.inDoc [0, 1, 0, 3]] = 0 ∧
    isNodescoreThresholdMet thresholdExample [.inDoc [0, 1, 0]] [.inDoc [0, 1, 0, 3]] =
      .ok false ∧
    getNodeGravityScore thresholdExample [.inDoc [0, 1, 0, 4]] = 0 ∧
    isNodescoreThresholdMet thresholdExample [.inDoc [0, 1, 0]] [.inDoc [0, 1, 0, 4]] =
      .ok false := by
  refine ⟨?_, ?_, ?_, ?_, ?_, ?_, ?_⟩
  · exact (isNodescoreThresholdMet_iff thresholdExample [.inDoc [0, 1, 0]] (.inDoc [0, 1, 0, 0])
      []).2.2.2.2.2.2.2.2.2.1 (by decide) (by decide) (by decide)
  · exact (isNodescoreThresholdMet_iff thresholdExample [.inDoc [0, 1, 0]] (.inDoc [0, 1, 0, 1])
      []).2.2.2.2.2.2.2.2.2.2.1 (by decide) (by decide)
  · exact (isNodescoreThresholdMet_iff thresholdExample [.inDoc [0, 1, 0]] (.inDoc [0, 1, 0, 2])
      []).2.2.2.2.2.2.2.2.2.2.2 (by decide)
  · exact (isNodescoreThresholdMet_iff thresholdExample [.inDoc [0, 1, 0]] (.inDoc [0, 1, 0, 3])
      []).2.2.2.2.2.2.2.2.1 [.inDoc [0, 1, 0, 3]] "1.5" (by decide)
      (Or.inr ⟨'.', by decide, by decide⟩)
  · exact ((isNodescoreThresholdMet_iff thresholdExample [.inDoc [0, 1, 0]] (.inDoc [0, 1, 0, 3])
      []).2.1 (by decide) (by decide)).1.2 (by decide)
  · exact (isNodescoreThresholdMet_iff thresholdExample [.inDoc [0, 1, 0]] (.inDoc [0, 1, 0, 4])
      []).2.2.2.2.2.2.2.1 [.inDoc [0, 1, 0, 4]] 99999999999999999999 (by decide) (by decide)
  · exact ((isNodescoreThresholdMet_iff thresholdExample [.inDoc [0, 1, 0]] (.inDoc [0, 1, 0, 4])
      []).2.1 (by decide) (by decide)).1.2 (by decide)

/-! ## Lemmas on the text of a node -/

mutual
/-- The text of a node depends on the links below the node only. -/
theorem text_congr (det det' : Path → Bool) :
    ∀ (n : Node) (p : Path), (∀ j rest, det (p ++ j :: rest) = det' (p ++ j :: rest)) →
      n.text det p = n.text det' p
  | .mk t dd cs, p, h => by
    rw [Node.text, Node.text, textList_congr det det' cs p 0 (fun j rest _ => h j rest)]
theorem textList_congr (det det' : Path → Bool) :
    ∀ (cs : List Node) (p : Path) (i : Nat),
      (∀ j rest, i ≤ j → det (p ++ j :: rest) = det' (p ++ j :: rest)) →
      Node.textList det cs p i = Node.textList det' cs p i
  | [], p, i, h => by simp [Node.textList]
  | c :: cs, p, i, h => by
    rw [Node.textList, Node.textList,
      textList_congr det det' cs p (i + 1) (fun j rest hj => h j rest (by omega))]
    have h1 : det (p ++ [i]) = det' (p ++ [i]) := h i [] (le_refl _)
    have h2 : c.text det (p ++ [i]) = c.text det' (p ++ [i]) :=
      text_congr det det' c (p ++ [i]) (fun j rest => by
        have := h i (j :: rest) (le_refl _)
        simpa using this)
    rw [h1, h2]
end

theorem utf8ByteSize_append (s t : String) :
    (s ++ t).utf8ByteSize = s.utf8ByteSize + t.utf8ByteSize := by
  cases s with
  | mk a =>
    cases t with
    | mk b =>
      show String.utf8ByteSize.go (a ++ b) = String.utf8ByteSize.go a + String.utf8ByteSize.go b
      induction a with
      | nil => simp [String.utf8ByteSize.go]
      | cons c cs ih =>
        rw [List.cons_append, String.utf8ByteSize.go, String.utf8ByteSize.go, ih]
        omega

theorem textList_ge (det : Path → Bool) :
    ∀ (cs : List Node) (p : Path) (i j : Nat) (c : Node), i ≤ j → cs[j - i]? = some c →
      det (p ++ [j]) = false →
      (c.text det (p ++ [j])).utf8ByteSize ≤ (Node.textList det cs p i).utf8ByteSize
  | [], p, i, j, c, _, hc, _ => by simp at hc
  | c0 :: cs, p, i, j, c, hij, hc, hdet => by
    rw [Node.textList, utf8ByteSize_append]
    rcases Nat.eq_or_lt_of_le hij with hji | hji
    · subst hji
      simp only [Nat.sub_self, List.getElem?_cons_zero, Option.some.injEq] at hc
      subst hc
      simp only [hdet, Bool.false_eq_true, if_false]
      omega
    · have : j - i = (j - (i + 1)) + 1 := by omega
      rw [this, List.getElem?_cons_succ] at hc
      have := textList_ge det cs p (i + 1) j c (by omega) hc hdet
      omega

theorem wellFormedList_getElem? :
    ∀ (cs : List Node) (j : Nat) (c : Node), Node.wellFormedList cs = true → cs[j]? = some c →
      c.wellFormed = true
  | [], j, c, _, hc => by simp at hc
  | c0 :: cs, 0, c, h, hc => by
    simp only [Node.wellFormedList, Bool.and_eq_true] at h
    simp only [List.getElem?_cons_zero, Option.some.injEq] at hc
    exact hc ▸ h.1
  | c0 :: cs, j + 1, c, h, hc => by
    simp only [Node.wellFormedList, Bool.and_eq_true] at h
    rw [List.getElem?_cons_succ] at hc
    exact wellFormedList_getElem? cs j c h.2 hc

theorem wellFormed_get? :
    ∀ (r : Path) (n m : Node), n.wellFormed = true → n.get? r = some m → m.wellFormed = true
  | [], n, m, h, hg => by
    cases n
    simp only [Node.get?, Option.some.injEq] at hg
    exact hg ▸ h
  | i :: rest, .mk t dd cs, m, h, hg => by
    simp only [Node.get?] at hg
    simp only [Node.wellFormed, Bool.and_eq_true] at h
    cases hc : cs[i]? with
    | none => simp [hc] at hg
    | some c =>
      simp only [hc] at hg
      exact wellFormed_get? rest c m (wellFormedList_getElem? cs i c h.2 hc) hg

/-- In a well-formed tree the text of a node holds the text of every node that is reached from
it along linked children: it is at least as long. -/
theorem text_ge_of_reach (det : Path → Bool) :
    ∀ (r : Path) (n : Node) (p : Path) (m : Node), n.wellFormed = true →
      Node.reach? det n p r = some m →
      (m.text det (p ++ r)).utf8ByteSize ≤ (n.text det p).utf8ByteSize
  | [], n, p, m, _, h => by
    cases n
    simp only [Node.reach?, Option.some.injEq] at h
    subst h
    simp
  | i :: rest, .mk t dd cs, p, m, hwf, h => by
    simp only [Node.reach?] at h
    simp only [Node.wellFormed, Bool.and_eq_true, Bool.or_eq_true, decide_eq_true_eq,
      List.isEmpty_iff] at hwf
    cases hc : cs[i]? with
    | none => simp [hc] at h
    | some c =>
      simp only [hc] at h
      by_cases hdet : det (p ++ [i]) = true
      · simp [hdet] at h
      · simp only [hdet, Bool.false_eq_true, if_false] at h
        have hne : cs ≠ [] := by
          intro hnil
          rw [hnil] at hc
          simp at hc
        have ht : t ≠ NodeType.TextNode := by
          rcases hwf.1 with h1 | h1
          · exact h1
          · exact absurd h1 hne
        have h1 := text_ge_of_reach det rest c (p ++ [i]) m
          (wellFormedList_getElem? cs i c hwf.2 hc) h
        have h2 := textList_ge det cs p 0 i c (Nat.zero_le _) (by simpa using hc)
          (by simpa using hdet)
        rw [Node.text, if_neg ht]
        have h3 : p ++ [i] ++ rest = p ++ i :: rest := by simp
        rw [h3] at h1
        omega

/-- A walk along linked children when more nodes are unlinked: it is a walk before, and no node
on it is among the new unlinked nodes. -/
theorem reach?_or (det extra : Path → Bool) :
    ∀ (r : Path) (n : Node) (p : Path) (m : Node),
      Node.reach? (fun x => det x || extra x) n p r = some m ↔
        Node.reach? det n p r = some m ∧
          ∀ r', r' ≠ [] → r' <+: r → extra (p ++ r') = false
  | [], n, p, m => by
    cases n
    simp only [Node.reach?, List.prefix_nil, iff_self_and]
    intro _ r' hne hr'
    exact absurd hr' hne
  | i :: rest, .mk t dd cs, p, m => by
    simp only [Node.reach?]
    cases hc : cs[i]? with
    | none => simp
    | some c =>
      simp only
      by_cases hdet : det (p ++ [i]) = true
      · simp [hdet]
      · by_cases hex : extra (p ++ [i]) = true
        · simp only [hdet, hex, Bool.or_true, if_true, Bool.false_eq_true, if_false]
          constructor
          · intro h
            simp at h
          · rintro ⟨_, h⟩
            have := h [i] (by simp) ⟨rest, rfl⟩
            rw [hex] at this
            simp at this
        · simp only [hdet, hex, Bool.or_self, Bool.false_eq_true, if_false]
          rw [reach?_or det extra rest c (p ++ [i]) m]
          apply and_congr_right
          intro _
          constructor
          · intro h r' hne hr'
            cases r' with
            | nil => exact absurd rfl hne
            | cons k r'' =>
              obtain ⟨t', ht'⟩ := hr'
              simp only [List.cons_append, List.cons.injEq] at ht'
              obtain ⟨rfl, ht'⟩ := ht'
              by_cases hr'' : r'' = []
              · subst hr''
                simpa using hex
              · have := h r'' hr'' ⟨t', ht'⟩
                simpa using this
          · intro h r' hne hr'
            have := h (i :: r') (by simp) (by
              obtain ⟨t', ht'⟩ := hr'
              exact ⟨t', by simp [ht']⟩)
            simpa using this

/-! ## Lemmas on `isTableAndNoParaExist` -/

theorem Text_single (doc : Document) (r : NodeRef) : Text doc [r] = textOf doc r := by
  simp [Text, String.join]

theorem unlinkAll_nil (doc : Document) : unlinkAll doc [] = doc := by
  cases doc
  simp [unlinkAll]

/-- Unlinking nodes that are not below the node at `b` does not change its text. -/
theorem Text_unlinkAll (doc : Document) (S : List Path) (b : Path)
    (h : ∀ a ∈ S, ¬ b <+: a) :
    Text (unlinkAll doc S) [.inDoc b] = Text doc [.inDoc b] := by
  rw [Text_single, Text_single]
  unfold textOf
  simp only [unlinkAll]
  cases hn : doc.root.get? b with
  | none => rfl
  | some n =>
    simp only
    apply text_congr
    intro j rest
    have : b ++ j :: rest ∉ S := fun hmem => h _ hmem ⟨j :: rest, rfl⟩
    simp [this]

theorem removeFromParent_unlinkAll (doc : Document) (S : List Path) (b : Path) (hb : b ≠ [])
    (hdet : doc.Detached b = false) (hS : b ∉ S) :
    removeFromParent (unlinkAll doc S) [.inDoc b] = .ok (unlinkAll doc (S ++ [b])) := by
  have h1 : ¬ (b = [] ∨ (unlinkAll doc S).Detached b = true) := by
    simp [unlinkAll, hb, hdet, hS]
  simp only [removeFromParent]
  rw [if_neg h1]
  congr 1
  simp only [unlinkAll]
  congr 1
  funext q
  by_cases hq : q = b
  · simp [hq]
  · simp [hq]

/-- The first loop of `isTableAndNoParaExist` over paragraphs in document order: it unlinks the
paragraphs whose text, as it is before the loop, is shorter than 25 bytes. -/
theorem removeShortParagraphs_eq (doc : Document) :
    ∀ (ps S : List Path), ps.Pairwise (fun a b => ¬ b <+: a) →
      (∀ a ∈ S, ∀ b ∈ ps, ¬ b <+: a) → (∀ b ∈ ps, b ≠ [] ∧ doc.Detached b = false) →
      removeShortParagraphs (unlinkAll doc S) (ps.map NodeRef.inDoc) =
        .ok (unlinkAll doc (S ++ ps.filter (isShort doc))) := by
  intro ps
  induction ps with
  | nil => intro S _ _ _; simp [removeShortParagraphs]
  | cons b rest ih =>
    intro S hpw hS hok
    rw [List.pairwise_cons] at hpw
    have htext := Text_unlinkAll doc S b (fun a ha => hS a ha b (List.mem_cons_self _ _))
    have hbS : b ∉ S := fun hmem => hS b hmem b (List.mem_cons_self _ _) (List.prefix_refl _)
    simp only [List.map_cons, removeShortParagraphs, htext]
    by_cases hshort : (Text doc [.inDoc b]).utf8ByteSize < 25
    · rw [if_pos hshort, removeFromParent_unlinkAll doc S b (hok b (List.mem_cons_self _ _)).1
        (hok b (List.mem_cons_self _ _)).2 hbS]
      simp only
      rw [ih (S ++ [b]) hpw.2 ?_ (fun c hc => hok c (List.mem_cons_of_mem _ hc))]
      · have : isShort doc b = true := by simp [isShort, hshort]
        simp [List.filter_cons, this]
      · intro a ha c hc
        rcases List.mem_append.1 ha with ha | ha
        · exact hS a ha c (List.mem_cons_of_mem _ hc)
        · rw [List.mem_singleton.1 ha]
          exact hpw.1 c hc
    · rw [if_neg hshort, ih S hpw.2 (fun a ha c hc => hS a ha c (List.mem_cons_of_mem _ hc))
        (fun c hc => hok c (List.mem_cons_of_mem _ hc))]
      have : isShort doc b = false := by simp [isShort, hshort]
      simp [List.filter_cons, this]

/-- The nodes `findNode` lists, by their positions: in document order, each linked. -/
theorem findNode_paths (doc : Document) (tag : String) (r : NodeRef) :
    ∃ ps : List Path, findNode doc tag r = ps.map NodeRef.inDoc ∧
      ps.Pairwise (fun a b => ¬ b <+: a) ∧ ∀ b ∈ ps, b ≠ [] ∧ doc.Detached b = false := by
  cases r with
  | synthesized t => exact ⟨[], rfl, List.Pairwise.nil, by simp⟩
  | inDoc q0 =>
    unfold findNode
    cases hn : doc.root.get? q0 with
    | none => exact ⟨[], by simp [hn], List.Pairwise.nil, by simp⟩
    | some n0 =>
      refine ⟨((n0.descendants doc.Detached q0).filter
        (fun d => d.2.Typ = NodeType.ElementNode ∧ d.2.Data = tag)).map (fun d => d.1), ?_, ?_, ?_⟩
      · simp [hn, List.map_map, Function.comp]
      · rw [List.pairwise_map]
        exact (descendants_pairwise doc.Detached n0 q0).sublist (List.filter_sublist _)
      · intro b hb
        simp only [List.mem_map, List.mem_filter, Prod.exists, exists_and_right,
          exists_eq_right] at hb
        obtain ⟨m, hm, _⟩ := hb
        obtain ⟨rr, hne, hq, hr⟩ := (mem_descendants _ _ _ _ _).1 hm
        subst hq
        exact ⟨by simp [hne], reach?_linked _ _ _ _ _ hne hr⟩

/-- Membership in the result of `findNode` on the node at `q0`, in terms of the walk from it. -/
theorem mem_findNode (doc : Document) (tag : String) (q0 q : Path) :
    NodeRef.inDoc q ∈ findNode doc tag (.inDoc q0) ↔
      ∃ n0 rr m, doc.root.get? q0 = some n0 ∧ rr ≠ [] ∧ q = q0 ++ rr ∧
        Node.reach? doc.Detached n0 q0 rr = some m ∧ m.Typ = NodeType.ElementNode ∧
        m.Data = tag := by
  unfold findNode
  cases hn : doc.root.get? q0 with
  | none => simp [hn]
  | some n0 =>
    simp only [hn, List.mem_map, List.mem_filter, decide_eq_true_eq]
    constructor
    · rintro ⟨d, ⟨hmem, hty, hdata⟩, hd⟩
      cases hd
      obtain ⟨rr, hne, hq, hr⟩ := (mem_descendants _ _ _ _ _).1 hmem
      exact ⟨n0, rr, d.2, rfl, hne, hq, hr, hty, hdata⟩
    · rintro ⟨n0', rr, m, hn0, hne, hq, hr, hty, hdata⟩
      cases hn0
      exact ⟨(q, m), ⟨(mem_descendants _ _ _ _ _).2 ⟨rr, hne, hq, hr⟩, hty, hdata⟩, rfl⟩

/-- The elements found after more nodes are unlinked: the elements found before that have no new
unlinked node on the way from the start node. -/
theorem mem_findNode_unlinkAll (doc : Document) (S : List Path) (tag : String) (q0 q : Path) :
    NodeRef.inDoc q ∈ findNode (unlinkAll doc S) tag (.inDoc q0) ↔
      NodeRef.inDoc q ∈ findNode doc tag (.inDoc q0) ∧
        ∀ r', r' ≠ [] → q0 ++ r' <+: q → q0 ++ r' ∉ S := by
  rw [mem_findNode, mem_findNode]
  simp only [unlinkAll]
  constructor
  · rintro ⟨n0, rr, m, hn, hne, hq, hr, hty, hdata⟩
    obtain ⟨hr1, hr2⟩ := (reach?_or doc.Detached (fun x => decide (x ∈ S)) rr n0 q0 m).1 hr
    refine ⟨⟨n0, rr, m, hn, hne, hq, hr1, hty, hdata⟩, ?_⟩
    intro r' hr'ne hpre
    rw [hq, List.prefix_append_right_inj] at hpre
    simpa using hr2 r' hr'ne hpre
  · rintro ⟨⟨n0, rr, m, hn, hne, hq, hr, hty, hdata⟩, h⟩
    refine ⟨n0, rr, m, hn, hne, hq, ?_, hty, hdata⟩
    refine (reach?_or doc.Detached (fun x => decide (x ∈ S)) rr n0 q0 m).2 ⟨hr, ?_⟩
    intro r' hr'ne hpre
    have := h r' hr'ne (by rw [hq, List.prefix_append_right_inj]; exact hpre)
    simpa using this

/-- In a well-formed document the text of an element that `findNode` lists holds the text of
every listed element below it. -/
theorem Text_ge_of_prefix (doc : Document) (hwf : doc.root.wellFormed = true) (tag : String)
    (q0 a q : Path) (ha : NodeRef.inDoc a ∈ findNode doc tag (.inDoc q0))
    (hq : NodeRef.inDoc q ∈ findNode doc tag (.inDoc q0)) (hpre : a <+: q) :
    (Text doc [.inDoc q]).utf8ByteSize ≤ (Text doc [.inDoc a]).utf8ByteSize := by
  obtain ⟨n0, ra, ma, hn, _, rfl, hra, _, _⟩ := (mem_findNode _ _ _ _).1 ha
  obtain ⟨n0', rq, mq, hn', _, rfl, hrq, _, _⟩ := (mem_findNode _ _ _ _).1 hq
  rw [hn] at hn'
  cases hn'
  rw [List.prefix_append_right_inj] at hpre
  obtain ⟨r2, rfl⟩ := hpre
  rw [reach?_append, hra] at hrq
  simp only [Option.some_bind] at hrq
  have hga : doc.root.get? (q0 ++ ra) = some ma := by
    rw [get?_append, hn]
    exact reach?_get? _ _ _ _ _ hra
  have hgq : doc.root.get? (q0 ++ (ra ++ r2)) = some mq := by
    rw [← List.append_assoc, get?_append, hga]
    exact reach?_get? _ _ _ _ _ hrq
  have hwa : ma.wellFormed = true := wellFormed_get? _ _ _ hwf hga
  have := text_ge_of_reach doc.Detached r2 ma (q0 ++ ra) mq hwa hrq
  rw [Text_single, Text_single]
  simp only [textOf, hga, hgq]
  rw [← List.append_assoc]
  exact this

theorem mem_map_inDoc (ps : List Path) (x : Path) : NodeRef.inDoc x ∈ ps.map NodeRef.inDoc ↔ x ∈ ps := by
  simp [List.mem_map]

theorem atomOf_unlinkAll (doc : Document) (S : List Path) (r : NodeRef) :
    atomOf (unlinkAll doc S) r = atomOf doc r := rfl

/-- The function `isTableAndNoParaExist` on one node of a well-formed document: the document it
leaves, the paragraphs that remain and its result. -/
theorem isTableAndNoParaExist_eq (doc : Document) (r : NodeRef)
    (hwf : doc.root.wellFormed = true) :
    ∃ ps : List Path, Find doc [r] "p" = ps.map NodeRef.inDoc ∧
      isTableAndNoParaExist doc [r] =
        .ok (unlinkAll doc (ps.filter (isShort doc)),
          decide ((∀ s ∈ Find doc [r] "p", (Text doc [s]).utf8ByteSize < 25) ∧
            atomOf doc r ≠ "td")) ∧
      (∀ s, s ∈ Find (unlinkAll doc (ps.filter (isShort doc))) [r] "p" ↔
        s ∈ Find doc [r] "p" ∧ 25 ≤ (Text doc [s]).utf8ByteSize) := by
  obtain ⟨ps, hps, hpw, hok⟩ := findNode_paths doc "p" r
  have hFind : Find doc [r] "p" = ps.map NodeRef.inDoc := by rw [Find_single, hps]
  have hrem : removeShortParagraphs doc (Find doc [r] "p") =
      .ok (unlinkAll doc (ps.filter (isShort doc))) := by
    have := removeShortParagraphs_eq doc ps [] hpw (by simp) hok
    rw [unlinkAll_nil, List.nil_append] at this
    rw [hFind, this]
  have hmem : ∀ s, s ∈ Find (unlinkAll doc (ps.filter (isShort doc))) [r] "p" ↔
      s ∈ Find doc [r] "p" ∧ 25 ≤ (Text doc [s]).utf8ByteSize := by
    intro s
    obtain ⟨ps', hps', _, _⟩ := findNode_paths (unlinkAll doc (ps.filter (isShort doc))) "p" r
    rw [Find_single, Find_single]
    cases s with
    | synthesized t =>
      rw [hps, hps']
      simp
    | inDoc q =>
      cases r with
      | synthesized t => simp [findNode]
      | inDoc q0 =>
        rw [mem_findNode_unlinkAll]
        constructor
        · rintro ⟨hs, hno⟩
          refine ⟨hs, ?_⟩
          obtain ⟨n0, rr, m, _, hne, hq, _⟩ := (mem_findNode _ _ _ _).1 hs
          have hq' : q ∈ ps := by
            rw [hps] at hs
            exact (mem_map_inDoc ps q).1 hs
          have := hno rr hne (by rw [hq])
          rw [← hq] at this
          by_contra hlt
          apply this
          rw [List.mem_filter]
          exact ⟨hq', by simp only [isShort, decide_eq_true_eq]; omega⟩
        · rintro ⟨hs, hlong⟩
          refine ⟨hs, ?_⟩
          intro r' _ hpre hmemS
          rw [List.mem_filter] at hmemS
          obtain ⟨ha, hshort⟩ := hmemS
          have ha' : NodeRef.inDoc (q0 ++ r') ∈ findNode doc "p" (.inDoc q0) := by
            rw [hps]
            exact (mem_map_inDoc ps _).2 ha
          have hge := Text_ge_of_prefix doc hwf "p" q0 (q0 ++ r') q ha' hs hpre
          simp only [isShort, decide_eq_true_eq] at hshort
          omega
  refine ⟨ps, hFind, ?_, hmem⟩
  have hnil : (Find (unlinkAll doc (ps.filter (isShort doc))) [r] "p").length = 0 ↔
      ∀ s ∈ Find doc [r] "p", (Text doc [s]).utf8ByteSize < 25 := by
    rw [List.length_eq_zero, List.eq_nil_iff_forall_not_mem]
    constructor
    · intro h s hs
      by_contra hlt
      exact h s ((hmem s).2 ⟨hs, by omega⟩)
    · intro h s hs
      obtain ⟨hs1, hs2⟩ := (hmem s).1 hs
      have := h s hs1
      omega
  unfold isTableAndNoParaExist
  simp only [hrem]
  by_cases hall : ∀ s ∈ Find doc [r] "p", (Text doc [s]).utf8ByteSize < 25
  · rw [if_pos (hnil.2 hall)]
    simp only [Get0, atomOf_unlinkAll]
    have : decide (atomOf doc r ≠ "td") =
        decide ((∀ s ∈ Find doc [r] "p", (Text doc [s]).utf8ByteSize < 25) ∧
          atomOf doc r ≠ "td") :=
      decide_eq_decide.2 ⟨fun h => ⟨hall, h⟩, fun h => h.2⟩
    rw [this]
  · rw [if_neg (fun h => hall (hnil.1 h))]
    have : decide ((∀ s ∈ Find doc [r] "p", (Text doc [s]).utf8ByteSize < 25) ∧
        atomOf doc r ≠ "td") = false := decide_eq_false (fun h => hall h.1)
    rw [this]

/-! ## C15: the clean-up of tables -/

/-- C15 (counterexample): a table whose only paragraph has the text `ééééééééééééé`, 13
characters and 26 bytes.  The paragraph is shorter than 25 characters, but `len(txt)` is 26: the
paragraph is not unlinked and the result is false. -/
theorem isTableAndNoParaExist_counts_bytes :
    (Text (tableWith ["ééééééééééééé"]) [.inDoc [0, 1, 0, 0, 0, 0, 0]]).length = 13 ∧
    (Text (tableWith ["ééééééééééééé"]) [.inDoc [0, 1, 0, 0, 0, 0, 0]]).utf8ByteSize = 26 ∧
    (okValue (isTableAndNoParaExist (tableWith ["ééééééééééééé"]) [.inDoc [0, 1, 0]])).map
      (fun x => (x.1.Detached [0, 1, 0, 0, 0, 0, 0], x.2)) = some (false, false) := by
  decide

/-- C15 (amended).  On a well-formed document (text nodes have no children), for every node,
`isTableAndNoParaExist` does not panic; it unlinks exactly the paragraph descendants whose text
is shorter than 25 bytes (`len` counts the bytes of the UTF-8 text, not the characters) and
nothing else; the paragraph descendants that remain are those of 25 bytes or more; and it
returns true if and only if no paragraph descendant remains, that is every paragraph descendant
was shorter than 25 bytes, and the tag of the node is not `td`. -/
theorem isTableAndNoParaExist_spec (doc : Document) (r : NodeRef)
    (hwf : doc.root.wellFormed = true) :
    ∃ doc' b, isTableAndNoParaExist doc [r] = .ok (doc', b) ∧
      doc'.root = doc.root ∧ doc'.Attr = doc.Attr ∧
      (∀ x, doc'.Detached x = (doc.Detached x ||
        (decide (NodeRef.inDoc x ∈ Find doc [r] "p") &&
          decide ((Text doc [.inDoc x]).utf8ByteSize < 25)))) ∧
      (∀ s, s ∈ Find doc' [r] "p" ↔ s ∈ Find doc [r] "p" ∧ 25 ≤ (Text doc [s]).utf8ByteSize) ∧
      (b = true ↔ Find doc' [r] "p" = [] ∧ atomOf doc r ≠ "td") ∧
      (b = true ↔
        (∀ s ∈ Find doc [r] "p", (Text doc [s]).utf8ByteSize < 25) ∧ atomOf doc r ≠ "td") := by
  obtain ⟨ps, hFind, heq, hmem⟩ := isTableAndNoParaExist_eq doc r hwf
  refine ⟨_, _, heq, rfl, rfl, ?_, hmem, ?_, by simp⟩
  · intro x
    simp only [unlinkAll, hFind, mem_map_inDoc, List.mem_filter, isShort]
    by_cases h1 : x ∈ ps <;> simp [h1]
  · simp only [decide_eq_true_eq]
    apply and_congr_left
    intro _
    rw [List.eq_nil_iff_forall_not_mem]
    constructor
    · intro h s hs
      obtain ⟨hs1, hs2⟩ := (hmem s).1 hs
      have := h s hs1
      omega
    · intro h s hs
      by_contra hlt
      exact h s ((hmem s).2 ⟨hs, by omega⟩)

/-- C15 at concrete inputs: a table whose paragraphs have 10 and 30 characters keeps the second
one only and yields false; a table whose only paragraph has 10 characters yields true; the cell
of that table, a `td`, yields false. -/
theorem isTableAndNoParaExist_spec_witness :
    (∃ doc' b,
      isTableAndNoParaExist (tableWith ["0123456789", "012345678901234567890123456789"])
        [.inDoc [0, 1, 0]] = .ok (doc', b) ∧
      doc'.Detached [0, 1, 0, 0, 0, 0, 0] = true ∧ doc'.Detached [0, 1, 0, 0, 0, 0, 1] = false ∧
      b = false) ∧
    (∃ doc' b, isTableAndNoParaExist (tableWith ["0123456789"]) [.inDoc [0, 1, 0]] =
      .ok (doc', b) ∧ b = true) ∧
    (∃ doc' b, isTableAndNoParaExist (tableWith ["0123456789"]) [.inDoc [0, 1, 0, 0, 0, 0]] =
      .ok (doc', b) ∧ b = false) := by
  refine ⟨?_, ?_, ?_⟩
  · obtain ⟨doc', b, h, _, _, hdet, _, _, hb⟩ := isTableAndNoParaExist_spec
      (tableWith ["0123456789", "012345678901234567890123456789"]) (.inDoc [0, 1, 0]) (by decide)
    refine ⟨doc', b, h, ?_, ?_, ?_⟩
    · rw [hdet]; decide
    · rw [hdet]; decide
    · rw [← Bool.not_eq_true, hb]; decide
  · obtain ⟨doc', b, h, _, _, _, _, _, hb⟩ := isTableAndNoParaExist_spec
      (tableWith ["0123456789"]) (.inDoc [0, 1, 0]) (by decide)
    exact ⟨doc', b, h, hb.2 (by decide)⟩
  · obtain ⟨doc', b, h, _, _, _, _, _, hb⟩ := isTableAndNoParaExist_spec
      (tableWith ["0123456789"]) (.inDoc [0, 1, 0, 0, 0, 0]) (by decide)
    exact ⟨doc', b, h, by rw [← Bool.not_eq_true, hb]; decide⟩

/-! ## C16: the criterion of the sibling recovery -/

theorem sum_nonneg_of_forall (l : List Int) (h : ∀ x ∈ l, 0 ≤ x) : 0 ≤ l.sum := by
  induction l with
  | nil => simp
  | cons a rest ih =>
    rw [List.sum_cons]
    have h1 := h a (List.mem_cons_self _ _)
    have h2 := ih (fun x hx => h x (List.mem_cons_of_mem _ hx))
    omega

/-- C16.  The function `getSiblingsScore` returns 100000 when no paragraph descendant of the top
node has a stop-word count above 2 and not-high link density; else the sum of the stop-word
counts of these paragraphs divided by their number, the quotient truncated to an integer (the
sum is not negative, so this is the quotient rounded down).  The function `getSiblingsContent`
on a sibling returns the sibling itself and nothing else when it is a paragraph whose text is
not empty; else it returns, in document order, one plain-text paragraph (a new text node with
the text of the paragraph) for exactly those paragraph descendants whose text is not empty,
whose stop-word count is strictly greater than 0.30 times the baseline and whose link density
is not high. -/
theorem sibling_recovery_criterion (sw : String → Int) (doc : Document) (topNode : Selection)
    (s : NodeRef) (baseline : Int) :
    (baselineParagraphs sw doc topNode = [] → getSiblingsScore sw doc topNode = 100000) ∧
    (baselineParagraphs sw doc topNode ≠ [] →
      getSiblingsScore sw doc topNode =
        ((baselineParagraphs sw doc topNode).map (fun c => sw (Text doc [c]))).sum.tdiv
          ((baselineParagraphs sw doc topNode).length : Int) ∧
      getSiblingsScore sw doc topNode =
        ((baselineParagraphs sw doc topNode).map (fun c => sw (Text doc [c]))).sum /
          ((baselineParagraphs sw doc topNode).length : Int)) ∧
    (atomOf doc s = "p" ∧ Text doc [s] ≠ "" →
      getSiblingsContent sw doc [s] (baseline : ℚ) = .ok [[s]]) ∧
    (¬ (atomOf doc s = "p" ∧ Text doc [s] ≠ "") →
      getSiblingsContent sw doc [s] (baseline : ℚ) =
        .ok (((findNode doc "p" s).filter (fun c =>
          decide (Text doc [c] ≠ "") &&
            decide ((3 / 10 : ℚ) * (baseline : ℚ) < ((sw (Text doc [c]) : Int) : ℚ)) &&
            !isHighLinkDensity doc [c])).map (fun c => [NodeRef.synthesized (Text doc [c])]))) ∧
    getSiblingsContent sw doc [s] (baseline : ℚ) =
      .ok ((recoveredNodes sw doc baseline s).map (fun r => [r])) := by
  have hlen : ((baselineParagraphs sw doc topNode).length : Int) > 0 ↔
      baselineParagraphs sw doc topNode ≠ [] := by
    cases baselineParagraphs sw doc topNode with
    | nil => simp
    | cons a l =>
      simp only [List.length_cons, Nat.cast_add, Nat.cast_one, gt_iff_lt, ne_eq,
        not_false_eq_true, iff_true, reduceCtorEq]
      omega
  have hscore : getSiblingsScore sw doc topNode =
      if ((baselineParagraphs sw doc topNode).length : Int) > 0 then
        ((baselineParagraphs sw doc topNode).map (fun c => sw (Text doc [c]))).sum.tdiv
          ((baselineParagraphs sw doc topNode).length : Int)
      else 100000 := rfl
  refine ⟨?_, ?_, ?_, ?_, getSiblingsContent_single sw doc baseline s⟩
  · intro h
    rw [hscore, if_neg (fun hpos => hlen.1 hpos h)]
  · intro h
    have h1 : getSiblingsScore sw doc topNode =
        ((baselineParagraphs sw doc topNode).map (fun c => sw (Text doc [c]))).sum.tdiv
          ((baselineParagraphs sw doc topNode).length : Int) := by
      rw [hscore, if_pos (hlen.2 h)]
    refine ⟨h1, ?_⟩
    rw [h1]
    apply Int.tdiv_eq_ediv
    · apply sum_nonneg_of_forall
      intro x hx
      simp only [List.mem_map, baselineParagraphs, List.mem_filter, Bool.and_eq_true,
        decide_eq_true_eq] at hx
      obtain ⟨c, ⟨_, hc, _⟩, rfl⟩ := hx
      omega
    · exact Int.natCast_nonneg _
  · intro h
    rw [getSiblingsContent_single, recoveredNodes, if_pos h]
    rfl
  · intro h
    rw [getSiblingsContent_single, recoveredNodes, if_neg h, List.map_map]
    congr 2
    apply List.filter_congr
    intro c _
    have hq : ((3 : ℚ) / 10 * (baseline : ℚ) < ((sw (Text doc [c]) : Int) : ℚ)) ↔
        3 * baseline < 10 * sw (Text doc [c]) := by
      constructor
      · intro hlt
        have : (3 : ℚ) * (baseline : ℚ) < 10 * ((sw (Text doc [c]) : Int) : ℚ) := by linarith
        exact_mod_cast this
      · intro hlt
        have : (3 : ℚ) * (baseline : ℚ) < 10 * ((sw (Text doc [c]) : Int) : ℚ) := by
          exact_mod_cast hlt
        linarith
    rw [decide_eq_decide.2 hq]

/-! ## C17: the order in which the set of the parents is listed -/

/-- The scan for the top node returns a member with the maximum score when it is listed last. -/
theorem topNodeLoop_last (doc : Document) (l : List Selection) (x : Selection)
    (hlast : l.getLast? = some x) (hmax : ∀ z ∈ l, getScore doc z ≤ getScore doc x)
    (hpos : 0 ≤ getScore doc x) :
    topNodeLoop doc l none 0 = some x := by
  have hx : x ∈ l := List.mem_of_mem_getLast? hlast
  obtain ⟨e, l1, l2, he, hl, _, _, hl2⟩ := topNodeLoop_max doc l none 0 ⟨x, hx, hpos⟩
  rw [he]
  cases l2 with
  | nil =>
    rw [hl] at hlast
    simp at hlast
    rw [hlast]
  | cons y rest =>
    exfalso
    have hlast' : (l1 ++ e :: y :: rest).getLast? = some x := hl ▸ hlast
    have hx2 : x ∈ y :: rest := by
      have h1 : (l1 ++ e :: y :: rest).getLast? = (y :: rest).getLast? := by
        rw [show l1 ++ e :: y :: rest = (l1 ++ [e]) ++ (y :: rest) by simp]
        rw [List.getLast?_append_of_ne_nil _ (by simp)]
      rw [h1] at hlast'
      exact List.mem_of_mem_getLast? hlast'
    have h2 := hl2 x hx2
    have h3 := hmax e (by rw [hl]; simp)
    omega

/-- C17 (counterexample): two wrappers with one paragraph of stop-word count 3 each have the
same score 3.  When the set of the parents is listed in the order of insertion, the second
wrapper is returned; when it is listed in the reverse order, the first wrapper is returned. -/
theorem calculateBestNode_depends_on_list_order :
    (okValue (calculateBestNode demoStopWords id twoWrappers)).map (fun x => x.2) =
      some (some [.inDoc [0, 1, 1]]) ∧
    (okValue (calculateBestNode demoStopWords List.reverse twoWrappers)).map (fun x => x.2) =
      some (some [.inDoc [0, 1, 0]]) := by
  decide!

/-- The member listed last among those with the maximum score, from a splitting of the
sequence at a member `e` that has the maximum score and is followed by smaller scores only. -/
theorem lastMaximum_eq (doc : Document) (l l1 l2 : List Selection) (e : Selection)
    (hl : l = l1 ++ e :: l2) (h1 : ∀ x ∈ l1, getScore doc x ≤ getScore doc e)
    (h2 : ∀ x ∈ l2, getScore doc x < getScore doc e) : lastMaximum doc l = some e := by
  have he : l.all (fun z => decide (getScore doc z ≤ getScore doc e)) = true := by
    rw [List.all_eq_true]
    intro z hz
    rw [hl] at hz
    rw [decide_eq_true_eq]
    rcases List.mem_append.1 hz with h | h
    · exact h1 z h
    · rcases List.mem_cons.1 h with rfl | h
      · exact le_refl _
      · exact le_of_lt (h2 z h)
  have hl2 : l2.filter (fun x => l.all (fun z => decide (getScore doc z ≤ getScore doc x))) =
      [] := by
    rw [List.filter_eq_nil_iff]
    intro x hx hall
    rw [List.all_eq_true] at hall
    have := hall e (by rw [hl]; simp)
    rw [decide_eq_true_eq] at this
    have := h2 x hx
    omega
  unfold lastMaximum
  conv_lhs => rw [hl, List.filter_append, List.filter_cons, ← hl]
  rw [he, if_pos rfl, hl2]
  simp

/-- C17 (amended).  On a document without `gravityScore` attributes, for every order in which
the set of the parents is listed, `calculateBestNode` returns the member that is listed last
among the members with the maximum score: a member `e` whose score is at least the score of
every member and after which only members with a smaller score are listed.  So when one node
only has the maximum score, the same node is returned for every order; when two or more
different nodes tie at the maximum, the one of them that is listed last is returned, and the
result depends on the order. -/
theorem calculateBestNode_order_independent (sw : String → Int)
    (listOrder1 listOrder2 : List Selection → List Selection) (doc : Document) (st : ScoreState)
    (hperm1 : ∀ l, (listOrder1 l).Perm l) (hperm2 : ∀ l, (listOrder2 l).Perm l)
    (hattr : ∀ p, hasScore doc (.inDoc p) = false)
    (hpass : scoringPass sw doc = .ok st) :
    calculateBestNode sw listOrder1 doc =
      .ok (st.doc, lastMaximum st.doc (listOrder1 st.parentNodes)) ∧
    (st.parentNodes ≠ [] →
      ∃ e before after, calculateBestNode sw listOrder1 doc = .ok (st.doc, some e) ∧
        listOrder1 st.parentNodes = before ++ e :: after ∧
        (∀ x ∈ st.parentNodes, getScore st.doc x ≤ getScore st.doc e) ∧
        (∀ x ∈ after, getScore st.doc x < getScore st.doc e)) ∧
    ((∀ x ∈ st.parentNodes, ∀ y ∈ st.parentNodes,
        (∀ z ∈ st.parentNodes, getScore st.doc z ≤ getScore st.doc x) →
        (∀ z ∈ st.parentNodes, getScore st.doc z ≤ getScore st.doc y) → x = y) →
      calculateBestNode sw listOrder1 doc = calculateBestNode sw listOrder2 doc) := by
  have hcalc : ∀ lo : List Selection → List Selection, calculateBestNode sw lo doc =
      .ok (st.doc, topNodeLoop st.doc (lo st.parentNodes) none 0) := by
    intro lo
    unfold calculateBestNode
    simp only [hpass]
  have hnil : ∀ lo : List Selection → List Selection, (∀ l, (lo l).Perm l) →
      st.parentNodes = [] → lo st.parentNodes = [] := by
    intro lo hperm hne
    have := hperm st.parentNodes
    rw [hne] at this ⊢
    exact List.Perm.eq_nil this
  have key : ∀ lo : List Selection → List Selection, (∀ l, (lo l).Perm l) →
      st.parentNodes ≠ [] →
      ∃ e l1 l2, topNodeLoop st.doc (lo st.parentNodes) none 0 = some e ∧
        lo st.parentNodes = l1 ++ e :: l2 ∧
        (∀ z ∈ l1, getScore st.doc z ≤ getScore st.doc e) ∧
        (∀ z ∈ l2, getScore st.doc z < getScore st.doc e) ∧
        e ∈ st.parentNodes ∧
        ∀ z ∈ st.parentNodes, getScore st.doc z ≤ getScore st.doc e := by
    intro lo hperm hne
    obtain ⟨x, hx, hx3⟩ := scoringPass_first_parent sw doc st hattr hpass hne
    have hx' : x ∈ lo st.parentNodes := (hperm _).mem_iff.2 hx
    obtain ⟨e, l1, l2, he, hl, _, hl1, hl2⟩ :=
      topNodeLoop_max st.doc (lo st.parentNodes) none 0 ⟨x, hx', hx3⟩
    refine ⟨e, l1, l2, he, hl, hl1, hl2, (hperm _).mem_iff.1 (by rw [hl]; simp), ?_⟩
    intro z hz
    have hz' : z ∈ l1 ++ e :: l2 := hl ▸ (hperm _).mem_iff.2 hz
    rcases List.mem_append.1 hz' with h | h
    · exact hl1 z h
    · rcases List.mem_cons.1 h with rfl | h
      · exact le_refl _
      · exact le_of_lt (hl2 z h)
  refine ⟨?_, ?_, ?_⟩
  · rw [hcalc]
    by_cases hne : st.parentNodes = []
    · rw [hnil listOrder1 hperm1 hne]
      rfl
    · obtain ⟨e, l1, l2, he, hl, hl1, hl2, _, _⟩ := key listOrder1 hperm1 hne
      rw [he, lastMaximum_eq st.doc _ l1 l2 e hl hl1 hl2]
  · intro hne
    obtain ⟨e, l1, l2, he, hl, _, hl2, _, hmax⟩ := key listOrder1 hperm1 hne
    exact ⟨e, l1, l2, by rw [hcalc, he], hl, hmax, hl2⟩
  · intro huniq
    rw [hcalc, hcalc]
    by_cases hne : st.parentNodes = []
    · rw [hnil listOrder1 hperm1 hne, hnil listOrder2 hperm2 hne]
    · obtain ⟨e1, _, _, he1, _, _, _, hm1, hmax1⟩ := key listOrder1 hperm1 hne
      obtain ⟨e2, _, _, he2, _, _, _, hm2, hmax2⟩ := key listOrder2 hperm2 hne
      rw [he1, he2, huniq e1 hm1 e2 hm2 hmax1 hmax2]

/-- C17 (amended) at concrete inputs.  The two wrappers with one paragraph each tie at the
maximum score 3: listed in the order of insertion (first wrapper, body, second wrapper, body)
the member listed last among the two is the second wrapper, and it is returned; listed in the
reverse order it is the first wrapper.  The wrapper with three paragraphs has the maximum
score alone, so listing the set in the order of insertion and in the reverse order gives the
same top node. -/
theorem calculateBestNode_order_independent_witness :
    (∃ st, scoringPass demoStopWords twoWrappers = .ok st ∧
      st.parentNodes = [[.inDoc [0, 1, 0]], [.inDoc [0, 1]], [.inDoc [0, 1, 1]], [.inDoc [0, 1]]] ∧
      st.parentNodes.map (getScore st.doc) = [3, 1, 3, 1] ∧
      calculateBestNode demoStopWords id twoWrappers =
        .ok (st.doc, lastMaximum st.doc (id st.parentNodes)) ∧
      lastMaximum st.doc (id st.parentNodes) = some [.inDoc [0, 1, 1]] ∧
      calculateBestNode demoStopWords List.reverse twoWrappers =
        .ok (st.doc, lastMaximum st.doc (List.reverse st.parentNodes)) ∧
      lastMaximum st.doc (List.reverse st.parentNodes) = some [.inDoc [0, 1, 0]]) ∧
    calculateBestNode demoStopWords id (threeParagraphs "eee" "eeeeeeeeee" "eeee") =
      calculateBestNode demoStopWords List.reverse (threeParagraphs "eee" "eeeeeeeeee" "eeee") :=
  ⟨⟨_, rfl, by decide!, by decide!,
    (calculateBestNode_order_independent demoStopWords id List.reverse twoWrappers _
      (fun l => List.Perm.refl l) (fun l => List.reverse_perm l) (fun _ => rfl) rfl).1,
    by decide!,
    (calculateBestNode_order_independent demoStopWords List.reverse id twoWrappers _
      (fun l => List.reverse_perm l) (fun l => List.Perm.refl l) (fun _ => rfl) rfl).1,
    by decide!⟩,
   (calculateBestNode_order_independent demoStopWords id List.reverse
    (threeParagraphs "eee" "eeeeeeeeee" "eeee") _ (fun l => List.Perm.refl l)
    (fun l => List.reverse_perm l) (fun _ => rfl) rfl).2.2 (by decide!)⟩

/-! ## C18: the children that `postCleanup` unlinks -/

/-- C18 (code defect) at a concrete input.  The top node is a `div` with the score 3 whose first
child, a `div` without score, holds a paragraph of 25 bytes: the child has no link, is no table
without paragraphs, and fails the relevance threshold against the top node (`0 < 0.08 * 3`).
Alone in the body, the child is unlinked by `postCleanup`.  With a paragraph before the top
node, `addSiblings` puts that paragraph in front of the nodes of the selection, the threshold is
taken against the score of that paragraph (0), and the child stays linked. -/
theorem postCleanup_threshold_reads_first_node :
    (okValue (calculateBestNode demoStopWords id noSiblingBeforeTop)).map
      (fun x => (x.2, okValue (isNodescoreThresholdMet x.1 [.inDoc [0, 1, 0]]
        [.inDoc [0, 1, 0, 0]]))) = some (some [.inDoc [0, 1, 0]], some false) ∧
    (extractTopNode demoStopWords id noSiblingBeforeTop).map
      (fun x => (x.2, x.1.Detached [0, 1, 0, 0])) = some ([.inDoc [0, 1, 0]], true) ∧
    (okValue (calculateBestNode demoStopWords id siblingBeforeTop)).map
      (fun x => (x.2, okValue (isNodescoreThresholdMet x.1 [.inDoc [0, 1, 1]]
        [.inDoc [0, 1, 1, 0]]), isHighLinkDensity x.1 [.inDoc [0, 1, 1, 0]],
        (okValue (isTableAndNoParaExist x.1 [.inDoc [0, 1, 1, 0]])).map (fun y => y.2))) =
      some (some [.inDoc [0, 1, 1]], some false, false, some false) ∧
    (extractTopNode demoStopWords id siblingBeforeTop).map
      (fun x => (x.2, x.1.Detached [0, 1, 1, 0])) =
      some ([.inDoc [0, 1, 0], .inDoc [0, 1, 1]], false) := by
  decide!

/-! ## Lemmas on `postCleanup` -/

mutual
/-- The descendants of a node depend on the links below the node only. -/
theorem descendants_congr (det det' : Path → Bool) :
    ∀ (n : Node) (p : Path), (∀ j rest, det (p ++ j :: rest) = det' (p ++ j :: rest)) →
      n.descendants det p = n.descendants det' p
  | .mk t dd cs, p, h => by
    rw [Node.descendants, Node.descendants,
      descendantsList_congr det det' cs p 0 (fun j rest _ => h j rest)]
theorem descendantsList_congr (det det' : Path → Bool) :
    ∀ (cs : List Node) (p : Path) (i : Nat),
      (∀ j rest, i ≤ j → det (p ++ j :: rest) = det' (p ++ j :: rest)) →
      Node.descendantsList det cs p i = Node.descendantsList det' cs p i
  | [], p, i, h => by simp [Node.descendantsList]
  | c :: cs, p, i, h => by
    rw [Node.descendantsList, Node.descendantsList,
      descendantsList_congr det det' cs p (i + 1) (fun j rest hj => h j rest (by omega))]
    have h1 : det (p ++ [i]) = det' (p ++ [i]) := h i [] (le_refl _)
    have h2 : c.descendants det (p ++ [i]) = c.descendants det' (p ++ [i]) :=
      descendants_congr det det' c (p ++ [i]) (fun j rest => by
        have := h i (j :: rest) (le_refl _)
        simpa using this)
    rw [h1, h2]
end

/-- Unlinking nodes that are not below the node at `s` does not change what `findNode` lists
below it. -/
theorem findNode_unlinkAll (doc : Document) (S : List Path) (tag : String) (s : Path)
    (h : ∀ a ∈ S, ¬ s <+: a) :
    findNode (unlinkAll doc S) tag (.inDoc s) = findNode doc tag (.inDoc s) := by
  unfold findNode
  simp only [unlinkAll]
  cases hn : doc.root.get? s with
  | none => rfl
  | some n =>
    simp only
    rw [descendants_congr (fun x => doc.Detached x || decide (x ∈ S)) doc.Detached n s]
    intro j rest
    have : s ++ j :: rest ∉ S := fun hmem => h _ hmem ⟨j :: rest, rfl⟩
    simp [this]

/-- The members of the result of `findNode` on the node at `s` lie below `s`. -/
theorem findNode_below (doc : Document) (tag : String) (s : Path) (x : NodeRef)
    (h : x ∈ findNode doc tag (.inDoc s)) : ∃ j rest, x = .inDoc (s ++ j :: rest) := by
  cases x with
  | synthesized t =>
    obtain ⟨ps, hps, _, _⟩ := findNode_paths doc tag (.inDoc s)
    rw [hps] at h
    simp at h
  | inDoc q =>
    obtain ⟨_, rr, _, _, hne, hq, _⟩ := (mem_findNode _ _ _ _).1 h
    cases rr with
    | nil => exact absurd rfl hne
    | cons j rest => exact ⟨j, rest, by rw [hq]⟩

theorem isHighLinkDensity_unlinkAll (doc : Document) (S : List Path) (s : Path)
    (h : ∀ a ∈ S, ¬ s <+: a) :
    isHighLinkDensity (unlinkAll doc S) [.inDoc s] = isHighLinkDensity doc [.inDoc s] := by
  unfold isHighLinkDensity
  simp only [Find_single, findNode_unlinkAll doc S "a" s h, Text_unlinkAll doc S s h]
  have hmap : (findNode doc "a" (.inDoc s)).map (fun l => Text (unlinkAll doc S) [l]) =
      (findNode doc "a" (.inDoc s)).map (fun l => Text doc [l]) := by
    apply List.map_congr_left
    intro l hl
    obtain ⟨j, rest, rfl⟩ := findNode_below doc "a" s l hl
    apply Text_unlinkAll
    intro a ha hpre
    exact h a ha (List.IsPrefix.trans ⟨j :: rest, rfl⟩ hpre)
  rw [hmap]

theorem unlinkAll_unlinkAll (doc : Document) (S T : List Path) :
    unlinkAll (unlinkAll doc S) T = unlinkAll doc (S ++ T) := by
  simp only [unlinkAll]
  congr 1
  funext x
  simp [Bool.or_assoc]

/-- The function `isTableAndNoParaExist` on a child, after nodes that are not below the child
were unlinked: it unlinks nodes below the child, and its result is the one on the document
before. -/
theorem isTableAndNoParaExist_unlinkAll (doc : Document) (hwf : doc.root.wellFormed = true)
    (S : List Path) (s : Path) (h : ∀ a ∈ S, ¬ s <+: a) :
    ∃ shorts : List Path, (∀ a ∈ shorts, ∃ j rest, a = s ++ j :: rest) ∧
      isTableAndNoParaExist (unlinkAll doc S) [.inDoc s] =
        .ok (unlinkAll doc (S ++ shorts),
          decide ((∀ c ∈ Find doc [.inDoc s] "p", (Text doc [c]).utf8ByteSize < 25) ∧
            atomOf doc (.inDoc s) ≠ "td")) := by
  obtain ⟨ps, hFind, heq, _⟩ := isTableAndNoParaExist_eq (unlinkAll doc S) (.inDoc s) hwf
  have hF : Find (unlinkAll doc S) [.inDoc s] "p" = Find doc [.inDoc s] "p" := by
    rw [Find_single, Find_single, findNode_unlinkAll doc S "p" s h]
  have hbelow : ∀ a ∈ ps, ∃ j rest, a = s ++ j :: rest := by
    intro a ha
    have : NodeRef.inDoc a ∈ findNode doc "p" (.inDoc s) := by
      rw [← Find_single, ← hF, hFind]
      exact (mem_map_inDoc ps a).2 ha
    obtain ⟨j, rest, hx⟩ := findNode_below doc "p" s _ this
    exact ⟨j, rest, inDoc_injective hx⟩
  have hText : ∀ c ∈ Find doc [.inDoc s] "p",
      Text (unlinkAll doc S) [c] = Text doc [c] := by
    intro c hc
    rw [Find_single] at hc
    obtain ⟨j, rest, rfl⟩ := findNode_below doc "p" s c hc
    apply Text_unlinkAll
    intro a ha hpre
    exact h a ha (List.IsPrefix.trans ⟨j :: rest, rfl⟩ hpre)
  refine ⟨ps.filter (isShort (unlinkAll doc S)), ?_, ?_⟩
  · intro a ha
    exact hbelow a (List.mem_filter.1 ha).1
  · rw [heq, unlinkAll_unlinkAll, atomOf_unlinkAll, hF]
    congr 2
    apply decide_eq_decide.2
    apply and_congr_left
    intro _
    constructor
    · intro hall c hc
      rw [← hText c hc]
      exact hall c hc
    · intro hall c hc
      rw [hText c hc]
      exact hall c hc

theorem isNodescoreThresholdMet_unlinkAll (doc : Document) (S : List Path) (node e : Selection) :
    isNodescoreThresholdMet (unlinkAll doc S) node e = isNodescoreThresholdMet doc node e := rfl

theorem prefix_eq_of_length_eq {a b : Path} (h : a <+: b) (hl : a.length = b.length) : a = b :=
  h.eq_of_length hl

/-- The loop of `postCleanup` over children at the same depth, none listed twice: the nodes it
unlinks lie at or below these children, and a child is unlinked exactly when the condition
`cleanupVerdict` holds for it on the document before the loop. -/
theorem postCleanupLoop_eq (doc : Document) (hwf : doc.root.wellFormed = true)
    (node : Selection) (n : Nat) :
    ∀ (L S : List Path), L.Nodup →
      (∀ s ∈ L, s.length = n ∧ s ≠ [] ∧ doc.Detached s = false) →
      (∀ a ∈ S, ∀ s ∈ L, ¬ s <+: a) →
      ∃ T : List Path,
        postCleanupLoop (unlinkAll doc S) node (L.map NodeRef.inDoc) =
          .ok (unlinkAll doc (S ++ T)) ∧
        (∀ a ∈ T, ∃ s ∈ L, s <+: a) ∧
        (∀ s ∈ L, s ∈ T ↔ cleanupVerdict doc node (.inDoc s)) := by
  intro L
  induction L with
  | nil =>
    intro S _ _ _
    exact ⟨[], by simp [postCleanupLoop], by simp, by simp⟩
  | cons s rest ih =>
    intro S hnd hL hS
    rw [List.nodup_cons] at hnd
    obtain ⟨hs_notin, hnd_rest⟩ := hnd
    have hLs := hL s (List.mem_cons_self _ _)
    have hLrest : ∀ x ∈ rest, x.length = n ∧ x ≠ [] ∧ doc.Detached x = false :=
      fun x hx => hL x (List.mem_cons_of_mem _ hx)
    have hSs : ∀ a ∈ S, ¬ s <+: a := fun a ha => hS a ha s (List.mem_cons_self _ _)
    have hSrest : ∀ a ∈ S, ∀ x ∈ rest, ¬ x <+: a :=
      fun a ha x hx => hS a ha x (List.mem_cons_of_mem _ hx)
    -- a node at or below `s` has no other child of the list as a prefix
    have hbelow : ∀ a, s <+: a → ∀ x ∈ rest, ¬ x <+: a := by
      intro a hsa x hx hxa
      have hlen : x.length = s.length := by rw [(hLrest x hx).1, hLs.1]
      have : x = s := by
        rcases List.prefix_of_prefix_length_le hxa hsa (le_of_eq hlen) with hxs
        exact prefix_eq_of_length_eq hxs hlen
      exact hs_notin (this ▸ hx)
    have hsS : s ∉ S := fun hmem => hSs s hmem (List.prefix_refl _)
    -- the members of the rest are not at or below `s`
    have hrest_ne : ∀ x ∈ rest, ∀ a, s <+: a → x = a → False := by
      intro x hx a hsa hxa
      exact hbelow a hsa x hx (hxa ▸ List.prefix_refl _)
    simp only [List.map_cons, postCleanupLoop, atomOf_unlinkAll,
      isHighLinkDensity_unlinkAll doc S s hSs]
    by_cases hp : atomOf doc (.inDoc s) = "p"
    · -- a paragraph is skipped
      have hnp : ¬ atomOf doc (.inDoc s) ≠ "p" := fun h => h hp
      rw [if_neg hnp]
      obtain ⟨T, hT, hTb, hTm⟩ := ih S hnd_rest hLrest hSrest
      refine ⟨T, hT, ?_, ?_⟩
      · intro a ha
        obtain ⟨x, hx, hxa⟩ := hTb a ha
        exact ⟨x, List.mem_cons_of_mem _ hx, hxa⟩
      · intro x hx
        rcases List.mem_cons.1 hx with rfl | hx
        · constructor
          · intro hxT
            obtain ⟨y, hy, hyx⟩ := hTb x hxT
            exact absurd (List.prefix_refl x) (hbelow x (List.prefix_refl _) y hy |> fun h => by
              intro _; exact h hyx)
          · intro hv
            exact absurd hp hv.1
        · exact hTm x hx
    · rw [if_pos hp]
      by_cases hhld : isHighLinkDensity doc [.inDoc s] = true
      · -- high link density
        rw [if_pos hhld, removeFromParent_unlinkAll doc S s hLs.2.1 hLs.2.2 hsS]
        simp only
        obtain ⟨T, hT, hTb, hTm⟩ := ih (S ++ [s]) hnd_rest hLrest (by
          intro a ha x hx
          rcases List.mem_append.1 ha with ha | ha
          · exact hSrest a ha x hx
          · rw [List.mem_singleton.1 ha]
            exact hbelow s (List.prefix_refl _) x hx)
        refine ⟨s :: T, ?_, ?_, ?_⟩
        · rw [hT]
          simp
        · intro a ha
          rcases List.mem_cons.1 ha with rfl | ha
          · exact ⟨a, List.mem_cons_self _ _, List.prefix_refl _⟩
          · obtain ⟨x, hx, hxa⟩ := hTb a ha
            exact ⟨x, List.mem_cons_of_mem _ hx, hxa⟩
        · intro x hx
          rcases List.mem_cons.1 hx with rfl | hx
          · exact ⟨fun _ => ⟨hp, Or.inl hhld⟩, fun _ => List.mem_cons_self _ _⟩
          · rw [List.mem_cons, hTm x hx]
            constructor
            · rintro (h | h)
              · exact absurd (h ▸ hx) hs_notin
              · exact h
            · exact fun h => Or.inr h
      · rw [if_neg hhld]
        obtain ⟨shorts, hshorts, htab⟩ := isTableAndNoParaExist_unlinkAll doc hwf S s hSs
        have hshort_pre : ∀ a ∈ shorts, s <+: a := by
          intro a ha
          obtain ⟨j, rr, rfl⟩ := hshorts a ha
          exact ⟨j :: rr, rfl⟩
        have hs_short : s ∉ shorts := by
          intro hmem
          obtain ⟨j, rr, h⟩ := hshorts s hmem
          have := congrArg List.length h
          simp at this
        have hrest_short : ∀ x ∈ rest, x ∉ shorts := by
          intro x hx hmem
          exact hrest_ne x hx x (hshort_pre x hmem) rfl
        have hinv1 : ∀ a ∈ S ++ shorts, ∀ x ∈ rest, ¬ x <+: a := by
          intro a ha x hx
          rcases List.mem_append.1 ha with ha | ha
          · exact hSrest a ha x hx
          · exact hbelow a (hshort_pre a ha) x hx
        have hinv2 : ∀ a ∈ (S ++ shorts) ++ [s], ∀ x ∈ rest, ¬ x <+: a := by
          intro a ha x hx
          rcases List.mem_append.1 ha with ha | ha
          · exact hinv1 a ha x hx
          · rw [List.mem_singleton.1 ha]
            exact hbelow s (List.prefix_refl _) x hx
        have hs_notin2 : s ∉ S ++ shorts := by
          intro hmem
          rcases List.mem_append.1 hmem with h | h
          · exact hsS h
          · exact hs_short h
        rw [htab]
        by_cases htable : (∀ c ∈ Find doc [.inDoc s] "p", (Text doc [c]).utf8ByteSize < 25) ∧
            atomOf doc (.inDoc s) ≠ "td"
        · -- a table without paragraphs
          have hdec : decide ((∀ c ∈ Find doc [.inDoc s] "p",
              (Text doc [c]).utf8ByteSize < 25) ∧ atomOf doc (.inDoc s) ≠ "td") = true :=
            decide_eq_true htable
          rw [hdec]
          simp only [removeFromParent_unlinkAll doc (S ++ shorts) s hLs.2.1 hLs.2.2 hs_notin2]
          obtain ⟨T, hT, hTb, hTm⟩ := ih ((S ++ shorts) ++ [s]) hnd_rest hLrest hinv2
          refine ⟨shorts ++ s :: T, ?_, ?_, ?_⟩
          · rw [hT]
            simp
          · intro a ha
            rcases List.mem_append.1 ha with ha | ha
            · exact ⟨s, List.mem_cons_self _ _, hshort_pre a ha⟩
            · rcases List.mem_cons.1 ha with rfl | ha
              · exact ⟨a, List.mem_cons_self _ _, List.prefix_refl _⟩
              · obtain ⟨x, hx, hxa⟩ := hTb a ha
                exact ⟨x, List.mem_cons_of_mem _ hx, hxa⟩
          · intro x hx
            rcases List.mem_cons.1 hx with rfl | hx
            · exact ⟨fun _ => ⟨hp, Or.inr (Or.inl htable)⟩, fun _ => by simp⟩
            · rw [List.mem_append, List.mem_cons, ← hTm x hx]
              constructor
              · rintro (h | h | h)
                · exact absurd h (hrest_short x hx)
                · exact absurd (h ▸ hx) hs_notin
                · exact h
              · exact fun h => Or.inr (Or.inr h)
        · have hdec : decide ((∀ c ∈ Find doc [.inDoc s] "p",
              (Text doc [c]).utf8ByteSize < 25) ∧ atomOf doc (.inDoc s) ≠ "td") = false :=
            decide_eq_false htable
          rw [hdec]
          by_cases hth : atomOf doc (.inDoc s) ≠ "td" ∧
              f64 (getNodeGravityScore doc [.inDoc s] : ℚ) <
                thresholdF64 (getNodeGravityScore doc node)
          · -- the threshold is not met
            have hb : (!(decide (atomOf doc (.inDoc s) ≠ "td") &&
                decide (f64 (getNodeGravityScore doc [.inDoc s] : ℚ) <
                  thresholdF64 (getNodeGravityScore doc node)))) = false := by
              simp [hth.1, hth.2]
            have hth' : isNodescoreThresholdMet (unlinkAll doc (S ++ shorts)) node
                [.inDoc s] = .ok false := by
              rw [isNodescoreThresholdMet_unlinkAll, isNodescoreThresholdMet_single, hb]
            simp only [hth', removeFromParent_unlinkAll doc (S ++ shorts) s hLs.2.1 hLs.2.2
              hs_notin2]
            obtain ⟨T, hT, hTb, hTm⟩ := ih ((S ++ shorts) ++ [s]) hnd_rest hLrest hinv2
            refine ⟨shorts ++ s :: T, ?_, ?_, ?_⟩
            · rw [hT]
              simp
            · intro a ha
              rcases List.mem_append.1 ha with ha | ha
              · exact ⟨s, List.mem_cons_self _ _, hshort_pre a ha⟩
              · rcases List.mem_cons.1 ha with rfl | ha
                · exact ⟨a, List.mem_cons_self _ _, List.prefix_refl _⟩
                · obtain ⟨x, hx, hxa⟩ := hTb a ha
                  exact ⟨x, List.mem_cons_of_mem _ hx, hxa⟩
            · intro x hx
              rcases List.mem_cons.1 hx with rfl | hx
              · exact ⟨fun _ => ⟨hp, Or.inr (Or.inr hth)⟩, fun _ => by simp⟩
              · rw [List.mem_append, List.mem_cons, ← hTm x hx]
                constructor
                · rintro (h | h | h)
                  · exact absurd h (hrest_short x hx)
                  · exact absurd (h ▸ hx) hs_notin
                  · exact h
                · exact fun h => Or.inr (Or.inr h)
          · -- the child stays
            have hb : (!(decide (atomOf doc (.inDoc s) ≠ "td") &&
                decide (f64 (getNodeGravityScore doc [.inDoc s] : ℚ) <
                  thresholdF64 (getNodeGravityScore doc node)))) = true := by
              by_cases h1 : atomOf doc (.inDoc s) ≠ "td"
              · have h2 : ¬ f64 (getNodeGravityScore doc [.inDoc s] : ℚ) <
                    thresholdF64 (getNodeGravityScore doc node) := fun h => hth ⟨h1, h⟩
                simp [h2]
              · simp [h1]
            have hth' : isNodescoreThresholdMet (unlinkAll doc (S ++ shorts)) node
                [.inDoc s] = .ok true := by
              rw [isNodescoreThresholdMet_unlinkAll, isNodescoreThresholdMet_single, hb]
            simp only [hth']
            obtain ⟨T, hT, hTb, hTm⟩ := ih (S ++ shorts) hnd_rest hLrest hinv1
            refine ⟨shorts ++ T, ?_, ?_, ?_⟩
            · rw [hT]
              simp
            · intro a ha
              rcases List.mem_append.1 ha with ha | ha
              · exact ⟨s, List.mem_cons_self _ _, hshort_pre a ha⟩
              · obtain ⟨x, hx, hxa⟩ := hTb a ha
                exact ⟨x, List.mem_cons_of_mem _ hx, hxa⟩
            · intro x hx
              rcases List.mem_cons.1 hx with rfl | hx
              · constructor
                · intro hxT
                  exfalso
                  rcases List.mem_append.1 hxT with h | h
                  · exact hs_short h
                  · obtain ⟨y, hy, hyx⟩ := hTb x h
                    exact hbelow x (List.prefix_refl _) y hy hyx
                · rintro ⟨_, h | h | h⟩
                  · exact absurd h hhld
                  · exact absurd h htable
                  · exact absurd h hth
              · rw [List.mem_append, ← hTm x hx]
                constructor
                · rintro (h | h)
                  · exact absurd h (hrest_short x hx)
                  · exact h
                · exact fun h => Or.inr h

theorem nodup_appendWithoutDuplicates (nodes : List NodeRef) :
    ∀ (target : List NodeRef), target.Nodup → (appendWithoutDuplicates target nodes).Nodup := by
  induction nodes with
  | nil => intro target h; simpa [appendWithoutDuplicates] using h
  | cons x rest ih =>
    intro target h
    unfold appendWithoutDuplicates
    rw [List.foldl_cons]
    by_cases hx : x ∈ target
    · rw [if_pos hx]
      exact ih target h
    · rw [if_neg hx]
      apply ih
      rw [List.nodup_append]
      exact ⟨h, List.nodup_singleton x, by
        intro a ha hb
        rw [List.mem_singleton] at hb
        exact hx (hb ▸ ha)⟩

theorem nodup_foldl_mapNodes (f : NodeRef → List NodeRef) (nodes : List NodeRef) :
    ∀ (acc : List NodeRef), acc.Nodup →
      (nodes.foldl (fun result n => appendWithoutDuplicates result (f n)) acc).Nodup := by
  induction nodes with
  | nil => intro acc h; simpa using h
  | cons x rest ih =>
    intro acc h
    rw [List.foldl_cons]
    exact ih _ (nodup_appendWithoutDuplicates _ _ h)

/-- The result of `mapNodes` has no node twice. -/
theorem mapNodes_nodup (f : NodeRef → List NodeRef) (nodes : List NodeRef) :
    (mapNodes nodes f).Nodup :=
  nodup_foldl_mapNodes f nodes [] List.nodup_nil

theorem exists_paths (l : List NodeRef) (h : ∀ x ∈ l, ∃ p, x = NodeRef.inDoc p) :
    ∃ L : List Path, l = L.map NodeRef.inDoc := by
  induction l with
  | nil => exact ⟨[], rfl⟩
  | cons x rest ih =>
    obtain ⟨p, rfl⟩ := h x (List.mem_cons_self _ _)
    obtain ⟨L, hL⟩ := ih (fun y hy => h y (List.mem_cons_of_mem _ hy))
    exact ⟨p :: L, by rw [hL]; rfl⟩

/-- A node recovered from a sibling is the sibling itself or a new text node. -/
theorem mem_recoveredNodes (sw : String → Int) (doc : Document) (baseline : Int)
    (s y : NodeRef) (h : y ∈ recoveredNodes sw doc baseline s) :
    y = s ∨ ∃ t, y = .synthesized t := by
  unfold recoveredNodes at h
  split at h
  · exact Or.inl (List.mem_singleton.1 h)
  · right
    simp only [List.mem_map] at h
    obtain ⟨c, _, rfl⟩ := h
    exact ⟨_, rfl⟩

theorem childrenNode_synthesized (doc : Document) (t : String) :
    childrenNode doc (.synthesized t) = [] := rfl

theorem unlinkAll_Detached (doc : Document) (T : List Path) (x : Path) :
    (unlinkAll doc T).Detached x = (doc.Detached x || decide (x ∈ T)) := rfl

/-- The condition `cleanupVerdict` in terms of the functions `postCleanup` calls. -/
theorem cleanupVerdict_iff (doc : Document) (hwf : doc.root.wellFormed = true)
    (node : Selection) (s : NodeRef) :
    cleanupVerdict doc node s ↔
      atomOf doc s ≠ "p" ∧
        (isHighLinkDensity doc [s] = true ∨
          (∃ d, isTableAndNoParaExist doc [s] = .ok (d, true)) ∨
          isNodescoreThresholdMet doc node [s] = .ok false) := by
  obtain ⟨ps, _, heq, _⟩ := isTableAndNoParaExist_eq doc s hwf
  have h1 : (∃ d, isTableAndNoParaExist doc [s] = .ok (d, true)) ↔
      ((∀ c ∈ Find doc [s] "p", (Text doc [c]).utf8ByteSize < 25) ∧ atomOf doc s ≠ "td") := by
    rw [heq]
    constructor
    · rintro ⟨d, hd⟩
      injection hd with hd
      have := congrArg Prod.snd hd
      simpa using this
    · intro h
      exact ⟨_, by rw [decide_eq_true h]⟩
  have h2 : isNodescoreThresholdMet doc node [s] = .ok false ↔
      (atomOf doc s ≠ "td" ∧
        f64 (getNodeGravityScore doc [s] : ℚ) < thresholdF64 (getNodeGravityScore doc node)) := by
    rw [isNodescoreThresholdMet_single]
    constructor
    · intro h
      injection h with h
      simpa using h
    · intro h
      congr 1
      simp [h.1, h.2]
  unfold cleanupVerdict
  rw [h1, h2]

/-- The function `postCleanup` on a top node of a well-formed document: it returns the
selection `addSiblings` made, and it unlinks a direct child of the top node exactly when
`cleanupVerdict` holds for the child and that selection. -/
theorem postCleanup_eq (sw : String → Int) (doc : Document) (p : Path) (k : Nat) (c0 : Node)
    (hwf : doc.root.wellFormed = true)
    (hget : doc.root.get? (p ++ [k]) = some c0) (hdet : doc.Detached (p ++ [k]) = false) :
    ∃ T node, postCleanup sw doc [.inDoc (p ++ [k])] = .ok (unlinkAll doc T, node) ∧
      addSiblings sw doc [.inDoc (p ++ [k])] = .ok node ∧
      (∀ c, NodeRef.inDoc c ∈ Children doc [.inDoc (p ++ [k])] →
        ((unlinkAll doc T).Detached c = true ↔ cleanupVerdict doc node (.inDoc c))) := by
  have hadd := addSiblings_single sw doc (p ++ [k]) c0 (by simp) hget hdet
  generalize hnode : (precedingSiblings doc (p ++ [k])).flatMap
    (fun s => (recoveredNodes sw doc (getSiblingsScore sw doc [.inDoc (p ++ [k])]) s).reverse) ++
      [NodeRef.inDoc (p ++ [k])] = node at hadd
  -- the nodes of the selection that lie in the document are at the depth of the top node
  have hdepth : ∀ y ∈ node, (∃ t, y = .synthesized t) ∨
      ∃ py : Path, y = .inDoc py ∧ py.length = p.length + 1 := by
    intro y hy
    rw [← hnode, List.mem_append] at hy
    rcases hy with hy | hy
    · simp only [List.mem_flatMap, List.mem_reverse] at hy
      obtain ⟨s, hs, hys⟩ := hy
      rcases mem_recoveredNodes _ _ _ _ _ hys with rfl | ht
      · obtain ⟨j, _, _, rfl, _⟩ := (mem_precedingSiblings doc p k y).1 hs
        exact Or.inr ⟨_, rfl, by simp⟩
      · exact Or.inl ht
    · rw [List.mem_singleton.1 hy]
      exact Or.inr ⟨_, rfl, by simp⟩
  -- the children of the selection
  have hchild : ∀ x ∈ Children doc node, ∃ px : Path, x = .inDoc px ∧
      px.length = p.length + 2 ∧ px ≠ [] ∧ doc.Detached px = false := by
    intro x hx
    obtain ⟨y, hy, hxy⟩ := (mem_mapNodes _ _ _).1 hx
    rcases hdepth y hy with ⟨t, rfl⟩ | ⟨py, rfl, hlen⟩
    · simp [childrenNode_synthesized] at hxy
    · obtain ⟨j, _, rfl, _, _, hd⟩ := mem_childrenNode doc py x hxy
      exact ⟨_, rfl, by simp [hlen], by simp, hd⟩
  obtain ⟨L, hL⟩ := exists_paths (Children doc node) (fun x hx => by
    obtain ⟨px, hpx, _⟩ := hchild x hx
    exact ⟨px, hpx⟩)
  have hLnd : L.Nodup := by
    have := mapNodes_nodup (childrenNode doc) node
    unfold Children at hL
    rw [hL] at this
    exact List.Nodup.of_map _ this
  have hLprop : ∀ s ∈ L, s.length = p.length + 2 ∧ s ≠ [] ∧ doc.Detached s = false := by
    intro s hs
    have : NodeRef.inDoc s ∈ Children doc node := by
      rw [hL]
      exact (mem_map_inDoc L s).2 hs
    obtain ⟨px, hpx, h1, h2, h3⟩ := hchild _ this
    cases hpx
    exact ⟨h1, h2, h3⟩
  obtain ⟨T, hT, _, hTm⟩ := postCleanupLoop_eq doc hwf node (p.length + 2) L [] hLnd hLprop
    (by simp)
  rw [unlinkAll_nil, List.nil_append] at hT
  refine ⟨T, node, ?_, hadd, ?_⟩
  · unfold postCleanup
    simp only [hadd, hL, hT]
  · intro c hc
    have hcnode : NodeRef.inDoc c ∈ Children doc node := by
      obtain ⟨y, hy, hcy⟩ := (mem_mapNodes _ _ _).1 hc
      rw [List.mem_singleton] at hy
      subst hy
      refine (mem_mapNodes _ _ _).2 ⟨_, ?_, hcy⟩
      rw [← hnode]
      simp
    have hcL : c ∈ L := by
      rw [hL] at hcnode
      exact (mem_map_inDoc L c).1 hcnode
    rw [unlinkAll_Detached, (hLprop c hcL).2.2, Bool.false_or, decide_eq_true_eq]
    exact hTm c hcL

/-- C18 (what the code does).  On a well-formed document, for every linked top node,
`postCleanup` does not panic and returns the selection `node` that `addSiblings` made: the
recovered nodes, then the top node.  It unlinks a direct child of the top node if and only if
the tag of the child is not `p` and the child has high link density, or is a table without
paragraphs (`isTableAndNoParaExist`), or `isNodescoreThresholdMet(node, child)` is false.  A
direct child with the tag `p` is never unlinked, and one with the tag `td` exactly when it has
high link density.  The threshold is taken against the score of the first node of `node`: this
is the top node only when no node was recovered, else it is the last recovered node. -/
theorem postCleanup_detaches_child (sw : String → Int) (doc : Document) (p : Path) (k : Nat)
    (c0 : Node) (hwf : doc.root.wellFormed = true)
    (hget : doc.root.get? (p ++ [k]) = some c0) (hdet : doc.Detached (p ++ [k]) = false) :
    ∃ doc' node, postCleanup sw doc [.inDoc (p ++ [k])] = .ok (doc', node) ∧
      addSiblings sw doc [.inDoc (p ++ [k])] = .ok node ∧
      node = (precedingSiblings doc (p ++ [k])).flatMap
        (fun s => (recoveredNodes sw doc (getSiblingsScore sw doc [.inDoc (p ++ [k])]) s).reverse)
          ++ [.inDoc (p ++ [k])] ∧
      doc'.root = doc.root ∧ doc'.Attr = doc.Attr ∧
      (∀ c, NodeRef.inDoc c ∈ Children doc [.inDoc (p ++ [k])] →
        (doc'.Detached c = true ↔
          atomOf doc (.inDoc c) ≠ "p" ∧
            (isHighLinkDensity doc [.inDoc c] = true ∨
              (∃ d, isTableAndNoParaExist doc [.inDoc c] = .ok (d, true)) ∨
              isNodescoreThresholdMet doc node [.inDoc c] = .ok false))) ∧
      (∀ c, NodeRef.inDoc c ∈ Children doc [.inDoc (p ++ [k])] →
        atomOf doc (.inDoc c) = "p" → doc'.Detached c = false) ∧
      (∀ c, NodeRef.inDoc c ∈ Children doc [.inDoc (p ++ [k])] →
        atomOf doc (.inDoc c) = "td" →
        (doc'.Detached c = true ↔ isHighLinkDensity doc [.inDoc c] = true)) ∧
      (∀ r rest, node = r :: rest → getNodeGravityScore doc node = scoreOf doc r) := by
  obtain ⟨T, node, hpc, hadd, hiff⟩ := postCleanup_eq sw doc p k c0 hwf hget hdet
  have hnode : node = (precedingSiblings doc (p ++ [k])).flatMap
      (fun s => (recoveredNodes sw doc (getSiblingsScore sw doc [.inDoc (p ++ [k])]) s).reverse)
        ++ [.inDoc (p ++ [k])] := by
    have h := addSiblings_single sw doc (p ++ [k]) c0 (by simp) hget hdet
    rw [hadd] at h
    injection h
  refine ⟨unlinkAll doc T, node, hpc, hadd, hnode, rfl, rfl, ?_, ?_, ?_, ?_⟩
  · intro c hc
    rw [hiff c hc, cleanupVerdict_iff doc hwf]
  · intro c hc hp
    rw [← Bool.not_eq_true, hiff c hc]
    exact fun hv => hv.1 hp
  · intro c hc htd
    rw [hiff c hc]
    unfold cleanupVerdict
    constructor
    · rintro ⟨_, h | h | h⟩
      · exact h
      · exact absurd htd h.2
      · exact absurd htd h.1
    · intro h
      refine ⟨?_, Or.inl h⟩
      rw [htd]
      decide
  · intro r rest hr
    rw [hr]
    exact getScore_cons doc r rest

/-- C18 at the failing input: after the scoring pass the top node `div` has the score 3 and a
paragraph stands before it.  The child `div` fails the threshold against the top node, but
`postCleanup` takes the threshold against the recovered paragraph, the first node of the
selection, and the child stays linked. -/
theorem postCleanup_detaches_child_witness :
    ∃ doc' node, postCleanup demoStopWords scoredSiblingBeforeTop [.inDoc [0, 1, 1]] =
        .ok (doc', node) ∧
      node = [.inDoc [0, 1, 0], .inDoc [0, 1, 1]] ∧
      getNodeGravityScore scoredSiblingBeforeTop [.inDoc [0, 1, 1]] = 3 ∧
      isNodescoreThresholdMet scoredSiblingBeforeTop [.inDoc [0, 1, 1]] [.inDoc [0, 1, 1, 0]] =
        .ok false ∧
      isNodescoreThresholdMet scoredSiblingBeforeTop node [.inDoc [0, 1, 1, 0]] = .ok true ∧
      doc'.Detached [0, 1, 1, 0] = false := by
  obtain ⟨doc', node, hpc, _, hnode, _, _, hiff, _, _, _⟩ :=
    postCleanup_detaches_child demoStopWords scoredSiblingBeforeTop [0, 1] 1
      (elem "div" [elem "div" [elem "p" [txt "0123456789012345678901234"]], elem "p" [txt "eee"]])
      (by decide!) rfl (by decide!)
  have hnode' : node = [.inDoc [0, 1, 0], .inDoc [0, 1, 1]] := by
    rw [hnode]
    decide!
  have hmet : isNodescoreThresholdMet scoredSiblingBeforeTop node [.inDoc [0, 1, 1, 0]] =
      .ok true := by
    rw [hnode']
    exact eq_ok_of_okValue _ _ (by decide!)
  refine ⟨doc', node, hpc, hnode', by decide!, eq_ok_of_okValue _ _ (by decide!), hmet, ?_⟩
  rw [← Bool.not_eq_true, hiff [0, 1, 1, 0] (by decide!)]
  rintro ⟨_, h | ⟨d, h⟩ | h⟩
  · revert h
    decide!
  · have h2 : (okValue (isTableAndNoParaExist scoredSiblingBeforeTop
        [.inDoc [0, 1, 1, 0]])).map (fun x => x.2) = some false := by decide!
    rw [h] at h2
    simp [okValue] at h2
  · rw [hmet] at h
    injection h with h
    cases h

/-! ## C19: the amounts added to the parent and to the grandparent -/

/-- C19.  For the candidate of every round of the scoring pass: the amount passed to
`updateScore` for its parent is `upScore`, the stop-word count plus `boostScore` truncated
toward zero (rounded down when `boostScore` is not negative, rounded up when it is negative:
`-1.5625` gives `-1`); the amount passed for its grandparent is `upScore / 2` truncated toward
zero (17 gives 8 and -3 gives -1); and a node without score before the pass ends with the
amount of the first of these calls made for it (an amount in the range of `int`, as every
`int` is). -/
theorem upScore_truncates_toward_zero (sw : String → Int) (doc : Document) (st : ScoreState)
    (hpass : scoringPass sw doc = .ok st) (j : Nat) (r : Round) (hr : st.rounds[j]? = some r) :
    (nodesWithText sw doc)[j]? = some r.node ∧
    r.upScore = sw (Text doc r.node) + truncToInt r.boostScore ∧
    (0 ≤ r.boostScore → truncToInt r.boostScore = ⌊r.boostScore⌋) ∧
    (r.boostScore ≤ 0 → truncToInt r.boostScore = ⌈r.boostScore⌉) ∧
    r.calls =
      [(Parent doc r.node, r.upScore), (Parent doc (Parent doc r.node), r.upScore.tdiv 2)] ∧
    (0 ≤ r.upScore → r.upScore.tdiv 2 = r.upScore / 2) ∧
    (r.upScore ≤ 0 → r.upScore.tdiv 2 = -((-r.upScore) / 2)) ∧
    (∀ x, hasScore doc x = false →
      -2 ^ 63 ≤ firstAmount (st.rounds.flatMap Round.calls) x →
      firstAmount (st.rounds.flatMap Round.calls) x < 2 ^ 63 →
      scoreOf st.doc x = firstAmount (st.rounds.flatMap Round.calls) x) ∧
    truncToInt (-(25 / 16)) = -1 ∧ (17 : Int).tdiv 2 = 8 ∧ (-3 : Int).tdiv 2 = -1 := by
  obtain ⟨hnode, _, hup, hp, hpp⟩ := scoringPass_round sw doc st hpass j r hr
  refine ⟨hnode, hup, ?_, ?_, ?_, ?_, ?_, ?_, by decide!, by decide, by decide⟩
  · intro h
    simp [truncToInt, h]
  · intro h
    rcases h.eq_or_lt with h0 | hlt
    · rw [h0]
      simp [truncToInt]
    · simp [truncToInt, not_le.2 hlt]
  · simp [Round.calls, hp, hpp]
  · intro h
    exact Int.tdiv_eq_ediv h (by norm_num)
  · intro h
    have h1 : r.upScore.tdiv 2 = -((-r.upScore).tdiv 2) := by
      rw [Int.neg_tdiv, neg_neg]
    rw [h1, Int.tdiv_eq_ediv (by omega) (by norm_num)]
  · intro x hx hlo hhi
    have hpass' := hpass
    rw [scoringPass_eq] at hpass'
    have h1 := scoreLoop_scoreOf sw _ 0 _ doc _ (initialState doc) st (SameTree.refl doc)
      hpass' x
    obtain ⟨_, _, _, hrounds, _, _⟩ :=
      scoreLoop_inv sw _ 0 _ doc _ (initialState doc) st (SameTree.refl doc) hpass'
    have hx' : hasScore (initialState doc).doc x = false := hx
    rw [hx'] at h1
    simp only [Bool.false_eq_true, if_false] at h1
    have hr' : st.rounds = expectedRounds sw doc ((nodesWithText sw doc).length : Int) 0
        (((nodesWithText sw doc).length : Int) * (1 / 4)) (initialState doc).startingBoost
        (initialState doc).cnt (initialState doc).i (nodesWithText sw doc) := by
      rw [hrounds]
      simp [initialState]
    rw [h1, ← hr']
    exact readBack_of_range _ ⟨hlo, hhi⟩

/-- C19 at a concrete input: with 17 candidates of stop-word count 6 the candidate at position
14 lies in the tail with booster 1.25; its `boostScore` is `-1.5625`, which contributes `-1`, so
its parent is passed `6 - 1 = 5` and its grandparent `2`. -/
theorem upScore_truncates_toward_zero_witness :
    ∃ (st : ScoreState) (r : Round),
      scoringPass demoStopWords (paragraphs 17) = .ok st ∧ st.rounds[14]? = some r ∧
      r.boostScore = -(25 / 16) ∧ r.upScore = 5 ∧
      r.upScore = demoStopWords (Text (paragraphs 17) r.node) + truncToInt r.boostScore ∧
      r.calls = [(Parent (paragraphs 17) r.node, r.upScore),
        (Parent (paragraphs 17) (Parent (paragraphs 17) r.node), r.upScore.tdiv 2)] ∧
      r.upScore.tdiv 2 = 2 :=
  ⟨_, _, rfl, rfl, by decide!, by decide!,
    (upScore_truncates_toward_zero demoStopWords (paragraphs 17) _ rfl 14 _ rfl).2.1,
    (upScore_truncates_toward_zero demoStopWords (paragraphs 17) _ rfl 14 _ rfl).2.2.2.2.1,
    by decide!⟩

/-! ## C20: the words of the link density -/

/-- C20 (counterexample): a block with the links `a` and `b` and one space after them has the
text `ab `, one whitespace-separated word; `strings.Split` on the space gives two words, the
second one empty.  With `L = 1` and `A = 2` the score of the code is `(1 / 2) * 2 = 1`, not high,
where one word would give the score 2.  An empty text counts as one word, two spaces in a row
count as two separators, and a tab is no separator. -/
theorem isHighLinkDensity_splits_on_single_spaces :
    Text trailingSpace [.inDoc [0, 1, 0]] = "ab " ∧
    nwordsOf (Text trailingSpace [.inDoc [0, 1, 0]]) = 2 ∧
    whitespaceWords (Text trailingSpace [.inDoc [0, 1, 0]]) = 1 ∧
    isHighLinkDensity trailingSpace [.inDoc [0, 1, 0]] = false ∧
    nwordsOf "" = 1 ∧ whitespaceWords "" = 0 ∧
    nwordsOf "a  b" = 3 ∧ whitespaceWords "a  b" = 2 ∧
    nwordsOf "a\tb" = 1 ∧ whitespaceWords "a\tb" = 2 := by
  decide!

/-- C20 (amended).  For every node, the word count `W` that `isHighLinkDensity` uses for the
text of the node is the number of space characters of the text plus one: the text is split at
every single space, so that an empty text has one word, a run of `k` spaces separates `k + 1`
words (the ones in between empty), and tabs and newlines do not separate words; `L` is the same
count for the texts of the links put together.  With these counts the result for a node with at
least one link is `W < L * A`. -/
theorem isHighLinkDensity_counts_spaces (doc : Document) (node : Selection) :
    nwordsOf (Text doc node) = (Text doc node).data.count ' ' + 1 ∧
    nwordsOf (stringsJoin ((Find doc node "a").map (fun s => Text doc [s]))) =
      (stringsJoin ((Find doc node "a").map (fun s => Text doc [s]))).data.count ' ' + 1 ∧
    ((Find doc node "a").length ≠ 0 →
      (isHighLinkDensity doc node = true ↔
        (Text doc node).data.count ' ' + 1 <
          ((stringsJoin ((Find doc node "a").map (fun s => Text doc [s]))).data.count ' ' + 1) *
            (Find doc node "a").length)) := by
  have hn : ∀ t : String, nwordsOf t = t.data.count ' ' + 1 := by
    intro t
    unfold nwordsOf stringsSplit
    rw [List.length_map, splitChars_length]
  refine ⟨hn _, hn _, ?_⟩
  intro hA
  rw [← hn, ← hn]
  have hdef : isHighLinkDensity doc node =
      if (Find doc node "a").length = 0 then false
      else if ((nwordsOf (stringsJoin ((Find doc node "a").map (fun s => Text doc [s]))) : ℚ) /
          (nwordsOf (Text doc node) : ℚ)) * ((Find doc node "a").length : ℚ) > 1 then true
        else false := rfl
  have hWq : (0 : ℚ) < (nwordsOf (Text doc node) : ℚ) := by exact_mod_cast nwordsOf_pos _
  rw [hdef, if_neg hA]
  have hint : ((nwordsOf (stringsJoin ((Find doc node "a").map (fun s => Text doc [s]))) : ℚ) /
      (nwordsOf (Text doc node) : ℚ)) * ((Find doc node "a").length : ℚ) > 1 ↔
      nwordsOf (Text doc node) <
        nwordsOf (stringsJoin ((Find doc node "a").map (fun s => Text doc [s]))) *
          (Find doc node "a").length := by
    rw [gt_iff_lt, div_mul_eq_mul_div, lt_div_iff₀ hWq, one_mul]
    exact_mod_cast Iff.rfl
  rw [← hint]
  simp

/-- C20 (amended) at a concrete input: the block with the text `ab ` has two words for the
code. -/
theorem isHighLinkDensity_counts_spaces_witness :
    isHighLinkDensity trailingSpace [.inDoc [0, 1, 0]] = false :=
  Bool.eq_false_iff.2 (fun h =>
    absurd (((isHighLinkDensity_counts_spaces trailingSpace [.inDoc [0, 1, 0]]).2.2
      (by decide)).1 h) (by decide))

/-! ## Binary64 rounding of the sibling recovery -/

/-- The paragraphs `getSiblingsContent` recovers from below a sibling, with the test on the
score computed in binary64: the same paragraphs as in the exact reading. -/
theorem recoveredNodes_binary64 (sw : String → Int) (doc : Document) (baseline : Int)
    (s : NodeRef) (hb0 : 0 ≤ baseline) (hb : baseline < 2 ^ 40)
    (hsw : ∀ text, |sw text| < 2 ^ 40) (hnp : ¬ (atomOf doc s = "p" ∧ Text doc [s] ≠ "")) :
    recoveredNodes sw doc baseline s =
      ((findNode doc "p" s).filter (fun c =>
        decide (Text doc [c] ≠ "") &&
          decide (siblingScoreF64 baseline < f64 ((sw (Text doc [c]) : Int) : ℚ)) &&
          !isHighLinkDensity doc [c])).map (fun c => NodeRef.synthesized (Text doc [c])) := by
  unfold recoveredNodes
  rw [if_neg hnp]
  congr 1
  apply List.filter_congr
  intro c _
  rw [decide_eq_decide.2 (siblingScoreF64_lt_iff baseline (sw (Text doc [c])) hb0 hb (hsw _))]

end Goose
